import Mathlib

/-!
Shallow embedding of the AboutCue (Qnote for EOS) standalone server
(src/unnamed/part_001).  JavaScript objects are modelled as association
lists from field names to a JS value type; the cue store is the `cues`
array of such objects; the refresh engine, the active/pending tracker and
the timing recorder are modelled as functions on an explicit server state,
with wall-clock time and timer firings passed in explicitly.
-/

namespace AboutCue

/-- Model of the JavaScript values this program stores in cue records:
strings, numbers (idealised as rationals), booleans, null, undefined and
the string arrays used for tags. -/
inductive JVal where
  | vUndef
  | vNull
  | vStr (s : String)
  | vNum (q : ℚ)
  | vBool (b : Bool)
  | vArr (xs : List String)
deriving DecidableEq, Repr

/-- A JavaScript object: an insertion-ordered association list of fields.
A key that is absent reads as `undefined`. -/
abbrev Obj := List (String × JVal)

/-- Property read `o[k]`: the first binding of `k`, `undefined` if absent. -/
def getF (o : Obj) (k : String) : JVal :=
  match o.find? (fun p => p.1 == k) with
  | some p => p.2
  | none => JVal.vUndef

/-- Property write `o[k] = v`: overwrite the binding in place, or append a
new binding (JS objects keep insertion order). -/
def setF (o : Obj) (k : String) (v : JVal) : Obj :=
  if o.any (fun p => p.1 == k) then
    o.map (fun p => if p.1 == k then (k, v) else p)
  else o ++ [(k, v)]

/-- JavaScript falsiness: `undefined`, `null`, `''`, `0`, `false`. -/
def jsFalsy : JVal → Bool
  | .vUndef => true
  | .vNull => true
  | .vStr s => s == ""
  | .vNum q => q == 0
  | .vBool b => !b
  | .vArr _ => false

/-- Model of the JS `a || b` idiom used for defaulting. -/
def jsOr (v d : JVal) : JVal := if jsFalsy v then d else v

/-- Renders a JS number as a string, for the numeric values this program
produces: integers and centisecond-derived hundredths print as JS does;
other rationals (never produced) fall back to a num/den rendering. -/
def renderQ (q : ℚ) : String :=
  if q.den = 1 then toString q.num
  else
    let sgn := if q < 0 then "-" else ""
    let a : ℚ := |q|
    let k : ℤ := ⌊a * 100⌋
    if (a * 100).den = 1 then
      let ip := k / 100
      let fr := k % 100
      if fr % 10 = 0 then sgn ++ toString ip ++ "." ++ toString (fr / 10)
      else if fr < 10 then sgn ++ toString ip ++ ".0" ++ toString fr
      else sgn ++ toString ip ++ "." ++ toString fr
    else sgn ++ toString q.num ++ "/" ++ toString q.den

/-- Model of JS `String(v)` / template-literal interpolation. -/
def jsToStr : JVal → String
  | .vStr s => s
  | .vNull => "null"
  | .vUndef => "undefined"
  | .vBool b => if b then "true" else "false"
  | .vNum q => renderQ q
  | .vArr xs => String.intercalate "," xs

/-- Condition under which `updateOrCreateCue` writes a non-always-update
field: `updates[key] !== '' && updates[key] !== undefined && updates[key] !== null`. -/
def hasContent : JVal → Bool
  | .vStr s => s != ""
  | .vUndef => false
  | .vNull => false
  | _ => true

/-- Whitespace for the purposes of the regular expressions in the source
(the `\s` class, restricted to the ASCII characters that occur here). -/
def isWs (c : Char) : Bool :=
  c == ' ' || c == '\t' || c == '\n' || c == '\r' || c == '\x0b' || c == '\x0c'

/-- Model of String.prototype.trim, kept kernel-computable by working on
the character list. -/
def jsTrim (s : String) : String :=
  (((s.toList.dropWhile (fun c => c.isWhitespace)).reverse.dropWhile
      (fun c => c.isWhitespace)).reverse).asString

/-- Splits off a leading run of decimal digits. -/
def leadingDigits (cs : List Char) : List Char × List Char :=
  cs.span (fun c => c.isDigit)

/-- Numeric value of a digit string. -/
def digitsVal (cs : List Char) : ℕ :=
  cs.foldl (fun a c => a * 10 + (c.toNat - 48)) 0

/-- Model of JS `parseInt` (base 10, as used here: optional sign, leading
digits; `none` is NaN). -/
def parseIntJS (s : String) : Option ℤ :=
  let cs := s.toList.dropWhile (fun c => isWs c)
  match cs with
  | '-' :: rest =>
      let (d, _) := leadingDigits rest
      if d.isEmpty then none else some (-(digitsVal d : ℤ))
  | '+' :: rest =>
      let (d, _) := leadingDigits rest
      if d.isEmpty then none else some (digitsVal d : ℤ)
  | _ =>
      let (d, _) := leadingDigits cs
      if d.isEmpty then none else some (digitsVal d : ℤ)

/-- Parses a decimal literal (sign, digits, optional fraction) off the
front of a character list; exponents never occur in this program's data. -/
def parseDec (cs : List Char) : Option (ℚ × List Char) :=
  let (sgn, cs1) : ℚ × List Char :=
    match cs with
    | '-' :: r => (-1, r)
    | '+' :: r => (1, r)
    | _ => (1, cs)
  let (ip, r1) := leadingDigits cs1
  match r1 with
  | '.' :: r2 =>
      let (fp, r3) := leadingDigits r2
      if ip.isEmpty && fp.isEmpty then none
      else some (sgn * ((digitsVal ip : ℚ) + (digitsVal fp : ℚ) / (10 ^ fp.length)), r3)
  | _ => if ip.isEmpty then none else some (sgn * (digitsVal ip : ℚ), r1)

/-- Model of JS `parseFloat` (`none` is NaN). -/
def parseFloatJS (s : String) : Option ℚ :=
  (parseDec (s.toList.dropWhile (fun c => isWs c))).map (fun p => p.1)

/-- Model of JS numeric coercion `Number(v)` for the values compared or
subtracted in this program (`none` is NaN). -/
def numCoerce : JVal → Option ℚ
  | .vNum q => some q
  | .vNull => some 0
  | .vUndef => none
  | .vBool b => some (if b then 1 else 0)
  | .vStr s =>
      let t := jsTrim s
      if t = "" then some 0
      else match parseDec t.toList with
        | some (q, []) => some q
        | _ => none
  | .vArr _ => none

/-- JS `v > 0` after coercion (false when NaN). -/
def jsGtZero (v : JVal) : Bool :=
  match numCoerce v with
  | some q => decide (0 < q)
  | none => false

/-- JS `a !== b` on two numbers-or-NaN (NaN is unequal to everything,
itself included). -/
def optNeq (a b : Option ℚ) : Bool :=
  match a, b with
  | some x, some y => x != y
  | _, _ => true

/-- Whether the comparator value `a - b` sorts `a` at or before `b`;
a NaN difference is treated as 0 by the sort. -/
def optDiffLe (a b : Option ℚ) : Bool :=
  match a, b with
  | some x, some y => decide (x ≤ y)
  | _, _ => true

/-! Cue store (`updateOrCreateCue` and friends, source lines 1427-1507). -/

/-- The `alwaysUpdateFields` list of `updateOrCreateCue`: these fields are
overwritten from console data even when the incoming value is empty. -/
def alwaysUpdateFields : List String :=
  ["last_seen", "mark", "block", "assert", "scene", "part_count", "part_number",
   "follow_hang", "follow_time", "hang_time", "up_time", "down_time", "focus_time",
   "color_time", "beam_time", "up_delay", "down_delay", "focus_delay", "color_delay",
   "beam_delay", "duration"]

/-- The per-field merge of `updateOrCreateCue`'s update branch: iterate the
keys of `updates`; always-update fields are written unconditionally, every
other field only when the incoming value is neither `''` nor `undefined`
nor `null`. -/
def applyUpdates (c : Obj) (updates : Obj) : Obj :=
  updates.foldl
    (fun acc kv =>
      if alwaysUpdateFields.contains kv.1 then setF acc kv.1 kv.2
      else if hasContent kv.2 then setF acc kv.1 kv.2
      else acc)
    c

/-- The effective cue list of a stored cue, `cue.cue_list || '1'`. -/
def effListV (c : Obj) : JVal := jsOr (getF c "cue_list") (.vStr "1")

/-- Rendered effective cue list, `String(cue.cue_list || '1')`. -/
def effListStr (c : Obj) : String := jsToStr (effListV c)

/-- The key `updateOrCreateCue` computes for a stored cue:
`existingPart > 0 ? list/number/part : list/number`. -/
def existingKeyOf (c : Obj) : String :=
  let l := effListStr c
  let pV := jsOr (getF c "part_number") (.vNum 0)
  if jsGtZero pV then
    l ++ "/" ++ jsToStr (getF c "cue_number") ++ "/" ++ jsToStr pV
  else
    l ++ "/" ++ jsToStr (getF c "cue_number")

/-- The fresh record created when no cue matches the key: all user fields
at their defaults (source lines 1465-1487), before the spread of `updates`. -/
def defaultCueFields (cueNumber : String) (cueListV : JVal) : Obj :=
  [("cue_number", .vStr cueNumber), ("cue_list", cueListV),
   ("label", .vStr ""), ("fade_time", .vStr ""), ("notes", .vStr ""),
   ("color", .vStr "#ffffff"), ("image_path", .vNull), ("tags", .vArr []),
   ("mark", .vStr ""), ("block", .vStr ""), ("assert", .vStr ""),
   ("follow_time", .vNull), ("hang_time", .vNull), ("follow_hang", .vStr ""),
   ("scene", .vStr ""), ("part_count", .vNum 0), ("part_number", .vNum 0),
   ("focus_time", .vNull), ("color_time", .vNull), ("beam_time", .vNull),
   ("duration", .vNull)]

/-- `{...defaults, ...updates}`: every key of `updates` overrides. -/
def mkNewCue (cueNumber : String) (cueListV : JVal) (updates : Obj) : Obj :=
  updates.foldl (fun acc kv => setF acc kv.1 kv.2) (defaultCueFields cueNumber cueListV)

/-- In-place mutation of the first cue whose key matches (`cues.find`). -/
def updateFirstMatching (cues : List Obj) (cueKey : String) (updates : Obj) : List Obj :=
  match cues with
  | [] => []
  | c :: rest =>
      if existingKeyOf c == cueKey then applyUpdates c updates :: rest
      else c :: updateFirstMatching rest cueKey updates

/-- The sort comparator of `updateOrCreateCue` (source lines 1492-1504),
phrased as "sorts at or before": list number (parseInt), then cue number
(parseFloat), then part number, each compared by subtraction. -/
def cueLe (a b : Obj) : Bool :=
  let la := (parseIntJS (effListStr a)).map (fun n => (n : ℚ))
  let lb := (parseIntJS (effListStr b)).map (fun n => (n : ℚ))
  if optNeq la lb then optDiffLe la lb
  else
    let na := parseFloatJS (jsToStr (getF a "cue_number"))
    let nb := parseFloatJS (jsToStr (getF b "cue_number"))
    if optNeq na nb then optDiffLe na nb
    else
      let pa := numCoerce (jsOr (getF a "part_number") (.vNum 0))
      let pb := numCoerce (jsOr (getF b "part_number") (.vNum 0))
      optDiffLe pa pb

/-- The store re-sort after a create (`cues.sort(...)`; JS sort is stable,
modelled by a stable insertion sort over the comparator). -/
def sortCues (l : List Obj) : List Obj :=
  List.insertionSort (fun a b => cueLe a b = true) l

/-- Membership of `Set.has` on the received-cue-numbers set: the set holds
the strings passed to `updateOrCreateCue`, so only a string value can match. -/
def hasReceived (rc : List String) (v : JVal) : Bool :=
  match v with
  | .vStr s => rc.contains s
  | _ => false

/-- Insertion into a JS `Set` (insertion-ordered, deduplicating). -/
def insertUniq {α : Type} [DecidableEq α] (xs : List α) (x : α) : List α :=
  if x ∈ xs then xs else xs ++ [x]

/-- Association-list update for `lastKnownCueCount[list] = count`. -/
def setAssoc (m : List (ℤ × ℤ)) (k v : ℤ) : List (ℤ × ℤ) :=
  if m.any (fun p => p.1 == k) then m.map (fun p => if p.1 == k then (k, v) else p)
  else m ++ [(k, v)]

/-- One recorded cue timing (`cueTimings` entries). -/
structure TimingEntry where
  cueNumber : String
  cueList : String
  label : String
  timestamp : ℚ
  timeFromPrevious : ℚ
deriving DecidableEq, Repr

/-- The `showTimings` object. -/
structure ShowTimings where
  isRecording : Bool
  showStartTime : Option ℤ
  lastCueTime : Option ℚ
  lastCueNumber : Option String
  cueTimings : List TimingEntry
deriving DecidableEq, Repr

/-- The mutable server state touched by the modelled functions.  Wall-clock
time is passed to each step explicitly; the `countTimer1Set`,
`countTimer2Set` and `completionTimerSet` flags model whether the
corresponding `setTimeout` callbacks are scheduled, and `evictionRan` is a
ghost flag recording whether the cleanup pass of
`checkBulkRefreshComplete` has executed. -/
structure SState where
  cues : List Obj
  bulkRefreshInProgress : Bool
  bulkRefreshCueList : Option ℤ
  bulkRefreshExpectedCount : ℤ
  bulkRefreshReceivedIndices : List ℚ
  bulkRefreshReceivedCues : List String
  bulkRefreshCountReceived : Bool
  bulkRefreshQueue : List ℤ
  lastKnownCueCount : List (ℤ × ℤ)
  countTimer1Set : Bool
  countTimer2Set : Bool
  completionTimerSet : Bool
  mainPlaybackList : String
  showTimings : ShowTimings
  currentShowElapsed : ℚ
  lastCueFireTime : Option ℤ
  currentPollRequest : Option (String × String)
  activePollingInProgress : Bool
  evictionRan : Bool
deriving DecidableEq, Repr

/-- `String(bulkRefreshCueList)` (JS renders `null` as "null"). -/
def bulkListStr (st : SState) : String :=
  match st.bulkRefreshCueList with
  | some n => toString n
  | none => "null"

/-- The defaulted `cue_list` value of an update object,
`updates.cue_list || '1'`. -/
def updListV (updates : Obj) : JVal := jsOr (getF updates "cue_list") (.vStr "1")

/-- The `list/number[/part]` key `updateOrCreateCue` computes from its
arguments. -/
def updKey (cueNumber : String) (updates : Obj) : String :=
  let cueList := jsToStr (updListV updates)
  let partV := jsOr (getF updates "part_number") (.vNum 0)
  if jsGtZero partV then cueList ++ "/" ++ cueNumber ++ "/" ++ jsToStr partV
  else cueList ++ "/" ++ cueNumber

/-- Model of `updateOrCreateCue(cueNumber, updates)` (source lines
1427-1507): computes the `list/number[/part]` key from `updates`, records
the cue number in `bulkRefreshReceivedCues` when a matching bulk refresh is
in progress, then either merges into the first key-matching cue or appends
a fresh default record and re-sorts the store. -/
def updateOrCreateCue (st : SState) (cueNumber : String) (updates : Obj) : SState :=
  let cueKey := updKey cueNumber updates
  let rc :=
    if st.bulkRefreshInProgress && bulkListStr st == jsToStr (updListV updates) then
      insertUniq st.bulkRefreshReceivedCues cueNumber
    else st.bulkRefreshReceivedCues
  if st.cues.any (fun c => existingKeyOf c == cueKey) then
    { st with bulkRefreshReceivedCues := rc,
              cues := updateFirstMatching st.cues cueKey updates }
  else
    { st with bulkRefreshReceivedCues := rc,
              cues := sortCues (st.cues ++ [mkNewCue cueNumber (updListV updates) updates]) }

/-! Timing recorder (shared by `setActiveCueByListAndNumber` lines
1212-1241 and `parseCueText` lines 1362-1391). -/

/-- In-place update of the first timing entry for a cue number
(`findIndex(t => String(t.cueNumber) === String(cueNum))` followed by field
assignment); `none` when no entry exists. -/
def updateTimingEntry (ts : List TimingEntry) (cueNum : String) (timestamp tfp : ℚ) :
    Option (List TimingEntry) :=
  match ts with
  | [] => none
  | e :: rest =>
      if e.cueNumber = cueNum then
        some ({ e with timestamp := timestamp, timeFromPrevious := tfp } :: rest)
      else (updateTimingEntry rest cueNum timestamp tfp).map (fun l => e :: l)

/-- The show start used by a recording step: the stored showStartTime,
replaced by the current wall clock when falsy (null or zero). -/
def recStartMs (tm : ShowTimings) (now : ℤ) : ℤ :=
  match tm.showStartTime with
  | some t => if t = 0 then now else t
  | none => now

/-- The timestamp a recording step assigns: `(now - showStartTime) / 1000`. -/
def recTimestamp (tm : ShowTimings) (now : ℤ) : ℚ :=
  ((now : ℚ) - (recStartMs tm now : ℚ)) / 1000

/-- The time-from-previous a recording step assigns. -/
def recDelta (tm : ShowTimings) (now : ℤ) : ℚ :=
  match tm.lastCueTime with
  | some t => if 0 < t then recTimestamp tm now - t else 0
  | none => 0

/-- The recording step run while `isRecording` on a main-list active cue:
set `showStartTime` if falsy, compute the timestamp and delta, and -- when
the cue number differs from `lastCueNumber` -- update the existing entry in
place or append a new one, then advance `lastCueTime` / `lastCueNumber`. -/
def recordTiming (tm : ShowTimings) (cueNum cueList label : String) (now : ℤ) :
    ShowTimings :=
  let timestamp : ℚ := recTimestamp tm now
  let timeFromPrevious : ℚ := recDelta tm now
  let tm2 := { tm with showStartTime := some (recStartMs tm now) }
  if tm2.lastCueNumber = some cueNum then tm2
  else
    let newTimings :=
      match updateTimingEntry tm2.cueTimings cueNum timestamp timeFromPrevious with
      | some ts => ts
      | none => tm2.cueTimings ++ [⟨cueNum, cueList, label, timestamp, timeFromPrevious⟩]
    { tm2 with cueTimings := newTimings,
               lastCueTime := some timestamp,
               lastCueNumber := some cueNum }

/-! Active/pending tracking (`setActiveCueByListAndNumber`, lines 1184-1256). -/

/-- Clears `last_seen === type` on every cue of one effective list. -/
def clearTypeInList (cues : List Obj) (ty list : String) : List Obj :=
  cues.map (fun c =>
    if getF c "last_seen" == JVal.vStr ty && effListStr c == list then
      setF c "last_seen" .vNull
    else c)

/-- Clears `last_seen === type` on every cue of every list. -/
def clearTypeAll (cues : List Obj) (ty : String) : List Obj :=
  cues.map (fun c =>
    if getF c "last_seen" == JVal.vStr ty then setF c "last_seen" .vNull else c)

/-- Predicate of the `cues.find` locating the target cue:
`String(c.cue_number) === String(cueNum) && String(c.cue_list || '1') === String(list)`. -/
def isTargetCue (list cueNum : String) (c : Obj) : Bool :=
  jsToStr (getF c "cue_number") == cueNum && effListStr c == list

/-- Sets `last_seen` on the first cue matching the target predicate. -/
def setLastSeenFirst (cues : List Obj) (list cueNum : String) (tyV : JVal) : List Obj :=
  match cues with
  | [] => []
  | c :: rest =>
      if isTargetCue list cueNum c then setF c "last_seen" tyV :: rest
      else c :: setLastSeenFirst rest list cueNum tyV

/-- Model of `setActiveCueByListAndNumber(list, cueNum, type)`: clear the
type on the same list only, mark (or create) the target cue, then run the
recording branch (main list, while recording) and the playback-elapsed
branch (main list, not recording). -/
def setActiveCue (st : SState) (list cueNum ty : String) (now : ℤ) : SState :=
  let tyV : JVal := .vStr ty
  let st := { st with cues := clearTypeInList st.cues ty list }
  let target := st.cues.find? (isTargetCue list cueNum)
  let targetLabel :=
    match target with
    | some c => (match getF c "label" with | .vStr s => s | _ => "")
    | none => ""
  let st :=
    match target with
    | some _ => { st with cues := setLastSeenFirst st.cues list cueNum tyV }
    | none => updateOrCreateCue st cueNum [("cue_list", .vStr list), ("last_seen", tyV)]
  let st :=
    if ty = "active" && st.showTimings.isRecording && list = st.mainPlaybackList then
      { st with showTimings := recordTiming st.showTimings cueNum list targetLabel now }
    else st
  let st :=
    if ty = "active" && list = st.mainPlaybackList && !st.showTimings.isRecording
        && 0 < st.showTimings.cueTimings.length then
      match st.showTimings.cueTimings.find? (fun t => t.cueNumber = cueNum) with
      | some t => { st with currentShowElapsed := t.timestamp, lastCueFireTime := some now }
      | none => st
    else st
  st

/-! Cue text parsing (`parseCueText`, lines 1260-1425).  The regular
expressions of the source are modelled by hand-rolled matchers with the
same backtracking semantics. -/

/-- Matches `(\d+(?:\.\d+)?)` at the front: a digit run with an optional
fraction; returns the token and the rest. -/
def parseCueNumToken (cs : List Char) : Option (String × List Char) :=
  let (d, r) := leadingDigits cs
  if d.isEmpty then none
  else
    match r with
    | '.' :: r2 =>
        let (f, r3) := leadingDigits r2
        if f.isEmpty then some (d.asString, r)
        else some ((d ++ '.' :: f).asString, r3)
    | _ => some (d.asString, r)

/-- Matches the `(?:\s+(.*))?$` tail after the cue number: end of input, or
whitespace then a remainder free of line terminators (`.` in a JS regex
matches neither `\n` nor `\r`); returns the captured remainder. -/
def tailRemainder (rest : List Char) : Option String :=
  match rest with
  | [] => some ""
  | c :: _ =>
      if isWs c then
        let tl := rest.dropWhile (fun ch => isWs ch)
        if tl.any (fun ch => ch == '\n' || ch == '\r') then none
        else some tl.asString
      else none

/-- Model of `text.match(/^(\d+)\/(\d+(?:\.\d+)?)(?:\s+(.*))?$/)` giving
(list, cue, trimmed remainder). -/
def matchListCue (text : String) : Option (String × String × String) :=
  let cs := text.toList
  let (d1, r1) := leadingDigits cs
  if d1.isEmpty then none
  else
    match r1 with
    | '/' :: r2 =>
        match parseCueNumToken r2 with
        | some (num, r3) =>
            (tailRemainder r3).map (fun rem => (d1.asString, num, jsTrim rem))
        | none => none
    | _ => none

/-- Model of the fallback `text.match(/^(\d+(?:\.\d+)?)(?:\s+(.*))?$/)`
giving (cue, trimmed remainder). -/
def matchCueOnly (text : String) : Option (String × String) :=
  match parseCueNumToken text.toList with
  | some (num, rest) => (tailRemainder rest).map (fun rem => (num, jsTrim rem))
  | none => none

/-- The `[\d.:]+` fade-time character class. -/
def isFadeChar (c : Char) : Bool := c.isDigit || c == '.' || c == ':'

/-- Pattern 1, `^([\d.:]+)\s+(\d+)%\s*$`: fade then percent; returns
(fade, percent digits). -/
def p1Match (cs : List Char) : Option (String × String) :=
  let (f, r1) := cs.span (fun c => isFadeChar c)
  if f.isEmpty then none
  else
    match r1 with
    | c :: _ =>
        if isWs c then
          let r2 := r1.dropWhile (fun ch => isWs ch)
          let (d, r3) := leadingDigits r2
          if d.isEmpty then none
          else
            match r3 with
            | '%' :: r4 => if r4.all (fun ch => isWs ch) then some (f.asString, d.asString) else none
            | _ => none
        else none
    | [] => none

/-- Pattern 3, `^([\d.:]+)\s*$`: a bare fade time. -/
def p3Match (cs : List Char) : Option String :=
  let (f, r) := cs.span (fun c => isFadeChar c)
  if f.isEmpty then none
  else if r.all (fun ch => isWs ch) then some f.asString else none

/-- Searches for the shortest non-empty lazy `(.+?)` label prefix (which
cannot cross a line terminator) whose suffix matches the given tail. -/
def splitSearch {β : Type} (tailFn : List Char → Option β) :
    List Char → List Char → Option (String × β)
  | _, [] => none
  | acc, c :: rest =>
      if c == '\n' || c == '\r' then none
      else
        match tailFn rest with
        | some b => some ((acc ++ [c]).asString, b)
        | none => splitSearch tailFn (acc ++ [c]) rest

/-- The `\s+([\d.:]+)\s+(\d+)%\s*$` tail of pattern 2. -/
def tailFadePct (cs : List Char) : Option (String × String) :=
  match cs with
  | c :: _ => if isWs c then p1Match (cs.dropWhile (fun ch => isWs ch)) else none
  | [] => none

/-- The `\s+([\d.:]+)\s*$` tail of pattern 4. -/
def tailFadeOnly (cs : List Char) : Option String :=
  match cs with
  | c :: _ => if isWs c then p3Match (cs.dropWhile (fun ch => isWs ch)) else none
  | [] => none

/-- The four remainder patterns of `parseCueText` tried in order, returning
(fadeTime, completion, label); when none matches, the whole remainder is
the label. -/
def parseRemainder (remainder : String) : String × String × String :=
  let cs := remainder.toList
  match p1Match cs with
  | some (f, pct) => (f, pct ++ "%", "")
  | none =>
      match splitSearch tailFadePct [] cs with
      | some (lab, f, pct) => (f, pct ++ "%", jsTrim lab)
      | none =>
          match p3Match cs with
          | some f => (f, "", "")
          | none =>
              match splitSearch tailFadeOnly [] cs with
              | some (lab, f) => (f, "", jsTrim lab)
              | none => ("", "", remainder)

/-- The empty/reset test of `parseCueText`: `!text`, the `'0.0 100%'`
literal, a `'0.0 '` or `'0/0'` lead, or `''`. -/
def isResetText (text : String) : Bool :=
  text == "" || text == "0.0 100%" || text.startsWith "0.0 " || text.startsWith "0/0"

/-- The body of `parseCueText` after a successful list/cue extraction:
remainder decomposition, the recording and playback branches, the same-list
clear and the upsert with `cue_list`, `label`, `last_seen`, `completion`
and conditionally `fade_time`. -/
def parseCueTextCore (st : SState) (ty list cue remainder : String) (now : ℤ) : SState :=
  let (fadeTime, completion, label) := parseRemainder remainder
  let st :=
    if ty = "active" && st.showTimings.isRecording && list = st.mainPlaybackList then
      { st with showTimings := recordTiming st.showTimings cue list label now }
    else st
  let st :=
    if ty = "active" && list = st.mainPlaybackList && !st.showTimings.isRecording
        && 0 < st.showTimings.cueTimings.length then
      match st.showTimings.cueTimings.find? (fun t => t.cueNumber = cue) with
      | some t => { st with currentShowElapsed := t.timestamp, lastCueFireTime := some now }
      | none => st
    else st
  let st := { st with cues := clearTypeInList st.cues ty list }
  let updates : Obj :=
    [("cue_list", .vStr list), ("label", .vStr label),
     ("last_seen", .vStr ty), ("completion", .vStr completion)]
  let updates :=
    if fadeTime != "" && (completion == "0%" || ty == "pending") then
      updates ++ [("fade_time", .vStr fadeTime)]
    else updates
  updateOrCreateCue st cue updates

/-- JS truthiness of the optional `contextList` argument (an empty string
would count as absent). -/
def ctxTruthy (o : Option String) : Option String :=
  match o with
  | some s => if s = "" then none else some s
  | none => none

/-- Model of `parseCueText(cueText, type, contextList)`: trim, handle the
empty/reset texts (per-list clear with a context, global clear without),
then try the `list/cue` format and the context-list fallback. -/
def parseCueText (st : SState) (cueText ty : String) (contextList : Option String)
    (now : ℤ) : SState :=
  let text := jsTrim cueText
  if isResetText text then
    let newCues :=
      match ctxTruthy contextList with
      | some l => clearTypeInList st.cues ty l
      | none => clearTypeAll st.cues ty
    { st with cues := newCues }
  else
    match matchListCue text with
    | some (list, cue, remainder) => parseCueTextCore st ty list cue remainder now
    | none =>
        match ctxTruthy contextList with
        | some ctx =>
            match matchCueOnly text with
            | some (cue, remainder) => parseCueTextCore st ty ctx cue remainder now
            | none => st
        | none => st

/-! Cue argument decoding (`parseEOSCueMessage`, lines 1054-1151). -/

/-- Model of JS `Math.round` (half rounds toward positive infinity). -/
def jsRound (q : ℚ) : ℤ := ⌊q + 1 / 2⌋

/-- The centisecond-to-second conversion `Math.round(x / 10) / 100`. -/
def convCenti (q : ℚ) : ℚ := (jsRound (q / 10) : ℚ) / 100

/-- A nullable number as stored in a cue field (`null` for "not set"). -/
def optQ : Option ℚ → JVal
  | some q => .vNum q
  | none => .vNull

/-- Positional argument access `args[i]` (absent reads as `undefined`). -/
def argN (args : List JVal) (i : ℕ) : JVal := args.getD i (.vUndef)

/-- The `v || 0` coercion inside the `Math.max` duration computation (the
arguments there are numbers or null/undefined). -/
def numOr0 : JVal → ℚ
  | .vNum q => q
  | _ => 0

/-- A duration argument: `(typeof v === 'number' && v >= 0) ? Math.round(v / 10) / 100 : null`. -/
def durOf (v : JVal) : Option ℚ :=
  match v with
  | .vNum q => if 0 ≤ q then some (convCenti q) else none
  | _ => none

/-- A delay argument: `(typeof v === 'number' && v > 0) ? Math.round(v / 10) / 100 : null`. -/
def delayOf (v : JVal) : Option ℚ :=
  match v with
  | .vNum q => if 0 < q then some (convCenti q) else none
  | _ => none

/-- A millisecond-or-null duration kept raw: `(typeof v === 'number' && v >= 0) ? v : null`. -/
def msOf (v : JVal) : Option ℚ :=
  match v with
  | .vNum q => if 0 ≤ q then some q else none
  | _ => none

/-- A string argument defaulting to the empty string. -/
def strOf (v : JVal) : String :=
  match v with
  | .vStr s => s
  | _ => ""

/-- `parseInt(partNumber) || 0`. -/
def parseIntOr0 (s : String) : ℚ :=
  match parseIntJS s with
  | some n => (n : ℚ)
  | none => 0

/-- The update object `parseEOSCueMessage` builds from a CueData response's
argument vector (source lines 1054-1151), in the field order of the
`updateOrCreateCue` call. -/
def parseCueArgs (listNum partNumber : String) (args : List JVal) : Obj :=
  let label := strOf (argN args 2)
  let uid := argN args 1
  let upMs := msOf (argN args 3)
  let downMs := msOf (argN args 5)
  let focusTime := durOf (argN args 7)
  let colorTime := durOf (argN args 9)
  let beamTime := durOf (argN args 11)
  let upDelay := delayOf (argN args 4)
  let downDelay := delayOf (argN args 6)
  let focusDelay := delayOf (argN args 8)
  let colorDelay := delayOf (argN args 10)
  let beamDelay := delayOf (argN args 12)
  let mark := strOf (argN args 16)
  let block := strOf (argN args 17)
  let assertS := strOf (argN args 18)
  let followMs : ℚ := match argN args 20 with | .vNum q => q | _ => -1
  let hangMs : ℚ := match argN args 21 with | .vNum q => q | _ => -1
  let partCount : ℚ := match argN args 26 with | .vNum q => q | _ => 0
  let scene := strOf (argN args 28)
  let sceneEnd := argN args 29 == JVal.vBool true || argN args 29 == JVal.vNum 1
  let upTime := upMs.map convCenti
  let downTime := downMs.map convCenti
  let followTime : Option ℚ := if 0 ≤ followMs then some (convCenti followMs) else none
  let hangTime : Option ℚ := if 0 ≤ hangMs then some (convCenti hangMs) else none
  let duration : ℚ :=
    max (max (max (max (numOr0 (optQ upMs)) (numOr0 (optQ downMs)))
      (numOr0 (argN args 7))) (numOr0 (argN args 9))) (numOr0 (argN args 11))
  let durationSec : Option ℚ := if 0 < duration then some (convCenti duration) else none
  let fadeTimeDisplay :=
    match upTime, downTime with
    | some u, some d => if u = d then renderQ u else "↑" ++ renderQ u ++ " ↓" ++ renderQ d
    | some u, none => renderQ u
    | none, some d => renderQ d
    | none, none => ""
  let followHang :=
    let f := match followTime with | some t => "F" ++ renderQ t | none => ""
    match hangTime with
    | some t => if f = "" then "H" ++ renderQ t else f ++ " H" ++ renderQ t
    | none => f
  [("label", .vStr label), ("uid", uid), ("cue_list", .vStr listNum),
   ("fade_time", .vStr fadeTimeDisplay),
   ("up_time", optQ upTime), ("down_time", optQ downTime),
   ("focus_time", optQ focusTime), ("color_time", optQ colorTime),
   ("beam_time", optQ beamTime),
   ("up_delay", optQ upDelay), ("down_delay", optQ downDelay),
   ("focus_delay", optQ focusDelay), ("color_delay", optQ colorDelay),
   ("beam_delay", optQ beamDelay),
   ("mark", .vStr mark), ("block", .vStr block), ("assert", .vStr assertS),
   ("follow_time", optQ followTime), ("hang_time", optQ hangTime),
   ("follow_hang", .vStr followHang),
   ("part_count", .vNum partCount), ("scene", .vStr scene),
   ("scene_end", .vBool sceneEnd), ("duration", optQ durationSec),
   ("part_number", .vNum (parseIntOr0 partNumber))]

/-! Refresh engine (`requestAllCues`, `handleCueCountResponse`,
`handleCueIndexResponse`, `checkBulkRefreshComplete`; lines 395-576). -/

/-- Model of `requestAllCues(cueList)` on an initialised transport: queue
while a refresh is in progress (deduplicating against queue and active
list), otherwise reset the refresh state, send the count request and
schedule the first count timeout. -/
def requestAllCuesS (st : SState) (cueList : ℤ) : SState :=
  if st.bulkRefreshInProgress then
    if !st.bulkRefreshQueue.contains cueList && st.bulkRefreshCueList ≠ some cueList then
      { st with bulkRefreshQueue := st.bulkRefreshQueue ++ [cueList] }
    else st
  else
    { st with bulkRefreshInProgress := true,
              bulkRefreshCueList := some cueList,
              bulkRefreshExpectedCount := 0,
              bulkRefreshReceivedIndices := [],
              bulkRefreshReceivedCues := [],
              countTimer1Set := true }

/-- The cleanup predicate of `checkBulkRefreshComplete`: keep cues of other
lists, and cues of the refreshed list whose number was received. -/
def cleanupKeep (rc : List String) (cueListStr : String) (c : Obj) : Bool :=
  effListStr c != cueListStr || hasReceived rc (getF c "cue_number")

/-- Model of `checkBulkRefreshComplete`: when a refresh is in progress,
evict from its list every cue whose number was not received, reset the
refresh state, and start the next queued refresh if any.  The ghost flag
`evictionRan` records that the eviction pass executed. -/
def checkBulkRefreshCompleteS (st : SState) : SState :=
  if !st.bulkRefreshInProgress then st
  else
    let newCues := st.cues.filter (fun c => cleanupKeep st.bulkRefreshReceivedCues (bulkListStr st) c)
    let st := { st with cues := newCues,
                        evictionRan := true,
                        bulkRefreshInProgress := false,
                        bulkRefreshCueList := none,
                        bulkRefreshExpectedCount := 0,
                        bulkRefreshReceivedIndices := [],
                        bulkRefreshReceivedCues := [] }
    match st.bulkRefreshQueue with
    | [] => st
    | next :: rest => requestAllCuesS { st with bulkRefreshQueue := rest } next

/-- Model of `handleCueCountResponse(cueList, count)`; the list argument is
`parseInt` of a path part, `none` standing for NaN (which the strict
inequality guard always rejects). -/
def handleCueCountResponseS (st : SState) (cueList : Option ℤ) (count : ℤ) : SState :=
  match cueList with
  | none => st
  | some l =>
      if !st.bulkRefreshInProgress || st.bulkRefreshCueList ≠ some l then st
      else
        let st := { st with bulkRefreshExpectedCount := count,
                            lastKnownCueCount := setAssoc st.lastKnownCueCount l count }
        if count = 0 then checkBulkRefreshCompleteS st
        else { st with completionTimerSet := true }

/-- Model of `handleCueIndexResponse(cueList, index)`: drop the response
unless a matching refresh is in progress, the count has been received and
the index is in range; otherwise record the index.  The returned flag says
whether the completion threshold was reached (the source defers the actual
cleanup with `setImmediate` so the current cue is upserted first). -/
def handleCueIndexResponseS (st : SState) (cueList : Option ℤ) (index : ℚ) :
    SState × Bool :=
  match cueList with
  | none => (st, false)
  | some l =>
      if !st.bulkRefreshInProgress || st.bulkRefreshCueList ≠ some l then (st, false)
      else if st.bulkRefreshExpectedCount = 0 then (st, false)
      else if index < 0 || (st.bulkRefreshExpectedCount : ℚ) ≤ index then (st, false)
      else
        let ri := insertUniq st.bulkRefreshReceivedIndices index
        ({ st with bulkRefreshReceivedIndices := ri },
         st.bulkRefreshExpectedCount ≤ (ri.length : ℤ))

/-- `parseInt(listNum) >= 0` (false on NaN). -/
def parsedGe0 (s : String) : Bool :=
  match parseIntJS s with
  | some n => decide (0 ≤ n)
  | none => false

/-- The wildcard early-count extraction at the top of the CueData branch:
`pathCount !== null` and the count still missing set the expected count and
schedule a completion timeout. -/
def cueDataWildcard (st : SState) (pathCount : Option ℤ) : SState :=
  match pathCount with
  | some pc =>
      if st.bulkRefreshInProgress && st.bulkRefreshExpectedCount = 0 then
        { st with bulkRefreshExpectedCount := pc,
                  bulkRefreshCountReceived := true,
                  completionTimerSet := true }
      else st
  | none => st

/-- The unconditional upsert of the decoded cue plus the polled
active/pending handling. -/
def cueDataUpsert (st : SState) (listNum cueNumber partNumber : String)
    (args : List JVal) (now : ℤ) : SState :=
  if cueNumber != "" && cueNumber != "0" && parsedGe0 listNum then
    let st := updateOrCreateCue st cueNumber (parseCueArgs listNum partNumber args)
    match st.currentPollRequest with
    | some pr =>
        if st.activePollingInProgress && listNum == pr.1 then
          let st := setActiveCue st listNum cueNumber pr.2 now
          { st with activePollingInProgress := false, currentPollRequest := none }
        else st
    | none => st
  else st

/-- Model of the CueData branch of `parseEOSCueMessage` (lines 992-1161):
wildcard early-count extraction, completion accounting from `args[0]`, the
unconditional upsert of the decoded cue, the polled active/pending
handling, and the deferred completion check (which the source delays with
`setImmediate` so the final cue is upserted before cleanup). -/
def cueDataStep (st : SState) (listNum cueNumber partNumber : String)
    (pathCount : Option ℤ) (args : List JVal) (now : ℤ) : SState :=
  let st := cueDataWildcard st pathCount
  let p :=
    match argN args 0 with
    | .vNum i => handleCueIndexResponseS st (parseIntJS listNum) i
    | _ => (st, false)
  let st := p.1
  let st := cueDataUpsert st listNum cueNumber partNumber args now
  if p.2 then checkBulkRefreshCompleteS st else st

/-- The first count timeout of `requestAllCues` (5 s): if the count is
still missing, send the wildcard fallbacks and schedule the final timeout. -/
def countTimeout1Step (st : SState) : SState :=
  if !st.countTimer1Set then st
  else
    let st := { st with countTimer1Set := false }
    if st.bulkRefreshInProgress && st.bulkRefreshExpectedCount = 0 then
      { st with countTimer2Set := true }
    else st

/-- The final count timeout: if the count never arrived, mark the refresh
failed and release -- without any cleanup pass. -/
def countTimeout2Step (st : SState) : SState :=
  if !st.countTimer2Set then st
  else
    let st := { st with countTimer2Set := false }
    if st.bulkRefreshInProgress && st.bulkRefreshExpectedCount = 0 then
      { st with bulkRefreshInProgress := false, bulkRefreshCueList := none }
    else st

/-- A scheduled completion timeout firing. -/
def completionTimeoutStep (st : SState) : SState :=
  if !st.completionTimerSet then st
  else checkBulkRefreshCompleteS { st with completionTimerSet := false }

/-- The decoded events the modelled engine consumes. -/
inductive Ev where
  | perList (list cueNum ty : String) (now : ℤ)
  | textEv (txt ty : String) (ctx : Option String) (now : ℤ)
  | countResp (list : ℤ) (count : ℤ)
  | cueData (listNum cueNumber partNumber : String) (pathCount : Option ℤ)
      (args : List JVal) (now : ℤ)
  | countTimeout1
  | countTimeout2
  | completionTimeout
  | startRefresh (list : ℤ)
deriving Repr

/-- One engine step. -/
def step (st : SState) : Ev → SState
  | .perList l c ty now => setActiveCue st l c ty now
  | .textEv txt ty ctx now => parseCueText st txt ty ctx now
  | .countResp l c => handleCueCountResponseS st (some l) c
  | .cueData ln cn pn pc args now => cueDataStep st ln cn pn pc args now
  | .countTimeout1 => countTimeout1Step st
  | .countTimeout2 => countTimeout2Step st
  | .completionTimeout => completionTimeoutStep st
  | .startRefresh l => requestAllCuesS st l

/-- Runs a sequence of events. -/
def run (st : SState) (evs : List Ev) : SState := evs.foldl step st

/-! HTTP endpoints relevant to the claims (lines 1816-1871, 2165-2181). -/

/-- `POST /api/cues/:cueNumber/notes`. -/
def notesEndpoint (st : SState) (cueNumber : String) (notes : JVal) : SState :=
  updateOrCreateCue st cueNumber [("notes", notes)]

/-- `POST /api/cues/:cueNumber/color`. -/
def colorEndpoint (st : SState) (cueNumber : String) (color : JVal) : SState :=
  updateOrCreateCue st cueNumber [("color", color)]

/-- `POST /api/cues/:cueNumber/tags` (non-array bodies become `[]`). -/
def tagsEndpoint (st : SState) (cueNumber : String) (tags : JVal) : SState :=
  let tagArray := match tags with | .vArr xs => JVal.vArr xs | _ => JVal.vArr []
  updateOrCreateCue st cueNumber [("tags", tagArray)]

/-- `POST /api/show-timings/start`: switches recording on and stamps
`showStartTime` with the wall clock of the endpoint call. -/
def startTimingsEndpoint (st : SState) (now : ℤ) : SState :=
  { st with showTimings := ⟨true, some now, none, none, []⟩,
            currentShowElapsed := 0,
            lastCueFireTime := none }

/-! Basic lemmas about field reads and writes. -/

theorem find_map_set_ne (o : Obj) (k k' : String) (v : JVal) (h : k' ≠ k) :
    (o.map (fun p => if p.1 == k then (k, v) else p)).find? (fun p => p.1 == k') =
      o.find? (fun p => p.1 == k') := by
  induction o with
  | nil => rfl
  | cons p rest ih =>
      cases hpk : p.1 == k with
      | true =>
          have hp1 : p.1 = k := by simpa using hpk
          have h1 : (k == k') = false := beq_eq_false_iff_ne.2 (fun hkk => h hkk.symm)
          have h2 : (p.1 == k') = false := beq_eq_false_iff_ne.2 (fun hkk => h (hp1 ▸ hkk).symm)
          simp only [List.map_cons, hpk, if_true, List.find?_cons, h1, h2]
          exact ih
      | false =>
          simp only [List.map_cons, hpk, Bool.false_eq_true, if_false, List.find?_cons]
          cases hpk' : p.1 == k' with
          | true => simp only [hpk']
          | false => simp only [hpk']; exact ih

theorem find_append_single_ne (o : Obj) (k k' : String) (v : JVal) (h : k' ≠ k) :
    (o ++ [(k, v)]).find? (fun p => p.1 == k') = o.find? (fun p => p.1 == k') := by
  induction o with
  | nil =>
      have h1 : (k == k') = false := beq_eq_false_iff_ne.2 (fun hkk => h hkk.symm)
      simp [List.find?, h1]
  | cons p rest ih =>
      cases hpk' : p.1 == k' with
      | true => simp only [List.cons_append, List.find?_cons, hpk']
      | false => simp only [List.cons_append, List.find?_cons, hpk']; exact ih

/-- Writing one field leaves every other field unchanged. -/
theorem getF_setF_ne (o : Obj) (k k' : String) (v : JVal) (h : k' ≠ k) :
    getF (setF o k v) k' = getF o k' := by
  unfold setF getF
  cases ha : o.any (fun p => p.1 == k) with
  | true => simp only [ha, if_true, find_map_set_ne o k k' v h]
  | false => simp only [ha, Bool.false_eq_true, if_false, find_append_single_ne o k k' v h]

theorem find_map_set_same (o : Obj) (k : String) (v : JVal)
    (h : o.any (fun p => p.1 == k) = true) :
    (o.map (fun p => if p.1 == k then (k, v) else p)).find? (fun p => p.1 == k) =
      some (k, v) := by
  induction o with
  | nil => simp at h
  | cons p rest ih =>
      cases hpk : p.1 == k with
      | true => simp only [List.map_cons, hpk, if_true, List.find?_cons, beq_self_eq_true]
      | false =>
          have h' : rest.any (fun p => p.1 == k) = true := by
            simpa [List.any_cons, hpk] using h
          simp only [List.map_cons, hpk, Bool.false_eq_true, if_false, List.find?_cons]
          exact ih h'

theorem find_append_single_same (o : Obj) (k : String) (v : JVal)
    (h : o.any (fun p => p.1 == k) = false) :
    (o ++ [(k, v)]).find? (fun p => p.1 == k) = some (k, v) := by
  induction o with
  | nil => simp [List.find?]
  | cons p rest ih =>
      have hpk : (p.1 == k) = false := by
        cases hx : p.1 == k
        · rfl
        · rw [List.any_cons, hx] at h; simp at h
      have h' : rest.any (fun p => p.1 == k) = false := by
        rw [List.any_cons, hpk] at h; simpa using h
      simp only [List.cons_append, List.find?_cons, hpk]
      exact ih h'

/-- Writing one field makes it read back. -/
theorem getF_setF_same (o : Obj) (k : String) (v : JVal) :
    getF (setF o k v) k = v := by
  unfold setF getF
  cases ha : o.any (fun p => p.1 == k) with
  | true => simp only [ha, if_true, find_map_set_same o k v ha]
  | false => simp only [ha, Bool.false_eq_true, if_false, find_append_single_same o k v ha]

/-- One step of the `applyUpdates` fold. -/
def applyStep (acc : Obj) (kv : String × JVal) : Obj :=
  if alwaysUpdateFields.contains kv.1 then setF acc kv.1 kv.2
  else if hasContent kv.2 then setF acc kv.1 kv.2
  else acc

theorem applyUpdates_eq_foldl (c : Obj) (updates : Obj) :
    applyUpdates c updates = updates.foldl applyStep c := rfl

theorem applyStep_getF_ne (c : Obj) (kv : String × JVal) (f : String) (h : kv.1 ≠ f) :
    getF (applyStep c kv) f = getF c f := by
  unfold applyStep
  cases h1 : alwaysUpdateFields.contains kv.1 with
  | true =>
      simp only [h1, if_true]
      exact getF_setF_ne _ _ _ _ (fun he => h he.symm)
  | false =>
      cases h2 : hasContent kv.2 with
      | true =>
          simp only [h1, h2, Bool.false_eq_true, if_false, if_true]
          exact getF_setF_ne _ _ _ _ (fun he => h he.symm)
      | false => simp only [h1, h2, Bool.false_eq_true, if_false]

/-- Fields not named by any update key are untouched by the merge. -/
theorem applyUpdates_getF_not_key (updates : Obj) (c : Obj) (f : String)
    (h : ∀ kv ∈ updates, kv.1 ≠ f) :
    getF (applyUpdates c updates) f = getF c f := by
  rw [applyUpdates_eq_foldl]
  induction updates generalizing c with
  | nil => rfl
  | cons kv rest ih =>
      have hkv : kv.1 ≠ f := h kv (List.mem_cons_self kv rest)
      have hrest : ∀ kv' ∈ rest, kv'.1 ≠ f := fun kv' hm => h kv' (List.mem_cons_of_mem kv hm)
      rw [List.foldl_cons, ih (applyStep c kv) hrest, applyStep_getF_ne c kv f hkv]

/-- A field outside the always-update set whose incoming values are all
empty/undefined/null is untouched by the merge. -/
theorem applyUpdates_getF_empty (updates : Obj) (c : Obj) (f : String)
    (hA : alwaysUpdateFields.contains f = false)
    (h : ∀ kv ∈ updates, kv.1 = f → hasContent kv.2 = false) :
    getF (applyUpdates c updates) f = getF c f := by
  rw [applyUpdates_eq_foldl]
  induction updates generalizing c with
  | nil => rfl
  | cons kv rest ih =>
      have hrest : ∀ kv' ∈ rest, kv'.1 = f → hasContent kv'.2 = false :=
        fun kv' hm => h kv' (List.mem_cons_of_mem kv hm)
      have hstep : getF (applyStep c kv) f = getF c f := by
        by_cases hkf : kv.1 = f
        · have hc : hasContent kv.2 = false := h kv (List.mem_cons_self kv rest) hkf
          unfold applyStep
          rw [hkf, hA, hc]
          simp
        · exact applyStep_getF_ne c kv f hkf
      rw [List.foldl_cons, ih (applyStep c kv) hrest, hstep]

/-- Folding plain writes leaves unnamed fields unchanged. -/
theorem foldl_setF_getF_not_key (updates : Obj) (c : Obj) (f : String)
    (h : ∀ kv ∈ updates, kv.1 ≠ f) :
    getF (updates.foldl (fun acc kv => setF acc kv.1 kv.2) c) f = getF c f := by
  induction updates generalizing c with
  | nil => rfl
  | cons kv rest ih =>
      have hkv : kv.1 ≠ f := h kv (List.mem_cons_self kv rest)
      have hrest : ∀ kv' ∈ rest, kv'.1 ≠ f := fun kv' hm => h kv' (List.mem_cons_of_mem kv hm)
      rw [List.foldl_cons, ih _ hrest, getF_setF_ne _ _ _ _ (fun he => hkv he.symm)]

/-- Fields not named by any update key read from the defaults in a freshly
created record. -/
theorem mkNewCue_getF_not_key (updates : Obj) (cueNumber : String) (cueListV : JVal)
    (f : String) (h : ∀ kv ∈ updates, kv.1 ≠ f) :
    getF (mkNewCue cueNumber cueListV updates) f = getF (defaultCueFields cueNumber cueListV) f :=
  foldl_setF_getF_not_key updates _ f h

/-- The store permutation produced by the post-create sort. -/
theorem sortCues_perm (l : List Obj) : List.Perm (sortCues l) l :=
  List.perm_insertionSort _ l

/-! Lemmas about the refresh cleanup. -/

theorem requestAllCuesS_cues (st : SState) (l : ℤ) :
    (requestAllCuesS st l).cues = st.cues := by
  unfold requestAllCuesS
  split
  · split
    · rfl
    · rfl
  · rfl

/-- While a refresh is in progress, the completion check filters the store
with the cleanup predicate (and nothing else changes the store). -/
theorem checkBulk_cues (st : SState) (hip : st.bulkRefreshInProgress = true) :
    (checkBulkRefreshCompleteS st).cues =
      st.cues.filter (fun c => cleanupKeep st.bulkRefreshReceivedCues (bulkListStr st) c) := by
  unfold checkBulkRefreshCompleteS
  rw [hip]
  simp only [Bool.not_true, Bool.false_eq_true, if_false]
  split
  · rfl
  · rw [requestAllCuesS_cues]

theorem filter_filter_sub (cs : List Obj) (p q : Obj → Bool)
    (h : ∀ c, q c = true → p c = true) :
    (cs.filter p).filter q = cs.filter q := by
  induction cs with
  | nil => rfl
  | cons c rest ih =>
      cases hq : q c with
      | true => have hp := h c hq; simp [List.filter_cons, hp, hq, ih]
      | false =>
          cases hp : p c with
          | true => simp [List.filter_cons, hp, hq, ih]
          | false => simp [List.filter_cons, hp, hq, ih]

/-- C2: After the cleanup step of a refresh of list L, no cue with
cue_list = L whose cue_number was not received during that refresh remains
in the store, every cue of list L whose cue_number was received is
retained, and every cue whose cue_list ≠ L is exactly as it was before the
cleanup. -/
theorem C2_cleanup_evicts_exactly (st : SState) (L : ℤ)
    (hip : st.bulkRefreshInProgress = true)
    (hl : st.bulkRefreshCueList = some L) :
    (∀ c ∈ (checkBulkRefreshCompleteS st).cues,
        effListStr c = toString L →
        hasReceived st.bulkRefreshReceivedCues (getF c "cue_number") = true) ∧
    (∀ c ∈ st.cues,
        effListStr c = toString L →
        hasReceived st.bulkRefreshReceivedCues (getF c "cue_number") = true →
        c ∈ (checkBulkRefreshCompleteS st).cues) ∧
    (checkBulkRefreshCompleteS st).cues.filter (fun c => effListStr c != toString L) =
      st.cues.filter (fun c => effListStr c != toString L) := by
  have hbls : bulkListStr st = toString L := by unfold bulkListStr; rw [hl]
  have hcues := checkBulk_cues st hip
  refine ⟨?_, ?_, ?_⟩
  · intro c hc hel
    rw [hcues] at hc
    have hk := List.of_mem_filter hc
    unfold cleanupKeep at hk
    rw [hbls, hel] at hk
    simpa using hk
  · intro c hc hel hrec
    rw [hcues]
    refine List.mem_filter.2 ⟨hc, ?_⟩
    unfold cleanupKeep
    rw [hbls, hrec]
    simp
  · rw [hcues]
    refine filter_filter_sub _ _ _ (fun c hq => ?_)
    unfold cleanupKeep
    rw [hbls, hq]
    simp

/-! Concrete states used by the witnesses. -/

/-- Example cue: list 1, number 5, user note. -/
def exCueA : Obj :=
  [("cue_number", .vStr "5"), ("cue_list", .vStr "1"), ("notes", .vStr "hello")]

/-- Example cue: list 1, number 6. -/
def exCueB : Obj := [("cue_number", .vStr "6"), ("cue_list", .vStr "1")]

/-- Example cue: list 2, number 10. -/
def exCueC : Obj := [("cue_number", .vStr "10"), ("cue_list", .vStr "2")]

/-- Idle timing state. -/
def exTimings : ShowTimings := ⟨false, none, none, none, []⟩

/-- A state in the middle of a refresh of list 1 that received cue 5 only. -/
def exState : SState :=
  { cues := [exCueA, exCueB, exCueC],
    bulkRefreshInProgress := true,
    bulkRefreshCueList := some 1,
    bulkRefreshExpectedCount := 1,
    bulkRefreshReceivedIndices := [0],
    bulkRefreshReceivedCues := ["5"],
    bulkRefreshCountReceived := true,
    bulkRefreshQueue := [],
    lastKnownCueCount := [],
    countTimer1Set := false,
    countTimer2Set := false,
    completionTimerSet := false,
    mainPlaybackList := "1",
    showTimings := exTimings,
    currentShowElapsed := 0,
    lastCueFireTime := none,
    currentPollRequest := none,
    activePollingInProgress := false,
    evictionRan := false }

/-- Witness for C2: the cleanup of the concrete refresh state drops cue 6,
keeps cue 5 and leaves list 2 untouched. -/
theorem C2_cleanup_evicts_exactly_witness :
    (∀ c ∈ (checkBulkRefreshCompleteS exState).cues,
        effListStr c = toString (1 : ℤ) →
        hasReceived exState.bulkRefreshReceivedCues (getF c "cue_number") = true) ∧
    (∀ c ∈ exState.cues,
        effListStr c = toString (1 : ℤ) →
        hasReceived exState.bulkRefreshReceivedCues (getF c "cue_number") = true →
        c ∈ (checkBulkRefreshCompleteS exState).cues) ∧
    (checkBulkRefreshCompleteS exState).cues.filter
        (fun c => effListStr c != toString (1 : ℤ)) =
      exState.cues.filter (fun c => effListStr c != toString (1 : ℤ)) :=
  C2_cleanup_evicts_exactly exState 1 rfl rfl

/-! Cue argument conversion (C9). -/

theorem getF_cons (k : String) (v : JVal) (rest : Obj) (f : String) :
    getF ((k, v) :: rest) f = if k == f then v else getF rest f := by
  unfold getF
  cases h : k == f with
  | true => simp [List.find?_cons, h]
  | false => simp [List.find?_cons, h]

/-- C9 counterexample: in a CueData argument vector whose up-delay
(position 4) is the non-negative integer 0 centiseconds, the stored
`up_delay` is null, so a delay is not "mapped to null exactly when x is
negative" as the claim states. -/
theorem C9_delay_zero_counterexample :
    ¬ (getF (parseCueArgs "1" "0"
          [JVal.vNum 0, JVal.vStr "u1", JVal.vStr "Lbl", JVal.vNum 500, JVal.vNum 0])
        "up_delay" = JVal.vNull ↔ (0 : ℚ) < 0) := by decide

/-- An argument vector with generic time and delay values at positions
3-12 (index, uid and label in front). -/
def mkTimeArgs (uid lbl : JVal) (d3 d4 d5 d6 d7 d8 d9 d10 d11 d12 : ℚ) : List JVal :=
  [.vNum 0, uid, lbl, .vNum d3, .vNum d4, .vNum d5, .vNum d6, .vNum d7, .vNum d8,
   .vNum d9, .vNum d10, .vNum d11, .vNum d12]

/-- C9 (amended): every duration value (positions 3, 5, 7, 9, 11), given
as integer centiseconds x, is converted to seconds as `round(x / 10) / 100`
whenever x ≥ 0 and is mapped to null exactly when x is negative; every
delay value (positions 4, 6, 8, 10, 12) is converted the same way whenever
x > 0 and is mapped to null when x ≤ 0 (a zero delay becomes null, not 0). -/
theorem C9_time_fields (l p : String) (uid lbl : JVal)
    (d3 d4 d5 d6 d7 d8 d9 d10 d11 d12 : ℚ) :
    (getF (parseCueArgs l p (mkTimeArgs uid lbl d3 d4 d5 d6 d7 d8 d9 d10 d11 d12)) "up_time" =
      if 0 ≤ d3 then JVal.vNum (convCenti d3) else JVal.vNull) ∧
    (getF (parseCueArgs l p (mkTimeArgs uid lbl d3 d4 d5 d6 d7 d8 d9 d10 d11 d12)) "down_time" =
      if 0 ≤ d5 then JVal.vNum (convCenti d5) else JVal.vNull) ∧
    (getF (parseCueArgs l p (mkTimeArgs uid lbl d3 d4 d5 d6 d7 d8 d9 d10 d11 d12)) "focus_time" =
      if 0 ≤ d7 then JVal.vNum (convCenti d7) else JVal.vNull) ∧
    (getF (parseCueArgs l p (mkTimeArgs uid lbl d3 d4 d5 d6 d7 d8 d9 d10 d11 d12)) "color_time" =
      if 0 ≤ d9 then JVal.vNum (convCenti d9) else JVal.vNull) ∧
    (getF (parseCueArgs l p (mkTimeArgs uid lbl d3 d4 d5 d6 d7 d8 d9 d10 d11 d12)) "beam_time" =
      if 0 ≤ d11 then JVal.vNum (convCenti d11) else JVal.vNull) ∧
    (getF (parseCueArgs l p (mkTimeArgs uid lbl d3 d4 d5 d6 d7 d8 d9 d10 d11 d12)) "up_delay" =
      if 0 < d4 then JVal.vNum (convCenti d4) else JVal.vNull) ∧
    (getF (parseCueArgs l p (mkTimeArgs uid lbl d3 d4 d5 d6 d7 d8 d9 d10 d11 d12)) "down_delay" =
      if 0 < d6 then JVal.vNum (convCenti d6) else JVal.vNull) ∧
    (getF (parseCueArgs l p (mkTimeArgs uid lbl d3 d4 d5 d6 d7 d8 d9 d10 d11 d12)) "focus_delay" =
      if 0 < d8 then JVal.vNum (convCenti d8) else JVal.vNull) ∧
    (getF (parseCueArgs l p (mkTimeArgs uid lbl d3 d4 d5 d6 d7 d8 d9 d10 d11 d12)) "color_delay" =
      if 0 < d10 then JVal.vNum (convCenti d10) else JVal.vNull) ∧
    (getF (parseCueArgs l p (mkTimeArgs uid lbl d3 d4 d5 d6 d7 d8 d9 d10 d11 d12)) "beam_delay" =
      if 0 < d12 then JVal.vNum (convCenti d12) else JVal.vNull) := by
  refine ⟨?_, ?_, ?_, ?_, ?_, ?_, ?_, ?_, ?_, ?_⟩
  · have e : getF (parseCueArgs l p (mkTimeArgs uid lbl d3 d4 d5 d6 d7 d8 d9 d10 d11 d12))
        "up_time" = optQ ((msOf (JVal.vNum d3)).map convCenti) := rfl
    rw [e]; by_cases h : 0 ≤ d3 <;> simp [msOf, optQ, h]
  · have e : getF (parseCueArgs l p (mkTimeArgs uid lbl d3 d4 d5 d6 d7 d8 d9 d10 d11 d12))
        "down_time" = optQ ((msOf (JVal.vNum d5)).map convCenti) := rfl
    rw [e]; by_cases h : 0 ≤ d5 <;> simp [msOf, optQ, h]
  · have e : getF (parseCueArgs l p (mkTimeArgs uid lbl d3 d4 d5 d6 d7 d8 d9 d10 d11 d12))
        "focus_time" = optQ (durOf (JVal.vNum d7)) := rfl
    rw [e]; by_cases h : 0 ≤ d7 <;> simp [durOf, optQ, h]
  · have e : getF (parseCueArgs l p (mkTimeArgs uid lbl d3 d4 d5 d6 d7 d8 d9 d10 d11 d12))
        "color_time" = optQ (durOf (JVal.vNum d9)) := rfl
    rw [e]; by_cases h : 0 ≤ d9 <;> simp [durOf, optQ, h]
  · have e : getF (parseCueArgs l p (mkTimeArgs uid lbl d3 d4 d5 d6 d7 d8 d9 d10 d11 d12))
        "beam_time" = optQ (durOf (JVal.vNum d11)) := rfl
    rw [e]; by_cases h : 0 ≤ d11 <;> simp [durOf, optQ, h]
  · have e : getF (parseCueArgs l p (mkTimeArgs uid lbl d3 d4 d5 d6 d7 d8 d9 d10 d11 d12))
        "up_delay" = optQ (delayOf (JVal.vNum d4)) := rfl
    rw [e]; by_cases h : 0 < d4 <;> simp [delayOf, optQ, h]
  · have e : getF (parseCueArgs l p (mkTimeArgs uid lbl d3 d4 d5 d6 d7 d8 d9 d10 d11 d12))
        "down_delay" = optQ (delayOf (JVal.vNum d6)) := rfl
    rw [e]; by_cases h : 0 < d6 <;> simp [delayOf, optQ, h]
  · have e : getF (parseCueArgs l p (mkTimeArgs uid lbl d3 d4 d5 d6 d7 d8 d9 d10 d11 d12))
        "focus_delay" = optQ (delayOf (JVal.vNum d8)) := rfl
    rw [e]; by_cases h : 0 < d8 <;> simp [delayOf, optQ, h]
  · have e : getF (parseCueArgs l p (mkTimeArgs uid lbl d3 d4 d5 d6 d7 d8 d9 d10 d11 d12))
        "color_delay" = optQ (delayOf (JVal.vNum d10)) := rfl
    rw [e]; by_cases h : 0 < d10 <;> simp [delayOf, optQ, h]
  · have e : getF (parseCueArgs l p (mkTimeArgs uid lbl d3 d4 d5 d6 d7 d8 d9 d10 d11 d12))
        "beam_delay" = optQ (delayOf (JVal.vNum d12)) := rfl
    rw [e]; by_cases h : 0 < d12 <;> simp [delayOf, optQ, h]

/-! Branch lemmas for `updateOrCreateCue`. -/

/-- When no stored cue matches the computed key, `updateOrCreateCue`
appends a fresh default record and re-sorts. -/
theorem updateOrCreateCue_cues_create (st : SState) (n : String) (updates : Obj)
    (h : st.cues.any (fun c => existingKeyOf c == updKey n updates) = false) :
    (updateOrCreateCue st n updates).cues =
      sortCues (st.cues ++ [mkNewCue n (updListV updates) updates]) := by
  unfold updateOrCreateCue
  simp only [h, Bool.false_eq_true, if_false]

/-- When some stored cue matches the computed key, `updateOrCreateCue`
merges into the first match. -/
theorem updateOrCreateCue_cues_update (st : SState) (n : String) (updates : Obj)
    (h : st.cues.any (fun c => existingKeyOf c == updKey n updates) = true) :
    (updateOrCreateCue st n updates).cues =
      updateFirstMatching st.cues (updKey n updates) updates := by
  unfold updateOrCreateCue
  simp only [h, if_true]

/-- A one-field annotation update with no cue_list targets the key
`"1/" ++ n` and, when no stored cue matches it, appends a fresh default
record in list '1' carrying the annotation; every pre-existing cue
survives. -/
theorem annotation_creates (st : SState) (n fld : String) (v : JVal)
    (hkey : updKey n [(fld, v)] = "1" ++ "/" ++ n)
    (hlv : updListV [(fld, v)] = JVal.vStr "1")
    (h : ∀ c ∈ st.cues, existingKeyOf c ≠ "1" ++ "/" ++ n)
    (hfl : fld ≠ "cue_list") (hfn : fld ≠ "cue_number") :
    List.Perm (updateOrCreateCue st n [(fld, v)]).cues
        (st.cues ++ [mkNewCue n (JVal.vStr "1") [(fld, v)]]) ∧
    getF (mkNewCue n (JVal.vStr "1") [(fld, v)]) "cue_list" = JVal.vStr "1" ∧
    getF (mkNewCue n (JVal.vStr "1") [(fld, v)]) "cue_number" = JVal.vStr n ∧
    getF (mkNewCue n (JVal.vStr "1") [(fld, v)]) fld = v ∧
    (∀ c ∈ st.cues, c ∈ (updateOrCreateCue st n [(fld, v)]).cues) := by
  have hany : st.cues.any (fun c => existingKeyOf c == updKey n [(fld, v)]) = false := by
    rw [List.any_eq_false]
    intro c hc
    rw [hkey]
    simpa using h c hc
  have hcues : (updateOrCreateCue st n [(fld, v)]).cues =
      sortCues (st.cues ++ [mkNewCue n (JVal.vStr "1") [(fld, v)]]) := by
    rw [updateOrCreateCue_cues_create st n [(fld, v)] hany, hlv]
  have hperm : List.Perm (updateOrCreateCue st n [(fld, v)]).cues
      (st.cues ++ [mkNewCue n (JVal.vStr "1") [(fld, v)]]) := by
    rw [hcues]; exact sortCues_perm _
  refine ⟨hperm, ?_, ?_, ?_, ?_⟩
  · have hne : ∀ kv ∈ ([(fld, v)] : Obj), kv.1 ≠ "cue_list" := by
      intro kv hkv
      rcases List.mem_singleton.1 hkv with rfl
      exact hfl
    rw [mkNewCue_getF_not_key _ _ _ _ hne]
    rfl
  · have hne : ∀ kv ∈ ([(fld, v)] : Obj), kv.1 ≠ "cue_number" := by
      intro kv hkv
      rcases List.mem_singleton.1 hkv with rfl
      exact hfn
    rw [mkNewCue_getF_not_key _ _ _ _ hne]
    rfl
  · show getF (setF (defaultCueFields n (JVal.vStr "1")) fld v) fld = v
    exact getF_setF_same _ _ _
  · intro c hc
    exact hperm.symm.subset (List.mem_append_left _ hc)

/-- C10: each of the three user-annotation endpoints (notes, color, tags)
passes no cue_list, so `updateOrCreateCue` targets the key (cue_list='1',
cueNumber, part 0); when every stored cue has a different key (for example
the only cue with that number lives in another list), each endpoint appends
a fresh default record in list '1' carrying its annotation instead of
annotating the existing cue, and every pre-existing cue survives. -/
theorem C10_annotation_defaults_to_list1 (st : SState) (n : String)
    (notes color tags : JVal)
    (h : ∀ c ∈ st.cues, existingKeyOf c ≠ "1" ++ "/" ++ n) :
    (List.Perm (notesEndpoint st n notes).cues
        (st.cues ++ [mkNewCue n (JVal.vStr "1") [("notes", notes)]]) ∧
      getF (mkNewCue n (JVal.vStr "1") [("notes", notes)]) "cue_list" = JVal.vStr "1" ∧
      getF (mkNewCue n (JVal.vStr "1") [("notes", notes)]) "cue_number" = JVal.vStr n ∧
      getF (mkNewCue n (JVal.vStr "1") [("notes", notes)]) "notes" = notes ∧
      getF (mkNewCue n (JVal.vStr "1") [("notes", notes)]) "color" = JVal.vStr "#ffffff" ∧
      (∀ c ∈ st.cues, c ∈ (notesEndpoint st n notes).cues)) ∧
    (List.Perm (colorEndpoint st n color).cues
        (st.cues ++ [mkNewCue n (JVal.vStr "1") [("color", color)]]) ∧
      getF (mkNewCue n (JVal.vStr "1") [("color", color)]) "cue_list" = JVal.vStr "1" ∧
      getF (mkNewCue n (JVal.vStr "1") [("color", color)]) "cue_number" = JVal.vStr n ∧
      getF (mkNewCue n (JVal.vStr "1") [("color", color)]) "color" = color ∧
      (∀ c ∈ st.cues, c ∈ (colorEndpoint st n color).cues)) ∧
    (List.Perm (tagsEndpoint st n tags).cues
        (st.cues ++ [mkNewCue n (JVal.vStr "1")
          [("tags", match tags with | .vArr xs => JVal.vArr xs | _ => JVal.vArr [])]]) ∧
      getF (mkNewCue n (JVal.vStr "1")
          [("tags", match tags with | .vArr xs => JVal.vArr xs | _ => JVal.vArr [])])
        "cue_list" = JVal.vStr "1" ∧
      getF (mkNewCue n (JVal.vStr "1")
          [("tags", match tags with | .vArr xs => JVal.vArr xs | _ => JVal.vArr [])])
        "cue_number" = JVal.vStr n ∧
      getF (mkNewCue n (JVal.vStr "1")
          [("tags", match tags with | .vArr xs => JVal.vArr xs | _ => JVal.vArr [])])
        "tags" = (match tags with | .vArr xs => JVal.vArr xs | _ => JVal.vArr []) ∧
      (∀ c ∈ st.cues, c ∈ (tagsEndpoint st n tags).cues)) := by
  refine ⟨?_, ?_, ?_⟩
  · obtain ⟨h1, h2, h3, h4, h5⟩ :=
      annotation_creates st n "notes" notes rfl rfl h (by decide) (by decide)
    refine ⟨h1, h2, h3, h4, ?_, h5⟩
    have hne : ∀ kv ∈ ([("notes", notes)] : Obj), kv.1 ≠ "color" := by
      intro kv hkv
      rcases List.mem_singleton.1 hkv with rfl
      simp
    rw [mkNewCue_getF_not_key _ _ _ _ hne]
    rfl
  · exact annotation_creates st n "color" color rfl rfl h (by decide) (by decide)
  · exact annotation_creates st n "tags"
      (match tags with | .vArr xs => JVal.vArr xs | _ => JVal.vArr []) rfl rfl h
      (by decide) (by decide)

/-- Witness for C10: annotating cue 10 (which exists only in list 2)
through each endpoint creates a fresh list-1 record. -/
theorem C10_annotation_defaults_to_list1_witness :
    (List.Perm (notesEndpoint exState "10" (JVal.vStr "note x")).cues
        (exState.cues ++ [mkNewCue "10" (JVal.vStr "1") [("notes", JVal.vStr "note x")]]) ∧
      getF (mkNewCue "10" (JVal.vStr "1") [("notes", JVal.vStr "note x")]) "cue_list" =
        JVal.vStr "1" ∧
      getF (mkNewCue "10" (JVal.vStr "1") [("notes", JVal.vStr "note x")]) "cue_number" =
        JVal.vStr "10" ∧
      getF (mkNewCue "10" (JVal.vStr "1") [("notes", JVal.vStr "note x")]) "notes" =
        JVal.vStr "note x" ∧
      getF (mkNewCue "10" (JVal.vStr "1") [("notes", JVal.vStr "note x")]) "color" =
        JVal.vStr "#ffffff" ∧
      (∀ c ∈ exState.cues, c ∈ (notesEndpoint exState "10" (JVal.vStr "note x")).cues)) ∧
    (List.Perm (colorEndpoint exState "10" (JVal.vStr "#ff0000")).cues
        (exState.cues ++ [mkNewCue "10" (JVal.vStr "1") [("color", JVal.vStr "#ff0000")]]) ∧
      getF (mkNewCue "10" (JVal.vStr "1") [("color", JVal.vStr "#ff0000")]) "cue_list" =
        JVal.vStr "1" ∧
      getF (mkNewCue "10" (JVal.vStr "1") [("color", JVal.vStr "#ff0000")]) "cue_number" =
        JVal.vStr "10" ∧
      getF (mkNewCue "10" (JVal.vStr "1") [("color", JVal.vStr "#ff0000")]) "color" =
        JVal.vStr "#ff0000" ∧
      (∀ c ∈ exState.cues, c ∈ (colorEndpoint exState "10" (JVal.vStr "#ff0000")).cues)) ∧
    (List.Perm (tagsEndpoint exState "10" (JVal.vArr ["a"])).cues
        (exState.cues ++ [mkNewCue "10" (JVal.vStr "1")
          [("tags", match JVal.vArr ["a"] with | .vArr xs => JVal.vArr xs | _ => JVal.vArr [])]]) ∧
      getF (mkNewCue "10" (JVal.vStr "1")
          [("tags", match JVal.vArr ["a"] with | .vArr xs => JVal.vArr xs | _ => JVal.vArr [])])
        "cue_list" = JVal.vStr "1" ∧
      getF (mkNewCue "10" (JVal.vStr "1")
          [("tags", match JVal.vArr ["a"] with | .vArr xs => JVal.vArr xs | _ => JVal.vArr [])])
        "cue_number" = JVal.vStr "10" ∧
      getF (mkNewCue "10" (JVal.vStr "1")
          [("tags", match JVal.vArr ["a"] with | .vArr xs => JVal.vArr xs | _ => JVal.vArr [])])
        "tags" = (match JVal.vArr ["a"] with | .vArr xs => JVal.vArr xs | _ => JVal.vArr []) ∧
      (∀ c ∈ exState.cues, c ∈ (tagsEndpoint exState "10" (JVal.vArr ["a"])).cues)) :=
  C10_annotation_defaults_to_list1 exState "10" (JVal.vStr "note x") (JVal.vStr "#ff0000")
    (JVal.vArr ["a"]) (by decide)

/-! Reset-text clearing (C4). -/

/-- Cues of other lists are untouched, in place, by a per-list clear. -/
theorem clearTypeInList_frame (cs : List Obj) (ty l : String) :
    List.Forall₂ (fun c c' => effListStr c ≠ l → c' = c) cs (clearTypeInList cs ty l) := by
  induction cs with
  | nil => exact List.Forall₂.nil
  | cons c rest ih =>
      unfold clearTypeInList
      rw [List.map_cons]
      refine List.Forall₂.cons ?_ ih
      intro h
      have h2 : (effListStr c == l) = false := by simpa using h
      simp [h2]

/-- After a global clear no cue carries the cleared type. -/
theorem clearTypeAll_not_type (cs : List Obj) (ty : String) :
    ∀ c' ∈ clearTypeAll cs ty, getF c' "last_seen" ≠ JVal.vStr ty := by
  intro c' hc'
  unfold clearTypeAll at hc'
  rcases List.mem_map.1 hc' with ⟨c, _, rfl⟩
  cases h : getF c "last_seen" == JVal.vStr ty with
  | true =>
      simp only [h, if_true]
      rw [getF_setF_same]
      intro hcontra
      cases hcontra
  | false =>
      simp only [h, Bool.false_eq_true, if_false]
      simpa using h

/-- Example cue marked active in list 1. -/
def exActiveA : Obj :=
  [("cue_number", .vStr "5"), ("cue_list", .vStr "1"), ("last_seen", .vStr "active")]

/-- Example cue marked active in list 2. -/
def exActiveB : Obj :=
  [("cue_number", .vStr "9"), ("cue_list", .vStr "2"), ("last_seen", .vStr "active")]

/-- An idle state whose lists 1 and 2 each have an active cue. -/
def exStateActive : SState :=
  { exState with cues := [exActiveA, exActiveB],
                 bulkRefreshInProgress := false,
                 bulkRefreshCueList := none }

/-- C4 counterexample: an empty active text with no contextual list wipes
last_seen on the list-2 cue too -- the fallback in the source clears every
list, so the claim's "never a wipe across all lists" fails. -/
theorem C4_global_wipe_counterexample :
    getF exActiveB "last_seen" = JVal.vStr "active" ∧
    (parseCueText exStateActive "" "active" none 0).cues.map
        (fun c => getF c "last_seen") = [JVal.vNull, JVal.vNull] := by decide

/-- C4 (amended): for every empty or reset active/pending cue text, when a
contextual list is known, last_seen of that type is cleared only on cues of
that list and every cue of another list is unchanged in place; when no
contextual list is known, the clear falls back to a global wipe over every
list. -/
theorem C4_reset_clear_scope (st : SState) (txt ty l : String) (now : ℤ)
    (hreset : isResetText (jsTrim txt) = true) (hl : l ≠ "") :
    ((parseCueText st txt ty (some l) now).cues = clearTypeInList st.cues ty l ∧
     List.Forall₂ (fun c c' => effListStr c ≠ l → c' = c)
       st.cues (parseCueText st txt ty (some l) now).cues) ∧
    ((parseCueText st txt ty none now).cues = clearTypeAll st.cues ty ∧
     ∀ c ∈ (parseCueText st txt ty none now).cues,
       getF c "last_seen" ≠ JVal.vStr ty) := by
  have h1 : (parseCueText st txt ty (some l) now).cues = clearTypeInList st.cues ty l := by
    unfold parseCueText
    simp [hreset, ctxTruthy, hl]
  have h2 : (parseCueText st txt ty none now).cues = clearTypeAll st.cues ty := by
    unfold parseCueText
    simp [hreset, ctxTruthy]
  refine ⟨⟨h1, ?_⟩, h2, ?_⟩
  · rw [h1]
    exact clearTypeInList_frame st.cues ty l
  · rw [h2]
    exact clearTypeAll_not_type st.cues ty

/-- Witness for C4 at the concrete two-list active state. -/
theorem C4_reset_clear_scope_witness :
    ((parseCueText exStateActive "" "active" "1" 0).cues =
        clearTypeInList exStateActive.cues "active" "1" ∧
     List.Forall₂ (fun c c' => effListStr c ≠ "1" → c' = c)
       exStateActive.cues (parseCueText exStateActive "" "active" "1" 0).cues) ∧
    ((parseCueText exStateActive "" "active" none 0).cues =
        clearTypeAll exStateActive.cues "active" ∧
     ∀ c ∈ (parseCueText exStateActive "" "active" none 0).cues,
       getF c "last_seen" ≠ JVal.vStr "active") :=
  C4_reset_clear_scope exStateActive "" "active" "1" 0 (by decide) (by decide)

/-! Show-start semantics (C7). -/

theorem updateOrCreateCue_showTimings (st : SState) (n : String) (u : Obj) :
    (updateOrCreateCue st n u).showTimings = st.showTimings := by
  unfold updateOrCreateCue
  cases h : st.cues.any (fun c => existingKeyOf c == updKey n u) <;>
    cases h2 : st.bulkRefreshInProgress && bulkListStr st == jsToStr (updListV u) <;>
      simp [h, h2]

theorem updateOrCreateCue_main (st : SState) (n : String) (u : Obj) :
    (updateOrCreateCue st n u).mainPlaybackList = st.mainPlaybackList := by
  unfold updateOrCreateCue
  cases h : st.cues.any (fun c => existingKeyOf c == updKey n u) <;>
    cases h2 : st.bulkRefreshInProgress && bulkListStr st == jsToStr (updListV u) <;>
      simp [h, h2]

/-- The show timings after `setActiveCueByListAndNumber`: the recording
branch runs exactly under its guard, with some label read off the store. -/
theorem setActiveCue_showTimings (st : SState) (l n ty : String) (now : ℤ) :
    ∃ lb : String, (setActiveCue st l n ty now).showTimings =
      if ty = "active" && st.showTimings.isRecording && l = st.mainPlaybackList
      then recordTiming st.showTimings n l lb now
      else st.showTimings := by
  refine ⟨match (clearTypeInList st.cues ty l).find? (isTargetCue l n) with
          | some c => (match getF c "label" with | .vStr s => s | _ => "")
          | none => "", ?_⟩
  unfold setActiveCue
  cases htgt : (clearTypeInList st.cues ty l).find? (isTargetCue l n) with
  | none =>
      simp only [htgt, updateOrCreateCue_showTimings, updateOrCreateCue_main]
      split <;> (try split) <;> (try split) <;>
        first
          | rfl
          | exact (updateOrCreateCue_showTimings _ _ _).trans rfl
  | some c =>
      simp only [htgt]
      split <;> (try split) <;> (try split) <;> rfl

/-- An idle state with an empty store. -/
def exStateIdle : SState :=
  { exState with cues := [],
                 bulkRefreshInProgress := false,
                 bulkRefreshCueList := none }

/-- C7 counterexample: recording starts (endpoint call at wall clock
1000 ms) and the first main-list active-cue event arrives at wall clock
6000 ms; the stored showStartTime is 1000, the endpoint-call time -- not
the event time 6000 -- and the first recorded timestamp is 5 s, not 0. -/
theorem C7_showStartTime_counterexample :
    (setActiveCue (startTimingsEndpoint exStateIdle 1000) "1" "5" "active"
        6000).showTimings.showStartTime = some 1000 ∧
    (setActiveCue (startTimingsEndpoint exStateIdle 1000) "1" "5" "active"
        6000).showTimings.cueTimings.map (fun t => t.timestamp) = [5] := by
  obtain ⟨lb, hshow⟩ :=
    setActiveCue_showTimings (startTimingsEndpoint exStateIdle 1000) "1" "5" "active" 6000
  have htm : (startTimingsEndpoint exStateIdle 1000).showTimings =
      ⟨true, some 1000, none, none, []⟩ := rfl
  have hmain : (startTimingsEndpoint exStateIdle 1000).mainPlaybackList = "1" := rfl
  rw [htm, hmain] at hshow
  simp only [decide_eq_true_eq, eq_self_iff_true, decide_True, Bool.and_self, if_true,
    ShowTimings.isRecording] at hshow
  have hrt : recordTiming ⟨true, some 1000, none, none, []⟩ "5" "1" lb 6000 =
      ⟨true, some 1000, some 5, some "5", [⟨"5", "1", lb, 5, 0⟩]⟩ := by
    unfold recordTiming recTimestamp recDelta recStartMs
    norm_num [updateTimingEntry]
    simp
  rw [hrt] at hshow
  rw [hshow]
  constructor
  · rfl
  · rfl

/-- C7 (amended): showStartTime is stamped when recording starts (the
start endpoint's wall clock t0), not at the first active-cue event; the
first recorded cue's timestamp is (t1 - t0) / 1000 where t1 is the first
event's wall clock, and its time-from-previous is 0.  (The event path's
fallback assigns showStartTime only when it is unset or zero.) -/
theorem C7_show_start_semantics (st : SState) (t0 t1 : ℤ) (l n : String)
    (hl : st.mainPlaybackList = l) (ht0 : t0 ≠ 0) :
    (setActiveCue (startTimingsEndpoint st t0) l n "active" t1).showTimings.showStartTime
        = some t0 ∧
    (setActiveCue (startTimingsEndpoint st t0) l n "active" t1).showTimings.cueTimings.map
        (fun t => (t.cueNumber, t.timestamp, t.timeFromPrevious))
        = [(n, ((t1 : ℚ) - (t0 : ℚ)) / 1000, 0)] := by
  obtain ⟨lb, hshow⟩ := setActiveCue_showTimings (startTimingsEndpoint st t0) l n "active" t1
  have hmain : (startTimingsEndpoint st t0).mainPlaybackList = l := by
    simpa [startTimingsEndpoint] using hl
  have htm : (startTimingsEndpoint st t0).showTimings = ⟨true, some t0, none, none, []⟩ := rfl
  rw [htm, hmain] at hshow
  simp only [decide_eq_true_eq, eq_self_iff_true, decide_True, Bool.and_self, if_true,
    ShowTimings.isRecording] at hshow
  have hrt : recordTiming ⟨true, some t0, none, none, []⟩ n l lb t1 =
      ⟨true, some t0, some (((t1 : ℚ) - (t0 : ℚ)) / 1000), some n,
        [⟨n, l, lb, ((t1 : ℚ) - (t0 : ℚ)) / 1000, 0⟩]⟩ := by
    unfold recordTiming
    simp [recStartMs, recTimestamp, recDelta, ht0, updateTimingEntry]
  rw [hrt] at hshow
  rw [hshow]
  constructor
  · rfl
  · rfl

/-- Witness for the amended C7 at concrete times 1000 ms and 6000 ms. -/
theorem C7_show_start_semantics_witness :
    (setActiveCue (startTimingsEndpoint exStateIdle 1000) "1" "7" "active"
        6000).showTimings.showStartTime = some 1000 ∧
    (setActiveCue (startTimingsEndpoint exStateIdle 1000) "1" "7" "active"
        6000).showTimings.cueTimings.map (fun t => (t.cueNumber, t.timestamp, t.timeFromPrevious))
        = [("7", ((6000 : ℚ) - (1000 : ℚ)) / 1000, 0)] :=
  C7_show_start_semantics exStateIdle 1000 6000 "1" "7" rfl (by decide)

/-! Stale CueData handling (C5). -/

theorem updateOrCreateCue_receivedIndices (st : SState) (n : String) (u : Obj) :
    (updateOrCreateCue st n u).bulkRefreshReceivedIndices =
      st.bulkRefreshReceivedIndices := by
  unfold updateOrCreateCue
  cases h : st.cues.any (fun c => existingKeyOf c == updKey n u) <;>
    cases h2 : st.bulkRefreshInProgress && bulkListStr st == jsToStr (updListV u) <;>
      simp [h, h2]

theorem updateOrCreateCue_pollReq (st : SState) (n : String) (u : Obj) :
    (updateOrCreateCue st n u).currentPollRequest = st.currentPollRequest := by
  unfold updateOrCreateCue
  cases h : st.cues.any (fun c => existingKeyOf c == updKey n u) <;>
    cases h2 : st.bulkRefreshInProgress && bulkListStr st == jsToStr (updListV u) <;>
      simp [h, h2]

/-- When the expected count is still zero, an index response is never
credited (and the completion threshold is never triggered). -/
theorem handleCueIndex_zero_expected (st : SState) (cl : Option ℤ) (i : ℚ)
    (hexp : st.bulkRefreshExpectedCount = 0) :
    handleCueIndexResponseS st cl i = (st, false) := by
  unfold handleCueIndexResponseS
  cases cl with
  | none => rfl
  | some l =>
      by_cases hg : (!st.bulkRefreshInProgress || st.bulkRefreshCueList ≠ some l) = true
      · simp [hg, hexp]
      · simp [hg, hexp]

/-- An index response that arrives before the count is established, or
whose index is out of range, is never credited and never triggers the
completion threshold. -/
theorem handleCueIndex_stale (st : SState) (cl : Option ℤ) (i : ℚ)
    (hstale : st.bulkRefreshExpectedCount = 0 ∨ i < 0 ∨
      (st.bulkRefreshExpectedCount : ℚ) ≤ i) :
    handleCueIndexResponseS st cl i = (st, false) := by
  unfold handleCueIndexResponseS
  cases cl with
  | none => rfl
  | some l =>
      dsimp only
      by_cases hg : (!st.bulkRefreshInProgress || st.bulkRefreshCueList ≠ some l) = true
      · rw [if_pos hg]
      · rw [if_neg hg]
        by_cases hz : st.bulkRefreshExpectedCount = 0
        · rw [if_pos hz]
        · rw [if_neg hz]
          have hrange : (i < 0 || (st.bulkRefreshExpectedCount : ℚ) ≤ i) = true := by
            rcases hstale with h | h | h
            · exact absurd h hz
            · simp [h]
            · simp [h]
          rw [if_pos hrange]

theorem insertUniq_self {α : Type} [DecidableEq α] (xs : List α) (x : α) :
    x ∈ insertUniq xs x := by
  unfold insertUniq
  split
  · assumption
  · exact List.mem_append_right _ (List.mem_singleton.2 rfl)

theorem insertUniq_mono {α : Type} [DecidableEq α] (xs : List α) (x y : α)
    (h : y ∈ xs) : y ∈ insertUniq xs x := by
  unfold insertUniq
  split
  · exact h
  · exact List.mem_append_left _ h

/-- The upsert records the cue number when a matching bulk refresh is in
progress. -/
theorem updateOrCreateCue_receivedCues_self (st : SState) (n : String) (u : Obj)
    (hc : (st.bulkRefreshInProgress && bulkListStr st == jsToStr (updListV u)) = true) :
    n ∈ (updateOrCreateCue st n u).bulkRefreshReceivedCues := by
  unfold updateOrCreateCue
  dsimp only
  rw [hc]
  simp only [if_true]
  split
  · exact insertUniq_self _ _
  · exact insertUniq_self _ _

theorem updateOrCreateCue_receivedCues_mono (st : SState) (n : String) (u : Obj)
    (y : String) (h : y ∈ st.bulkRefreshReceivedCues) :
    y ∈ (updateOrCreateCue st n u).bulkRefreshReceivedCues := by
  unfold updateOrCreateCue
  dsimp only
  repeat' split
  all_goals first
    | exact h
    | exact insertUniq_mono _ _ _ h

theorem setActiveCue_receivedCues_mono (st : SState) (l n ty : String) (now : ℤ)
    (y : String) (h : y ∈ st.bulkRefreshReceivedCues) :
    y ∈ (setActiveCue st l n ty now).bulkRefreshReceivedCues := by
  unfold setActiveCue
  dsimp only
  repeat' split
  all_goals first
    | exact h
    | exact updateOrCreateCue_receivedCues_mono _ _ _ y h

theorem setActiveCue_receivedIndices (st : SState) (l n ty : String) (now : ℤ) :
    (setActiveCue st l n ty now).bulkRefreshReceivedIndices =
      st.bulkRefreshReceivedIndices := by
  unfold setActiveCue
  dsimp only
  repeat' split
  all_goals first
    | rfl
    | exact (updateOrCreateCue_receivedIndices _ _ _).trans rfl

theorem cueDataWildcard_receivedIndices (st : SState) (pc : Option ℤ) :
    (cueDataWildcard st pc).bulkRefreshReceivedIndices =
      st.bulkRefreshReceivedIndices := by
  unfold cueDataWildcard
  cases pc with
  | none => rfl
  | some v => dsimp only; split <;> rfl

theorem cueDataUpsert_receivedIndices (st : SState) (ln cn pn : String)
    (args : List JVal) (now : ℤ) :
    (cueDataUpsert st ln cn pn args now).bulkRefreshReceivedIndices =
      st.bulkRefreshReceivedIndices := by
  unfold cueDataUpsert
  dsimp only
  repeat' split
  all_goals first
    | rfl
    | exact (updateOrCreateCue_receivedIndices _ _ _).trans rfl
    | exact (setActiveCue_receivedIndices _ _ _ _ _).trans
        ((updateOrCreateCue_receivedIndices _ _ _).trans rfl)

/-- C5 (amended): a CueData event arriving before the expected count has
been received, or whose completion index is out of range, is excluded from
completion accounting -- receivedIndices is unchanged -- but it is not
dropped entirely: the whole event reduces to the plain CueData handling,
the decoded cue is still upserted into the cue store (then possibly marked
active/pending by a pending poll), and its cue number is recorded in
receivedCues when the lists match. -/
theorem C5_stale_cuedata_still_upserted (st : SState)
    (listNum cueNumber partNumber : String) (pc : Option ℤ) (args : List JVal)
    (now : ℤ) (i : ℚ)
    (hv : argN args 0 = JVal.vNum i)
    (hstale : (cueDataWildcard st pc).bulkRefreshExpectedCount = 0 ∨ i < 0 ∨
      ((cueDataWildcard st pc).bulkRefreshExpectedCount : ℚ) ≤ i)
    (hn1 : cueNumber ≠ "") (hn2 : cueNumber ≠ "0")
    (hge : parsedGe0 listNum = true) :
    (cueDataStep st listNum cueNumber partNumber pc args now).bulkRefreshReceivedIndices =
      st.bulkRefreshReceivedIndices ∧
    cueDataStep st listNum cueNumber partNumber pc args now =
      cueDataUpsert (cueDataWildcard st pc) listNum cueNumber partNumber args now ∧
    ((cueDataStep st listNum cueNumber partNumber pc args now).cues =
        (updateOrCreateCue (cueDataWildcard st pc) cueNumber
          (parseCueArgs listNum partNumber args)).cues ∨
      ∃ pty, (cueDataStep st listNum cueNumber partNumber pc args now).cues =
        (setActiveCue (updateOrCreateCue (cueDataWildcard st pc) cueNumber
          (parseCueArgs listNum partNumber args)) listNum cueNumber pty now).cues) ∧
    (((cueDataWildcard st pc).bulkRefreshInProgress &&
        bulkListStr (cueDataWildcard st pc) ==
          jsToStr (updListV (parseCueArgs listNum partNumber args))) = true →
      cueNumber ∈ (cueDataStep st listNum cueNumber partNumber pc args now).bulkRefreshReceivedCues) := by
  have hn1b : (cueNumber != "") = true := by simpa using hn1
  have hn2b : (cueNumber != "0") = true := by simpa using hn2
  have hstep : cueDataStep st listNum cueNumber partNumber pc args now =
      cueDataUpsert (cueDataWildcard st pc) listNum cueNumber partNumber args now := by
    unfold cueDataStep
    dsimp only
    rw [hv]
    dsimp only
    rw [handleCueIndex_stale (cueDataWildcard st pc) (parseIntJS listNum) i hstale]
    rfl
  refine ⟨?_, hstep, ?_, ?_⟩
  · rw [hstep, cueDataUpsert_receivedIndices, cueDataWildcard_receivedIndices]
  · rw [hstep]
    unfold cueDataUpsert
    simp only [hn1b, hn2b, hge, Bool.and_self, Bool.true_and, if_true]
    cases hpr : (updateOrCreateCue (cueDataWildcard st pc) cueNumber
        (parseCueArgs listNum partNumber args)).currentPollRequest with
    | none => exact Or.inl rfl
    | some pr =>
        dsimp only
        split
        · exact Or.inr ⟨pr.2, rfl⟩
        · exact Or.inl rfl
  · intro hlists
    rw [hstep]
    unfold cueDataUpsert
    simp only [hn1b, hn2b, hge, Bool.and_self, Bool.true_and, if_true]
    have hself := updateOrCreateCue_receivedCues_self (cueDataWildcard st pc)
      cueNumber (parseCueArgs listNum partNumber args) hlists
    cases hpr : (updateOrCreateCue (cueDataWildcard st pc) cueNumber
        (parseCueArgs listNum partNumber args)).currentPollRequest with
    | none => exact hself
    | some pr =>
        dsimp only
        split
        · exact setActiveCue_receivedCues_mono _ _ _ _ _ _ hself
        · exact hself

/-- A state still awaiting the cue count of a refresh of list 1. -/
def exStateAwaitCount : SState :=
  { exState with cues := [],
                 bulkRefreshExpectedCount := 0,
                 bulkRefreshReceivedIndices := [],
                 bulkRefreshReceivedCues := [],
                 bulkRefreshCountReceived := false,
                 countTimer1Set := true }

/-- C5 counterexample: a CueData for list 1 cue 5 arriving before the
count is received (a stale event per the claim) leaves receivedIndices
empty -- it is not credited -- yet the cue is upserted into the store (and
its number even lands in receivedCues), so the event is not "dropped
entirely" as the claim states. -/
theorem C5_stale_drop_counterexample :
    (cueDataStep exStateAwaitCount "1" "5" "0" none
        [JVal.vNum 0, JVal.vStr "u1", JVal.vStr "Lbl"] 0).bulkRefreshReceivedIndices = [] ∧
    (cueDataStep exStateAwaitCount "1" "5" "0" none
        [JVal.vNum 0, JVal.vStr "u1", JVal.vStr "Lbl"] 0).cues.map
        (fun c => jsToStr (getF c "cue_number")) = ["5"] ∧
    (cueDataStep exStateAwaitCount "1" "5" "0" none
        [JVal.vNum 0, JVal.vStr "u1", JVal.vStr "Lbl"] 0).bulkRefreshReceivedCues = ["5"] := by
  decide

/-- Witness for the amended C5: an out-of-range CueData (index 5 with an
expected count of 1) at the concrete mid-refresh state. -/
theorem C5_stale_cuedata_still_upserted_witness :
    (cueDataStep exState "1" "7" "0" none
        [JVal.vNum 5, JVal.vStr "u2", JVal.vStr "Lb"] 0).bulkRefreshReceivedIndices =
      exState.bulkRefreshReceivedIndices ∧
    cueDataStep exState "1" "7" "0" none [JVal.vNum 5, JVal.vStr "u2", JVal.vStr "Lb"] 0 =
      cueDataUpsert (cueDataWildcard exState none) "1" "7" "0"
        [JVal.vNum 5, JVal.vStr "u2", JVal.vStr "Lb"] 0 ∧
    ((cueDataStep exState "1" "7" "0" none
        [JVal.vNum 5, JVal.vStr "u2", JVal.vStr "Lb"] 0).cues =
        (updateOrCreateCue (cueDataWildcard exState none) "7"
          (parseCueArgs "1" "0" [JVal.vNum 5, JVal.vStr "u2", JVal.vStr "Lb"])).cues ∨
      ∃ pty, (cueDataStep exState "1" "7" "0" none
          [JVal.vNum 5, JVal.vStr "u2", JVal.vStr "Lb"] 0).cues =
        (setActiveCue (updateOrCreateCue (cueDataWildcard exState none) "7"
          (parseCueArgs "1" "0" [JVal.vNum 5, JVal.vStr "u2", JVal.vStr "Lb"]))
          "1" "7" pty 0).cues) ∧
    (((cueDataWildcard exState none).bulkRefreshInProgress &&
        bulkListStr (cueDataWildcard exState none) ==
          jsToStr (updListV (parseCueArgs "1" "0"
            [JVal.vNum 5, JVal.vStr "u2", JVal.vStr "Lb"]))) = true →
      "7" ∈ (cueDataStep exState "1" "7" "0" none
        [JVal.vNum 5, JVal.vStr "u2", JVal.vStr "Lb"] 0).bulkRefreshReceivedCues) :=
  C5_stale_cuedata_still_upserted exState "1" "7" "0" none
    [JVal.vNum 5, JVal.vStr "u2", JVal.vStr "Lb"] 0 5 rfl
    (Or.inr (Or.inr (by decide))) (by decide) (by decide) (by decide)

/-! Timing-log uniqueness (C6). -/

/-- The cueTimings log holds at most one entry per cue number. -/
abbrev TimingsNodup (tm : ShowTimings) : Prop :=
  (tm.cueTimings.map (fun e => e.cueNumber)).Nodup

theorem updateTimingEntry_none_iff (ts : List TimingEntry) (n : String) (a b : ℚ) :
    updateTimingEntry ts n a b = none ↔ ∀ e ∈ ts, e.cueNumber ≠ n := by
  induction ts with
  | nil => simp [updateTimingEntry]
  | cons e rest ih =>
      by_cases h : e.cueNumber = n
      · simp [updateTimingEntry, h]
      · simp [updateTimingEntry, h, Option.map_eq_none', ih]

theorem updateTimingEntry_some_spec (ts : List TimingEntry) (n : String) (a b : ℚ)
    (ts' : List TimingEntry)
    (hnd : (ts.map (fun e => e.cueNumber)).Nodup)
    (h : updateTimingEntry ts n a b = some ts') :
    ts'.map (fun e => e.cueNumber) = ts.map (fun e => e.cueNumber) ∧
    List.Forall₂ (fun e e' => e.cueNumber ≠ n → e' = e) ts ts' ∧
    (∀ e' ∈ ts', e'.cueNumber = n → e'.timestamp = a ∧ e'.timeFromPrevious = b) := by
  induction ts generalizing ts' with
  | nil => simp [updateTimingEntry] at h
  | cons e rest ih =>
      by_cases he : e.cueNumber = n
      · rw [updateTimingEntry, if_pos he] at h
        rcases Option.some.inj h with rfl
        refine ⟨by simp, ?_, ?_⟩
        · refine List.Forall₂.cons (fun hne => absurd he hne) ?_
          exact (List.forall₂_same).2 (fun x _ hne => rfl)
        · intro e' he' hn'
          rcases List.mem_cons.1 he' with rfl | hmem
          · exact ⟨rfl, rfl⟩
          · exfalso
            have hmemx : e'.cueNumber ∈ rest.map (fun e => e.cueNumber) :=
              List.mem_map.2 ⟨e', hmem, rfl⟩
            rw [List.map_cons] at hnd
            have hne := (List.nodup_cons.1 hnd).1
            rw [he, ← hn'] at hne
            exact hne hmemx
      · rw [updateTimingEntry, if_neg he] at h
        rcases Option.map_eq_some'.1 h with ⟨rs', hrs', rfl⟩
        rw [List.map_cons] at hnd
        obtain ⟨hmap, hfa, hts⟩ := ih rs' (List.nodup_cons.1 hnd).2 hrs'
        refine ⟨by simp [hmap], List.Forall₂.cons (fun _ => rfl) hfa, ?_⟩
        intro e' he' hn'
        rcases List.mem_cons.1 he' with rfl | hmem
        · exact absurd hn' he
        · exact hts e' hmem hn'

/-- One recording step keeps the timing log free of duplicate cue numbers. -/
theorem recordTiming_nodup (tm : ShowTimings) (n l lb : String) (now : ℤ)
    (h : TimingsNodup tm) : TimingsNodup (recordTiming tm n l lb now) := by
  unfold TimingsNodup at h ⊢
  unfold recordTiming
  dsimp only
  split
  · exact h
  · cases hu : updateTimingEntry tm.cueTimings n (recTimestamp tm now) (recDelta tm now) with
    | none =>
        have hnot : ∀ e ∈ tm.cueTimings, e.cueNumber ≠ n :=
          (updateTimingEntry_none_iff _ _ _ _).1 hu
        simp only [hu]
        rw [List.map_append]
        refine List.Nodup.append h (by simp) ?_
        intro x hx hx2
        simp only [List.map_cons, List.map_nil, List.mem_singleton] at hx2
        subst hx2
        rcases List.mem_map.1 hx with ⟨e, he, hxe⟩
        exact hnot e he hxe
    | some ts' =>
        obtain ⟨hmap, _, _⟩ := updateTimingEntry_some_spec tm.cueTimings n _ _ ts' h hu
        simpa only [hu, hmap] using h

/-! Which operations touch the timing log: every modelled step either
leaves showTimings unchanged or applies one recordTiming. -/

theorem requestAllCuesS_showTimings (st : SState) (l : ℤ) :
    (requestAllCuesS st l).showTimings = st.showTimings := by
  unfold requestAllCuesS
  split
  · split
    · rfl
    · rfl
  · rfl

theorem checkBulk_showTimings (st : SState) :
    (checkBulkRefreshCompleteS st).showTimings = st.showTimings := by
  unfold checkBulkRefreshCompleteS
  cases hip : st.bulkRefreshInProgress with
  | false => simp
  | true =>
      simp only [hip, Bool.not_true, Bool.false_eq_true, if_false]
      split
      · rfl
      · exact (requestAllCuesS_showTimings _ _).trans rfl

theorem handleCueCount_showTimings (st : SState) (cl : Option ℤ) (c : ℤ) :
    (handleCueCountResponseS st cl c).showTimings = st.showTimings := by
  unfold handleCueCountResponseS
  cases cl with
  | none => rfl
  | some l =>
      repeat' split
      all_goals first
        | rfl
        | exact (checkBulk_showTimings _).trans rfl

theorem countTimeout1_showTimings (st : SState) :
    (countTimeout1Step st).showTimings = st.showTimings := by
  unfold countTimeout1Step
  dsimp only
  repeat' split
  all_goals rfl

theorem countTimeout2_showTimings (st : SState) :
    (countTimeout2Step st).showTimings = st.showTimings := by
  unfold countTimeout2Step
  dsimp only
  repeat' split
  all_goals rfl

theorem completionTimeout_showTimings (st : SState) :
    (completionTimeoutStep st).showTimings = st.showTimings := by
  unfold completionTimeoutStep
  split
  · rfl
  · exact (checkBulk_showTimings _).trans rfl

theorem handleCueIndex_fst_showTimings (st : SState) (cl : Option ℤ) (i : ℚ) :
    (handleCueIndexResponseS st cl i).1.showTimings = st.showTimings := by
  unfold handleCueIndexResponseS
  cases cl with
  | none => rfl
  | some l =>
      repeat' split
      all_goals rfl

/-- Preservation of a timing-log property through `setActiveCue`. -/
theorem setActiveCue_pres (P : ShowTimings → Prop)
    (hP : ∀ tm n l lb t, P tm → P (recordTiming tm n l lb t))
    (st : SState) (l n ty : String) (now : ℤ) (h : P st.showTimings) :
    P ((setActiveCue st l n ty now).showTimings) := by
  obtain ⟨lb, hs⟩ := setActiveCue_showTimings st l n ty now
  rw [hs]
  split
  · exact hP _ _ _ _ _ h
  · exact h

/-- The show timings after the core of `parseCueText`. -/
theorem parseCueTextCore_showTimings (st : SState) (ty list cue remainder : String)
    (now : ℤ) :
    ∃ lb, (parseCueTextCore st ty list cue remainder now).showTimings =
      if ty = "active" && st.showTimings.isRecording && list = st.mainPlaybackList
      then recordTiming st.showTimings cue list lb now
      else st.showTimings := by
  refine ⟨(parseRemainder remainder).2.2, ?_⟩
  unfold parseCueTextCore
  dsimp only
  split <;>
    (split <;>
      first
        | exact (updateOrCreateCue_showTimings _ _ _).trans rfl
        | (split <;> exact (updateOrCreateCue_showTimings _ _ _).trans rfl))

/-- Preservation of a timing-log property through `parseCueText`. -/
theorem parseCueText_pres (P : ShowTimings → Prop)
    (hP : ∀ tm n l lb t, P tm → P (recordTiming tm n l lb t))
    (st : SState) (txt ty : String) (ctx : Option String) (now : ℤ)
    (h : P st.showTimings) :
    P ((parseCueText st txt ty ctx now).showTimings) := by
  have hcore : ∀ list cue remainder,
      P ((parseCueTextCore st ty list cue remainder now).showTimings) := by
    intro list cue remainder
    obtain ⟨lb, hs⟩ := parseCueTextCore_showTimings st ty list cue remainder now
    rw [hs]
    split
    · exact hP _ _ _ _ _ h
    · exact h
  unfold parseCueText
  dsimp only
  split
  · exact h
  · split
    · exact hcore _ _ _
    · split
      · split
        · exact hcore _ _ _
        · exact h
      · exact h

theorem cueDataWildcard_showTimings (st : SState) (pc : Option ℤ) :
    (cueDataWildcard st pc).showTimings = st.showTimings := by
  unfold cueDataWildcard
  repeat' split
  all_goals rfl

/-- Preservation of a timing-log property through the upsert/poll part of
the CueData branch. -/
theorem cueDataUpsert_pres (P : ShowTimings → Prop)
    (hP : ∀ tm n l lb t, P tm → P (recordTiming tm n l lb t))
    (st : SState) (ln cn pn : String) (args : List JVal) (now : ℤ)
    (h : P st.showTimings) :
    P ((cueDataUpsert st ln cn pn args now).showTimings) := by
  unfold cueDataUpsert
  dsimp only
  split
  · have hupd : P ((updateOrCreateCue st cn (parseCueArgs ln pn args)).showTimings) := by
      rw [updateOrCreateCue_showTimings]; exact h
    split
    · split
      · exact setActiveCue_pres P hP _ _ _ _ _ hupd
      · exact hupd
    · exact hupd
  · exact h

/-- Preservation of a timing-log property through the CueData branch. -/
theorem cueDataStep_pres (P : ShowTimings → Prop)
    (hP : ∀ tm n l lb t, P tm → P (recordTiming tm n l lb t))
    (st : SState) (ln cn pn : String) (pc : Option ℤ) (args : List JVal) (now : ℤ)
    (h : P st.showTimings) :
    P ((cueDataStep st ln cn pn pc args now).showTimings) := by
  unfold cueDataStep
  dsimp only
  have h1 : P ((cueDataWildcard st pc).showTimings) := by
    rw [cueDataWildcard_showTimings]; exact h
  have h2 : ∀ i : ℚ, ∀ cl : Option ℤ,
      P ((handleCueIndexResponseS (cueDataWildcard st pc) cl i).1.showTimings) := by
    intro i cl
    rw [handleCueIndex_fst_showTimings]; exact h1
  have h3 : ∀ stm : SState, P stm.showTimings →
      P ((cueDataUpsert stm ln cn pn args now).showTimings) :=
    fun stm hm => cueDataUpsert_pres P hP stm ln cn pn args now hm
  have h4 : ∀ stm : SState, P stm.showTimings →
      P ((checkBulkRefreshCompleteS stm).showTimings) := by
    intro stm hm
    rw [checkBulk_showTimings]; exact hm
  cases hv : argN args 0 with
  | vNum i =>
      simp only [hv]
      split
      · exact h4 _ (h3 _ (h2 i (parseIntJS ln)))
      · exact h3 _ (h2 i (parseIntJS ln))
  | vUndef =>
      simp only [hv]
      split
      · exact h4 _ (h3 _ h1)
      · exact h3 _ h1
  | vNull =>
      simp only [hv]
      split
      · exact h4 _ (h3 _ h1)
      · exact h3 _ h1
  | vStr s =>
      simp only [hv]
      split
      · exact h4 _ (h3 _ h1)
      · exact h3 _ h1
  | vBool b =>
      simp only [hv]
      split
      · exact h4 _ (h3 _ h1)
      · exact h3 _ h1
  | vArr xs =>
      simp only [hv]
      split
      · exact h4 _ (h3 _ h1)
      · exact h3 _ h1

/-- Every modelled step either leaves the timing log alone or applies one
recording step, so any property preserved by `recordTiming` is an
invariant of every step. -/
theorem step_pres (P : ShowTimings → Prop)
    (hP : ∀ tm n l lb t, P tm → P (recordTiming tm n l lb t))
    (st : SState) (e : Ev) (h : P st.showTimings) : P ((step st e).showTimings) := by
  cases e with
  | perList l c ty now => exact setActiveCue_pres P hP st l c ty now h
  | textEv txt ty ctx now => exact parseCueText_pres P hP st txt ty ctx now h
  | countResp l c =>
      simp only [step]
      rw [handleCueCount_showTimings]
      exact h
  | cueData ln cn pn pc args now => exact cueDataStep_pres P hP st ln cn pn pc args now h
  | countTimeout1 =>
      simp only [step]
      rw [countTimeout1_showTimings]
      exact h
  | countTimeout2 =>
      simp only [step]
      rw [countTimeout2_showTimings]
      exact h
  | completionTimeout =>
      simp only [step]
      rw [completionTimeout_showTimings]
      exact h
  | startRefresh l =>
      simp only [step]
      rw [requestAllCuesS_showTimings]
      exact h

theorem run_pres (P : ShowTimings → Prop)
    (hP : ∀ tm n l lb t, P tm → P (recordTiming tm n l lb t))
    (st : SState) (evs : List Ev) (h : P st.showTimings) :
    P ((run st evs).showTimings) := by
  induction evs generalizing st with
  | nil => exact h
  | cons e rest ih =>
      have hr : run st (e :: rest) = run (step st e) rest := rfl
      rw [hr]
      exact ih _ (step_pres P hP st e h)

/-- C6: across any event sequence the timing log keeps at most one entry
per cue number, and re-firing an already-recorded cue (after a different
cue fired in between) updates its entry in place: the log keeps the same
cue numbers in the same order and the same length (no second entry is
appended), entries for other cues are untouched, and the matching entry
carries the latest firing's timestamp and time-from-previous. -/
theorem C6_unique_timing_entries :
    (∀ (st : SState) (evs : List Ev), TimingsNodup st.showTimings →
        TimingsNodup (run st evs).showTimings) ∧
    (∀ (tm : ShowTimings) (n l lb : String) (now : ℤ),
        TimingsNodup tm →
        tm.lastCueNumber ≠ some n →
        (∃ e ∈ tm.cueTimings, e.cueNumber = n) →
        (recordTiming tm n l lb now).cueTimings.map (fun e => e.cueNumber) =
          tm.cueTimings.map (fun e => e.cueNumber) ∧
        (recordTiming tm n l lb now).cueTimings.length = tm.cueTimings.length ∧
        List.Forall₂ (fun e e' => e.cueNumber ≠ n → e' = e)
          tm.cueTimings (recordTiming tm n l lb now).cueTimings ∧
        (∀ e' ∈ (recordTiming tm n l lb now).cueTimings, e'.cueNumber = n →
          e'.timestamp = recTimestamp tm now ∧
          e'.timeFromPrevious = recDelta tm now)) := by
  constructor
  · intro st evs h
    exact run_pres TimingsNodup (fun tm n l lb t => recordTiming_nodup tm n l lb t) st evs h
  · intro tm n l lb now hnd hlast hex
    unfold recordTiming
    dsimp only
    split
    · rename_i hc
      exact absurd hc hlast
    · cases hu : updateTimingEntry tm.cueTimings n (recTimestamp tm now) (recDelta tm now) with
      | none =>
          exfalso
          obtain ⟨e, he, hen⟩ := hex
          exact (updateTimingEntry_none_iff _ _ _ _).1 hu e he hen
      | some ts' =>
          obtain ⟨hmap, hfa, hts⟩ := updateTimingEntry_some_spec tm.cueTimings n _ _ ts' hnd hu
          simp only [hu]
          refine ⟨hmap, ?_, hfa, hts⟩
          have := congrArg List.length hmap
          simpa using this

/-- A timing state with one recorded entry for cue 5, last fired cue 3. -/
def exTimRec : ShowTimings := ⟨true, some 1000, some 2, some "3", [⟨"5", "1", "lb", 2, 1⟩]⟩

/-- Witness for C6: the invariant holds after one concrete event, and a
concrete re-fire of cue 5 updates in place. -/
theorem C6_unique_timing_entries_witness :
    TimingsNodup (run exStateActive [Ev.perList "1" "5" "active" 0]).showTimings ∧
    ((recordTiming exTimRec "5" "1" "x" 5000).cueTimings.map (fun e => e.cueNumber) =
        exTimRec.cueTimings.map (fun e => e.cueNumber) ∧
      (recordTiming exTimRec "5" "1" "x" 5000).cueTimings.length =
        exTimRec.cueTimings.length ∧
      List.Forall₂ (fun e e' => e.cueNumber ≠ "5" → e' = e)
        exTimRec.cueTimings (recordTiming exTimRec "5" "1" "x" 5000).cueTimings ∧
      (∀ e' ∈ (recordTiming exTimRec "5" "1" "x" 5000).cueTimings, e'.cueNumber = "5" →
        e'.timestamp = recTimestamp exTimRec 5000 ∧
        e'.timeFromPrevious = recDelta exTimRec 5000)) :=
  ⟨C6_unique_timing_entries.1 exStateActive [Ev.perList "1" "5" "active" 0] (by decide),
   C6_unique_timing_entries.2 exTimRec "5" "1" "x" 5000 (by decide) (by decide) (by decide)⟩

/-! Cue-level characterisations of the store operations, shared by the
refresh-safety and scoping claims. -/

/-- The pure store transformation performed by `updateOrCreateCue`. -/
def updCuesFn (cs : List Obj) (n : String) (u : Obj) : List Obj :=
  if cs.any (fun c => existingKeyOf c == updKey n u) then
    updateFirstMatching cs (updKey n u) u
  else sortCues (cs ++ [mkNewCue n (updListV u) u])

theorem updateOrCreateCue_cues (st : SState) (n : String) (u : Obj) :
    (updateOrCreateCue st n u).cues = updCuesFn st.cues n u := by
  unfold updateOrCreateCue updCuesFn
  cases h : st.cues.any (fun c => existingKeyOf c == updKey n u) <;>
    cases h2 : st.bulkRefreshInProgress && bulkListStr st == jsToStr (updListV u) <;>
      simp [h, h2]

theorem updateOrCreateCue_expected (st : SState) (n : String) (u : Obj) :
    (updateOrCreateCue st n u).bulkRefreshExpectedCount =
      st.bulkRefreshExpectedCount := by
  unfold updateOrCreateCue
  cases h : st.cues.any (fun c => existingKeyOf c == updKey n u) <;>
    cases h2 : st.bulkRefreshInProgress && bulkListStr st == jsToStr (updListV u) <;>
      simp [h, h2]

theorem updateOrCreateCue_timer (st : SState) (n : String) (u : Obj) :
    (updateOrCreateCue st n u).completionTimerSet = st.completionTimerSet := by
  unfold updateOrCreateCue
  cases h : st.cues.any (fun c => existingKeyOf c == updKey n u) <;>
    cases h2 : st.bulkRefreshInProgress && bulkListStr st == jsToStr (updListV u) <;>
      simp [h, h2]

theorem updateOrCreateCue_evict (st : SState) (n : String) (u : Obj) :
    (updateOrCreateCue st n u).evictionRan = st.evictionRan := by
  unfold updateOrCreateCue
  cases h : st.cues.any (fun c => existingKeyOf c == updKey n u) <;>
    cases h2 : st.bulkRefreshInProgress && bulkListStr st == jsToStr (updListV u) <;>
      simp [h, h2]

theorem updateOrCreateCue_inProgress (st : SState) (n : String) (u : Obj) :
    (updateOrCreateCue st n u).bulkRefreshInProgress = st.bulkRefreshInProgress := by
  unfold updateOrCreateCue
  cases h : st.cues.any (fun c => existingKeyOf c == updKey n u) <;>
    cases h2 : st.bulkRefreshInProgress && bulkListStr st == jsToStr (updListV u) <;>
      simp [h, h2]

/-- The store transformation performed by `setActiveCueByListAndNumber`:
clear the type on the list, then either mark the first matching cue in
place or run the create/update path with a `cue_list`/`last_seen` update.
The recording and playback branches do not touch the store. -/
theorem setActiveCue_cues (st : SState) (l n ty : String) (now : ℤ) :
    (setActiveCue st l n ty now).cues =
      (match (clearTypeInList st.cues ty l).find? (isTargetCue l n) with
       | some _ => setLastSeenFirst (clearTypeInList st.cues ty l) l n (.vStr ty)
       | none => updCuesFn (clearTypeInList st.cues ty l) n
           [("cue_list", .vStr l), ("last_seen", .vStr ty)]) := by
  unfold setActiveCue
  cases htgt : (clearTypeInList st.cues ty l).find? (isTargetCue l n) with
  | some c =>
      simp only [htgt]
      repeat' split
      all_goals rfl
  | none =>
      simp only [htgt, updateOrCreateCue_cues]
      repeat' split
      all_goals first
        | rfl
        | exact (updateOrCreateCue_cues _ _ _).trans rfl

/-- Field-frame lemmas for `setActiveCue` on the refresh bookkeeping. -/
theorem setActiveCue_expected (st : SState) (l n ty : String) (now : ℤ) :
    (setActiveCue st l n ty now).bulkRefreshExpectedCount =
      st.bulkRefreshExpectedCount := by
  unfold setActiveCue
  cases htgt : (clearTypeInList st.cues ty l).find? (isTargetCue l n) <;>
    simp only [htgt] <;>
    repeat' split
  all_goals first
    | rfl
    | exact (updateOrCreateCue_expected _ _ _).trans rfl

theorem setActiveCue_timer (st : SState) (l n ty : String) (now : ℤ) :
    (setActiveCue st l n ty now).completionTimerSet = st.completionTimerSet := by
  unfold setActiveCue
  cases htgt : (clearTypeInList st.cues ty l).find? (isTargetCue l n) <;>
    simp only [htgt] <;>
    repeat' split
  all_goals first
    | rfl
    | exact (updateOrCreateCue_timer _ _ _).trans rfl

theorem setActiveCue_evict (st : SState) (l n ty : String) (now : ℤ) :
    (setActiveCue st l n ty now).evictionRan = st.evictionRan := by
  unfold setActiveCue
  cases htgt : (clearTypeInList st.cues ty l).find? (isTargetCue l n) <;>
    simp only [htgt] <;>
    repeat' split
  all_goals first
    | rfl
    | exact (updateOrCreateCue_evict _ _ _).trans rfl

/-- The store transformation of the core of `parseCueText`: clear the type
on the parsed list, then create/update with a
cue_list/label/last_seen/completion (and optionally fade_time) object. -/
theorem parseCueTextCore_cues (st : SState) (ty list cue remainder : String) (now : ℤ) :
    ∃ lab comp fd, ((parseCueTextCore st ty list cue remainder now).cues =
      updCuesFn (clearTypeInList st.cues ty list) cue
        ([("cue_list", JVal.vStr list), ("label", JVal.vStr lab),
          ("last_seen", JVal.vStr ty), ("completion", JVal.vStr comp)] ++ fd)) ∧
      (fd = ([] : Obj) ∨ ∃ f, fd = [("fade_time", JVal.vStr f)]) := by
  rcases hpr : parseRemainder remainder with ⟨fade, comp, lab⟩
  by_cases hf : (fade != "" && (comp == "0%" || ty == "pending")) = true
  · refine ⟨lab, comp, [("fade_time", JVal.vStr fade)], ?_, Or.inr ⟨fade, rfl⟩⟩
    unfold parseCueTextCore
    simp only [hpr, hf, if_true]
    repeat' split
    all_goals exact (updateOrCreateCue_cues _ _ _).trans rfl
  · have hf2 : (fade != "" && (comp == "0%" || ty == "pending")) = false :=
      eq_false_of_ne_true hf
    refine ⟨lab, comp, [], ?_, Or.inl rfl⟩
    unfold parseCueTextCore
    simp only [hpr, hf2, Bool.false_eq_true, if_false, List.append_nil]
    repeat' split
    all_goals exact (updateOrCreateCue_cues _ _ _).trans rfl

theorem ctxTruthy_ne (o : Option String) (l : String) (h : ctxTruthy o = some l) :
    l ≠ "" := by
  unfold ctxTruthy at h
  cases o with
  | none => cases h
  | some s =>
      dsimp only at h
      by_cases hs : s = ""
      · rw [if_pos hs] at h; cases h
      · rw [if_neg hs] at h
        have h2 := Option.some.inj h
        subst h2
        exact hs

theorem matchListCue_list_ne (text list cue rem : String)
    (h : matchListCue text = some (list, cue, rem)) : list ≠ "" := by
  unfold matchListCue at h
  dsimp only at h
  rcases hld : leadingDigits text.toList with ⟨d1, r1⟩
  rw [hld] at h
  dsimp only at h
  by_cases hd : d1.isEmpty = true
  · rw [if_pos hd] at h; cases h
  · rw [if_neg hd] at h
    split at h
    · split at h
      · rcases Option.map_eq_some'.1 h with ⟨a, _, hfa⟩
        rw [Prod.ext_iff] at hfa
        intro he
        apply hd
        have h4 : d1.asString = list := hfa.1
        have hnil : d1 = [] := by
          have h3 : d1.asString.toList = ("" : String).toList := by
            rw [h4, he]
          exact h3
        rw [hnil]
        rfl
      · cases h
    · cases h

/-- The store outcomes of `parseCueText`: a per-list clear, a global clear,
no change, or a per-list clear followed by one create/update. -/
theorem parseCueText_cues_cases (st : SState) (txt ty : String) (ctx : Option String)
    (now : ℤ) :
    (∃ l, (parseCueText st txt ty ctx now).cues = clearTypeInList st.cues ty l) ∨
    ((parseCueText st txt ty ctx now).cues = clearTypeAll st.cues ty) ∨
    ((parseCueText st txt ty ctx now).cues = st.cues) ∨
    (∃ list cue lab comp fd, ((parseCueText st txt ty ctx now).cues =
        updCuesFn (clearTypeInList st.cues ty list) cue
          ([("cue_list", JVal.vStr list), ("label", JVal.vStr lab),
            ("last_seen", JVal.vStr ty), ("completion", JVal.vStr comp)] ++ fd)) ∧
      list ≠ "" ∧
      (fd = ([] : Obj) ∨ ∃ f, fd = [("fade_time", JVal.vStr f)])) := by
  unfold parseCueText
  dsimp only
  split
  · cases hc : ctxTruthy ctx with
    | some l =>
        left
        exact ⟨l, by simp only [hc]⟩
    | none =>
        right; left
        simp only [hc]
  · split
    · rename_i list cue remainder heq
      right; right; right
      obtain ⟨lab, comp, fd, hcue, hfd⟩ := parseCueTextCore_cues st ty list cue remainder now
      exact ⟨list, cue, lab, comp, fd, hcue,
        matchListCue_list_ne _ list cue remainder heq, hfd⟩
    · split
      · rename_i ctx2 hctx
        split
        · rename_i cue remainder heq
          right; right; right
          obtain ⟨lab, comp, fd, hcue, hfd⟩ := parseCueTextCore_cues st ty ctx2 cue remainder now
          exact ⟨ctx2, cue, lab, comp, fd, hcue, ctxTruthy_ne ctx ctx2 hctx, hfd⟩
        · right; right; left; rfl
      · right; right; left; rfl

/-- Frame lemmas on the refresh bookkeeping for `parseCueText`. -/
theorem parseCueText_expected (st : SState) (txt ty : String) (ctx : Option String)
    (now : ℤ) :
    (parseCueText st txt ty ctx now).bulkRefreshExpectedCount =
      st.bulkRefreshExpectedCount := by
  unfold parseCueText parseCueTextCore
  dsimp only
  repeat' split
  all_goals first
    | rfl
    | exact (updateOrCreateCue_expected _ _ _).trans rfl

theorem parseCueText_timer (st : SState) (txt ty : String) (ctx : Option String)
    (now : ℤ) :
    (parseCueText st txt ty ctx now).completionTimerSet = st.completionTimerSet := by
  unfold parseCueText parseCueTextCore
  dsimp only
  repeat' split
  all_goals first
    | rfl
    | exact (updateOrCreateCue_timer _ _ _).trans rfl

theorem parseCueText_evict (st : SState) (txt ty : String) (ctx : Option String)
    (now : ℤ) :
    (parseCueText st txt ty ctx now).evictionRan = st.evictionRan := by
  unfold parseCueText parseCueTextCore
  dsimp only
  repeat' split
  all_goals first
    | rfl
    | exact (updateOrCreateCue_evict _ _ _).trans rfl

/-! Refresh safety without a count (C8): user-visible cue preservation. -/

/-- The user-owned fields of the data model. -/
def userFields : List String := ["notes", "color", "tags", "page", "image_path"]

/-- Cue `c'` is the same cue as `c` from the user's point of view: same
cue number, byte-identical user-owned fields. -/
def cuePreserved (c c' : Obj) : Prop :=
  getF c' "cue_number" = getF c "cue_number" ∧ ∀ f ∈ userFields, getF c' f = getF c f

theorem cuePreserved_refl (c : Obj) : cuePreserved c c := ⟨rfl, fun _ _ => rfl⟩

theorem cuePreserved_trans {a b c : Obj} (h1 : cuePreserved a b) (h2 : cuePreserved b c) :
    cuePreserved a c :=
  ⟨h2.1.trans h1.1, fun f hf => (h2.2 f hf).trans (h1.2 f hf)⟩

/-- Every cue of the first store survives into the second, possibly with
console-owned fields rewritten but user data and number intact. -/
def Rcues (cs cs' : List Obj) : Prop := ∀ c ∈ cs, ∃ c' ∈ cs', cuePreserved c c'

theorem Rcues_refl (cs : List Obj) : Rcues cs cs :=
  fun c hc => ⟨c, hc, cuePreserved_refl c⟩

theorem Rcues_trans {a b c : List Obj} (h1 : Rcues a b) (h2 : Rcues b c) : Rcues a c := by
  intro x hx
  obtain ⟨y, hy, hxy⟩ := h1 x hx
  obtain ⟨z, hz, hyz⟩ := h2 y hy
  exact ⟨z, hz, cuePreserved_trans hxy hyz⟩

theorem Rcues_of_eq {a b : List Obj} (h : b = a) : Rcues a b := by
  rw [h]; exact Rcues_refl a

theorem cuePreserved_setF_last (c : Obj) (v : JVal) :
    cuePreserved c (setF c "last_seen" v) := by
  constructor
  · exact getF_setF_ne _ _ _ _ (by decide)
  · intro f hf
    refine getF_setF_ne _ _ _ _ ?_
    simp only [userFields, List.mem_cons, List.mem_singleton] at hf
    rcases hf with rfl | rfl | rfl | rfl | rfl | h
    · decide
    · decide
    · decide
    · decide
    · decide
    · cases h

/-- Update objects that never name the cue number or a user field. -/
def noUserKeys (u : Obj) : Prop :=
  ∀ kv ∈ u, kv.1 ≠ "cue_number" ∧ kv.1 ∉ userFields

theorem noUserKey_pair (k : String) (v : JVal)
    (h1 : k ≠ "cue_number") (h2 : k ∉ userFields) :
    (k, v).1 ≠ "cue_number" ∧ (k, v).1 ∉ userFields := ⟨h1, h2⟩

theorem cuePreserved_applyUpdates (c : Obj) (u : Obj) (hu : noUserKeys u) :
    cuePreserved c (applyUpdates c u) := by
  constructor
  · exact applyUpdates_getF_not_key u c _ (fun kv hm => (hu kv hm).1)
  · intro f hf
    exact applyUpdates_getF_not_key u c f (fun kv hm he => (hu kv hm).2 (he ▸ hf))

theorem updateFirstMatching_rel (cs : List Obj) (k : String) (u : Obj) :
    ∀ c ∈ cs, c ∈ updateFirstMatching cs k u ∨
      applyUpdates c u ∈ updateFirstMatching cs k u := by
  induction cs with
  | nil => intro c hc; cases hc
  | cons d rest ih =>
      intro c hc
      unfold updateFirstMatching
      cases hd : existingKeyOf d == k with
      | true =>
          simp only [hd, if_true]
          rcases List.mem_cons.1 hc with rfl | hmem
          · right; exact List.mem_cons_self _ _
          · left; exact List.mem_cons_of_mem _ hmem
      | false =>
          simp only [hd, Bool.false_eq_true, if_false]
          rcases List.mem_cons.1 hc with rfl | hmem
          · left; exact List.mem_cons_self _ _
          · rcases ih c hmem with h | h
            · left; exact List.mem_cons_of_mem _ h
            · right; exact List.mem_cons_of_mem _ h

theorem Rcues_updCuesFn (cs : List Obj) (n : String) (u : Obj) (hu : noUserKeys u) :
    Rcues cs (updCuesFn cs n u) := by
  unfold updCuesFn
  split
  · intro c hc
    rcases updateFirstMatching_rel cs (updKey n u) u c hc with h | h
    · exact ⟨c, h, cuePreserved_refl c⟩
    · exact ⟨applyUpdates c u, h, cuePreserved_applyUpdates c u hu⟩
  · intro c hc
    exact ⟨c, ((sortCues_perm _).mem_iff).2 (List.mem_append_left _ hc),
      cuePreserved_refl c⟩

theorem Rcues_map_of (cs : List Obj) (f : Obj → Obj)
    (hf : ∀ c, cuePreserved c (f c)) : Rcues cs (cs.map f) :=
  fun c hc => ⟨f c, List.mem_map_of_mem f hc, hf c⟩

theorem Rcues_clearTypeInList (cs : List Obj) (ty l : String) :
    Rcues cs (clearTypeInList cs ty l) := by
  unfold clearTypeInList
  refine Rcues_map_of cs _ (fun c => ?_)
  split
  · exact cuePreserved_setF_last c _
  · exact cuePreserved_refl c

theorem Rcues_clearTypeAll (cs : List Obj) (ty : String) :
    Rcues cs (clearTypeAll cs ty) := by
  unfold clearTypeAll
  refine Rcues_map_of cs _ (fun c => ?_)
  split
  · exact cuePreserved_setF_last c _
  · exact cuePreserved_refl c

theorem setLastSeenFirst_rel (cs : List Obj) (l n : String) (tyV : JVal) :
    ∀ c ∈ cs, c ∈ setLastSeenFirst cs l n tyV ∨
      setF c "last_seen" tyV ∈ setLastSeenFirst cs l n tyV := by
  induction cs with
  | nil => intro c hc; cases hc
  | cons d rest ih =>
      intro c hc
      unfold setLastSeenFirst
      cases hd : isTargetCue l n d with
      | true =>
          simp only [hd, if_true]
          rcases List.mem_cons.1 hc with rfl | hmem
          · right; exact List.mem_cons_self _ _
          · left; exact List.mem_cons_of_mem _ hmem
      | false =>
          simp only [hd, Bool.false_eq_true, if_false]
          rcases List.mem_cons.1 hc with rfl | hmem
          · left; exact List.mem_cons_self _ _
          · rcases ih c hmem with h | h
            · left; exact List.mem_cons_of_mem _ h
            · right; exact List.mem_cons_of_mem _ h

theorem Rcues_setLastSeenFirst (cs : List Obj) (l n : String) (tyV : JVal) :
    Rcues cs (setLastSeenFirst cs l n tyV) := by
  intro c hc
  rcases setLastSeenFirst_rel cs l n tyV c hc with h | h
  · exact ⟨c, h, cuePreserved_refl c⟩
  · exact ⟨setF c "last_seen" tyV, h, cuePreserved_setF_last c tyV⟩

theorem Rcues_setActiveCue (st : SState) (l n ty : String) (now : ℤ) :
    Rcues st.cues (setActiveCue st l n ty now).cues := by
  rw [setActiveCue_cues]
  have hclear := Rcues_clearTypeInList st.cues ty l
  cases htgt : (clearTypeInList st.cues ty l).find? (isTargetCue l n) with
  | some c => exact Rcues_trans hclear (Rcues_setLastSeenFirst _ _ _ _)
  | none =>
      refine Rcues_trans hclear (Rcues_updCuesFn _ _ _ ?_)
      intro kv hm
      rcases List.mem_cons.1 hm with rfl | hm2
      · exact noUserKey_pair _ _ (by decide) (by decide)
      · rcases List.mem_singleton.1 hm2 with rfl
        exact noUserKey_pair _ _ (by decide) (by decide)

theorem Rcues_parseCueText (st : SState) (txt ty : String) (ctx : Option String)
    (now : ℤ) : Rcues st.cues (parseCueText st txt ty ctx now).cues := by
  rcases parseCueText_cues_cases st txt ty ctx now with
    ⟨l, h⟩ | h | h | ⟨list, cue, lab, comp, fd, h, _, hfd⟩
  · rw [h]; exact Rcues_clearTypeInList _ _ _
  · rw [h]; exact Rcues_clearTypeAll _ _
  · rw [h]; exact Rcues_refl _
  · rw [h]
    refine Rcues_trans (Rcues_clearTypeInList st.cues ty list) (Rcues_updCuesFn _ _ _ ?_)
    intro kv hm
    rcases List.mem_append.1 hm with hm1 | hm1
    · simp only [List.mem_cons, List.mem_singleton] at hm1
      rcases hm1 with rfl | rfl | rfl | h1
      · exact noUserKey_pair _ _ (by decide) (by decide)
      · exact noUserKey_pair _ _ (by decide) (by decide)
      · exact noUserKey_pair _ _ (by decide) (by decide)
      · rcases h1 with rfl | h2
        · exact noUserKey_pair _ _ (by decide) (by decide)
        · cases h2
    · rcases hfd with rfl | ⟨f, rfl⟩
      · cases hm1
      · rcases List.mem_singleton.1 hm1 with rfl
        exact noUserKey_pair _ _ (by decide) (by decide)

/-- The keys of the CueData update object, in order. -/
theorem parseCueArgs_keys (l p : String) (args : List JVal) :
    (parseCueArgs l p args).map (fun kv => kv.1) =
      ["label", "uid", "cue_list", "fade_time", "up_time", "down_time", "focus_time",
       "color_time", "beam_time", "up_delay", "down_delay", "focus_delay", "color_delay",
       "beam_delay", "mark", "block", "assert", "follow_time", "hang_time", "follow_hang",
       "part_count", "scene", "scene_end", "duration", "part_number"] := rfl

theorem parseCueArgs_noUserKeys (l p : String) (args : List JVal) :
    noUserKeys (parseCueArgs l p args) := by
  intro kv hm
  obtain ⟨k, v⟩ := kv
  have hk : k ∈ (parseCueArgs l p args).map (fun kv => kv.1) :=
    List.mem_map_of_mem _ hm
  rw [parseCueArgs_keys] at hk
  fin_cases hk <;> exact noUserKey_pair _ _ (by decide) (by decide)

theorem Rcues_cueDataUpsert (st : SState) (ln cn pn : String) (args : List JVal)
    (now : ℤ) : Rcues st.cues (cueDataUpsert st ln cn pn args now).cues := by
  unfold cueDataUpsert
  dsimp only
  split
  · have h1 : Rcues st.cues (updateOrCreateCue st cn (parseCueArgs ln pn args)).cues := by
      rw [updateOrCreateCue_cues]
      exact Rcues_updCuesFn _ _ _ (parseCueArgs_noUserKeys ln pn args)
    split
    · split
      · exact Rcues_trans h1 (Rcues_setActiveCue _ _ _ _ _)
      · exact h1
    · exact h1
  · exact Rcues_refl _

/-- Events that never establish the expected cue count: no CueCount
response, and no count extracted from a CueData response path. -/
def noCountEvB : Ev → Bool
  | .countResp _ _ => false
  | .cueData _ _ _ pc _ _ => pc.isNone
  | _ => true

theorem countTimeout1_frame (st : SState) :
    (countTimeout1Step st).bulkRefreshExpectedCount = st.bulkRefreshExpectedCount ∧
    (countTimeout1Step st).completionTimerSet = st.completionTimerSet ∧
    (countTimeout1Step st).evictionRan = st.evictionRan ∧
    (countTimeout1Step st).cues = st.cues := by
  unfold countTimeout1Step
  dsimp only
  repeat' split
  all_goals exact ⟨rfl, rfl, rfl, rfl⟩

theorem countTimeout2_frame (st : SState) :
    (countTimeout2Step st).bulkRefreshExpectedCount = st.bulkRefreshExpectedCount ∧
    (countTimeout2Step st).completionTimerSet = st.completionTimerSet ∧
    (countTimeout2Step st).evictionRan = st.evictionRan ∧
    (countTimeout2Step st).cues = st.cues := by
  unfold countTimeout2Step
  dsimp only
  repeat' split
  all_goals exact ⟨rfl, rfl, rfl, rfl⟩

theorem requestAllCuesS_frame (st : SState) (l : ℤ) :
    ((requestAllCuesS st l).bulkRefreshExpectedCount = st.bulkRefreshExpectedCount ∨
      (requestAllCuesS st l).bulkRefreshExpectedCount = 0) ∧
    (requestAllCuesS st l).completionTimerSet = st.completionTimerSet ∧
    (requestAllCuesS st l).evictionRan = st.evictionRan ∧
    (requestAllCuesS st l).cues = st.cues := by
  unfold requestAllCuesS
  repeat' split
  all_goals first
    | exact ⟨Or.inl rfl, rfl, rfl, rfl⟩
    | exact ⟨Or.inr rfl, rfl, rfl, rfl⟩

theorem completionTimeout_noop (st : SState) (h : st.completionTimerSet = false) :
    completionTimeoutStep st = st := by
  unfold completionTimeoutStep
  simp [h]

theorem cueDataUpsert_frame (st : SState) (ln cn pn : String) (args : List JVal)
    (now : ℤ) :
    (cueDataUpsert st ln cn pn args now).bulkRefreshExpectedCount =
      st.bulkRefreshExpectedCount ∧
    (cueDataUpsert st ln cn pn args now).completionTimerSet = st.completionTimerSet ∧
    (cueDataUpsert st ln cn pn args now).evictionRan = st.evictionRan := by
  unfold cueDataUpsert
  dsimp only
  repeat' split
  all_goals refine ⟨?_, ?_, ?_⟩
  all_goals first
    | rfl
    | exact updateOrCreateCue_expected _ _ _
    | exact updateOrCreateCue_timer _ _ _
    | exact updateOrCreateCue_evict _ _ _
    | exact (setActiveCue_expected _ _ _ _ _).trans (updateOrCreateCue_expected _ _ _)
    | exact (setActiveCue_timer _ _ _ _ _).trans (updateOrCreateCue_timer _ _ _)
    | exact (setActiveCue_evict _ _ _ _ _).trans (updateOrCreateCue_evict _ _ _)

/-- A CueData event without a path count, arriving while no expected count
has been established, reduces to the unconditional upsert. -/
theorem cueDataStep_noCount (st : SState) (ln cn pn : String) (args : List JVal)
    (now : ℤ) (hexp : st.bulkRefreshExpectedCount = 0) :
    cueDataStep st ln cn pn none args now = cueDataUpsert st ln cn pn args now := by
  unfold cueDataStep
  dsimp only
  have hw : cueDataWildcard st none = st := rfl
  rw [hw]
  cases hv : argN args 0 with
  | vNum i =>
      dsimp only
      rw [handleCueIndex_zero_expected st (parseIntJS ln) i hexp]
      rfl
  | _ => rfl

/-- One count-free step preserves the no-count invariant and every cue. -/
theorem noCount_step (st : SState) (e : Ev)
    (hI : st.bulkRefreshExpectedCount = 0 ∧ st.completionTimerSet = false ∧
      st.evictionRan = false)
    (he : noCountEvB e = true) :
    ((step st e).bulkRefreshExpectedCount = 0 ∧
      (step st e).completionTimerSet = false ∧
      (step st e).evictionRan = false) ∧
    Rcues st.cues (step st e).cues := by
  obtain ⟨hexp, htmr, hev⟩ := hI
  cases e with
  | perList l c ty now =>
      exact ⟨⟨(setActiveCue_expected _ _ _ _ _).trans hexp,
        (setActiveCue_timer _ _ _ _ _).trans htmr,
        (setActiveCue_evict _ _ _ _ _).trans hev⟩, Rcues_setActiveCue st l c ty now⟩
  | textEv txt ty ctx now =>
      exact ⟨⟨(parseCueText_expected _ _ _ _ _).trans hexp,
        (parseCueText_timer _ _ _ _ _).trans htmr,
        (parseCueText_evict _ _ _ _ _).trans hev⟩, Rcues_parseCueText st txt ty ctx now⟩
  | countResp l c => exact absurd he (by simp [noCountEvB])
  | cueData ln cn pn pc args now =>
      have hpc : pc = none := by
        cases pc with
        | none => rfl
        | some v => exact absurd he (by simp [noCountEvB])
      subst hpc
      have hstep : step st (Ev.cueData ln cn pn none args now) =
          cueDataUpsert st ln cn pn args now :=
        cueDataStep_noCount st ln cn pn args now hexp
      rw [hstep]
      obtain ⟨h1, h2, h3⟩ := cueDataUpsert_frame st ln cn pn args now
      exact ⟨⟨h1.trans hexp, h2.trans htmr, h3.trans hev⟩,
        Rcues_cueDataUpsert st ln cn pn args now⟩
  | countTimeout1 =>
      obtain ⟨h1, h2, h3, h4⟩ := countTimeout1_frame st
      exact ⟨⟨h1.trans hexp, h2.trans htmr, h3.trans hev⟩, Rcues_of_eq h4⟩
  | countTimeout2 =>
      obtain ⟨h1, h2, h3, h4⟩ := countTimeout2_frame st
      exact ⟨⟨h1.trans hexp, h2.trans htmr, h3.trans hev⟩, Rcues_of_eq h4⟩
  | completionTimeout =>
      have h : step st Ev.completionTimeout = st := completionTimeout_noop st htmr
      rw [h]
      exact ⟨⟨hexp, htmr, hev⟩, Rcues_refl _⟩
  | startRefresh l =>
      obtain ⟨h1, h2, h3, h4⟩ := requestAllCuesS_frame st l
      refine ⟨⟨?_, h2.trans htmr, h3.trans hev⟩, Rcues_of_eq h4⟩
      rcases h1 with h1 | h1
      · exact h1.trans hexp
      · exact h1

theorem noCount_run (st : SState) (evs : List Ev)
    (hI : st.bulkRefreshExpectedCount = 0 ∧ st.completionTimerSet = false ∧
      st.evictionRan = false)
    (hevs : ∀ e ∈ evs, noCountEvB e = true) :
    ((run st evs).bulkRefreshExpectedCount = 0 ∧
      (run st evs).completionTimerSet = false ∧
      (run st evs).evictionRan = false) ∧
    Rcues st.cues (run st evs).cues := by
  induction evs generalizing st with
  | nil => exact ⟨hI, Rcues_refl _⟩
  | cons e rest ih =>
      have h1 := noCount_step st e hI (hevs e (List.mem_cons_self _ _))
      have h2 := ih (step st e) h1.1 (fun x hx => hevs x (List.mem_cons_of_mem _ hx))
      exact ⟨h2.1, Rcues_trans h1.2 h2.2⟩

/-- C8: if a refresh never establishes the expected cue count -- no CueCount
response and no count extracted from a response path -- then no eviction
pass runs, and every cue that was in the store before is still in the store
afterwards with its cue number and its user-owned fields (notes, color,
tags, page, image_path) byte-identical; partial upserts only rewrite
console-owned fields. -/
theorem C8_no_eviction_without_count (st : SState) (evs : List Ev)
    (hexp : st.bulkRefreshExpectedCount = 0)
    (htmr : st.completionTimerSet = false)
    (hev : st.evictionRan = false)
    (hevs : ∀ e ∈ evs, noCountEvB e = true) :
    (run st evs).evictionRan = false ∧
    ∀ c ∈ st.cues, ∃ c' ∈ (run st evs).cues, cuePreserved c c' := by
  have h := noCount_run st evs ⟨hexp, htmr, hev⟩ hevs
  exact ⟨h.1.2.2, h.2⟩

/-- A quiescent store with three cues and no refresh under way. -/
def c8State : SState :=
  { exState with bulkRefreshInProgress := false,
                 bulkRefreshCueList := none,
                 bulkRefreshExpectedCount := 0,
                 bulkRefreshReceivedIndices := [],
                 bulkRefreshReceivedCues := [],
                 bulkRefreshCountReceived := false }

/-- A refresh that starts, receives one partial CueData without a path
count, and dies through both count timeouts -- the count is never known. -/
def c8Trace : List Ev :=
  [Ev.startRefresh 1,
   Ev.cueData "1" "7" "0" none [JVal.vNum 0] 0,
   Ev.countTimeout1,
   Ev.countTimeout2]

/-- Witness for C8: on the concrete failed refresh no eviction runs and all
three cues survive. -/
theorem C8_no_eviction_without_count_witness :
    (run c8State c8Trace).evictionRan = false ∧
    ∀ c ∈ c8State.cues, ∃ c' ∈ (run c8State c8Trace).cues, cuePreserved c c' :=
  C8_no_eviction_without_count c8State c8Trace (by decide) (by decide) (by decide)
    (by decide)

/-! User-owned fields across arbitrary event traces (C1). -/

/-- The user fields of a freshly created record: the creation defaults of
`updateOrCreateCue`'s create branch (`page` is simply absent). -/
def freshUser (c : Obj) : Prop :=
  getF c "notes" = .vStr "" ∧ getF c "color" = .vStr "#ffffff" ∧
  getF c "tags" = .vArr [] ∧ getF c "page" = .vUndef ∧
  getF c "image_path" = .vNull

/-- A store cue either carries the user fields of a cue of the initial
store with the same cue number, byte-identical, or is a freshly created
record whose user fields are the creation defaults. -/
def descUser (cs0 : List Obj) (c' : Obj) : Prop :=
  (∃ c ∈ cs0, getF c' "cue_number" = getF c "cue_number" ∧
    ∀ f ∈ userFields, getF c' f = getF c f) ∨ freshUser c'

/-- Every cue of the evolving store is a descendant of the initial store or
fresh. -/
def DU (cs0 cs : List Obj) : Prop := ∀ c ∈ cs, descUser cs0 c

theorem DU_refl (cs : List Obj) : DU cs cs :=
  fun c hc => Or.inl ⟨c, hc, rfl, fun _ _ => rfl⟩

theorem descUser_of_cuePreserved {cs0 : List Obj} {c' c'' : Obj}
    (hp : cuePreserved c' c'') (hd : descUser cs0 c') : descUser cs0 c'' := by
  rcases hd with ⟨c, hc, hn, hu⟩ | hf
  · exact Or.inl ⟨c, hc, hp.1.trans hn, fun f hf2 => (hp.2 f hf2).trans (hu f hf2)⟩
  · right
    obtain ⟨h1, h2, h3, h4, h5⟩ := hf
    exact ⟨(hp.2 "notes" (by decide)).trans h1, (hp.2 "color" (by decide)).trans h2,
      (hp.2 "tags" (by decide)).trans h3, (hp.2 "page" (by decide)).trans h4,
      (hp.2 "image_path" (by decide)).trans h5⟩

theorem noUserKeys_ne (u : Obj) (hu : noUserKeys u) (f : String)
    (hf : f ∈ userFields) : ∀ kv ∈ u, kv.1 ≠ f :=
  fun kv hm he => (hu kv hm).2 (by rw [he]; exact hf)

theorem freshUser_mkNewCue (n : String) (lv : JVal) (u : Obj)
    (hu : noUserKeys u) : freshUser (mkNewCue n lv u) := by
  refine ⟨?_, ?_, ?_, ?_, ?_⟩
  · exact (mkNewCue_getF_not_key u n lv "notes"
      (noUserKeys_ne u hu "notes" (by decide))).trans rfl
  · exact (mkNewCue_getF_not_key u n lv "color"
      (noUserKeys_ne u hu "color" (by decide))).trans rfl
  · exact (mkNewCue_getF_not_key u n lv "tags"
      (noUserKeys_ne u hu "tags" (by decide))).trans rfl
  · exact (mkNewCue_getF_not_key u n lv "page"
      (noUserKeys_ne u hu "page" (by decide))).trans rfl
  · exact (mkNewCue_getF_not_key u n lv "image_path"
      (noUserKeys_ne u hu "image_path" (by decide))).trans rfl

theorem updateFirstMatching_mem (cs : List Obj) (k : String) (u : Obj) :
    ∀ x ∈ updateFirstMatching cs k u, x ∈ cs ∨ ∃ c ∈ cs, x = applyUpdates c u := by
  induction cs with
  | nil => intro x hx; cases hx
  | cons d rest ih =>
      intro x hx
      unfold updateFirstMatching at hx
      cases hd : existingKeyOf d == k with
      | true =>
          simp only [hd, if_true] at hx
          rcases List.mem_cons.1 hx with rfl | hmem
          · exact Or.inr ⟨d, List.mem_cons_self _ _, rfl⟩
          · exact Or.inl (List.mem_cons_of_mem _ hmem)
      | false =>
          simp only [hd, Bool.false_eq_true, if_false] at hx
          rcases List.mem_cons.1 hx with rfl | hmem
          · exact Or.inl (List.mem_cons_self _ _)
          · rcases ih x hmem with h | ⟨c, hc, he⟩
            · exact Or.inl (List.mem_cons_of_mem _ h)
            · exact Or.inr ⟨c, List.mem_cons_of_mem _ hc, he⟩

theorem setLastSeenFirst_mem (cs : List Obj) (l n : String) (tyV : JVal) :
    ∀ x ∈ setLastSeenFirst cs l n tyV,
      x ∈ cs ∨ ∃ c ∈ cs, x = setF c "last_seen" tyV := by
  induction cs with
  | nil => intro x hx; cases hx
  | cons d rest ih =>
      intro x hx
      unfold setLastSeenFirst at hx
      cases hd : isTargetCue l n d with
      | true =>
          simp only [hd, if_true] at hx
          rcases List.mem_cons.1 hx with rfl | hmem
          · exact Or.inr ⟨d, List.mem_cons_self _ _, rfl⟩
          · exact Or.inl (List.mem_cons_of_mem _ hmem)
      | false =>
          simp only [hd, Bool.false_eq_true, if_false] at hx
          rcases List.mem_cons.1 hx with rfl | hmem
          · exact Or.inl (List.mem_cons_self _ _)
          · rcases ih x hmem with h | ⟨c, hc, he⟩
            · exact Or.inl (List.mem_cons_of_mem _ h)
            · exact Or.inr ⟨c, List.mem_cons_of_mem _ hc, he⟩

theorem DU_updCuesFn {cs0 cs : List Obj} (n : String) (u : Obj)
    (hu : noUserKeys u) (hd : DU cs0 cs) : DU cs0 (updCuesFn cs n u) := by
  unfold updCuesFn
  split
  · intro x hx
    rcases updateFirstMatching_mem cs (updKey n u) u x hx with h | ⟨c, hc, he⟩
    · exact hd x h
    · rw [he]
      exact descUser_of_cuePreserved (cuePreserved_applyUpdates c u hu) (hd c hc)
  · intro x hx
    rcases List.mem_append.1 (((sortCues_perm _).mem_iff).1 hx) with h | h
    · exact hd x h
    · rw [List.mem_singleton.1 h]
      exact Or.inr (freshUser_mkNewCue n (updListV u) u hu)

theorem DU_clearTypeInList {cs0 cs : List Obj} (ty l : String) (hd : DU cs0 cs) :
    DU cs0 (clearTypeInList cs ty l) := by
  intro x hx
  unfold clearTypeInList at hx
  rcases List.mem_map.1 hx with ⟨c, hc, he⟩
  rw [← he]
  split
  · exact descUser_of_cuePreserved (cuePreserved_setF_last c _) (hd c hc)
  · exact hd c hc

theorem DU_clearTypeAll {cs0 cs : List Obj} (ty : String) (hd : DU cs0 cs) :
    DU cs0 (clearTypeAll cs ty) := by
  intro x hx
  unfold clearTypeAll at hx
  rcases List.mem_map.1 hx with ⟨c, hc, he⟩
  rw [← he]
  split
  · exact descUser_of_cuePreserved (cuePreserved_setF_last c _) (hd c hc)
  · exact hd c hc

theorem DU_setLastSeenFirst {cs0 cs : List Obj} (l n : String) (tyV : JVal)
    (hd : DU cs0 cs) : DU cs0 (setLastSeenFirst cs l n tyV) := by
  intro x hx
  rcases setLastSeenFirst_mem cs l n tyV x hx with h | ⟨c, hc, he⟩
  · exact hd x h
  · rw [he]
    exact descUser_of_cuePreserved (cuePreserved_setF_last c tyV) (hd c hc)

theorem DU_updateOrCreateCue {cs0 : List Obj} (st : SState) (n : String) (u : Obj)
    (hu : noUserKeys u) (hd : DU cs0 st.cues) :
    DU cs0 (updateOrCreateCue st n u).cues := by
  rw [updateOrCreateCue_cues]
  exact DU_updCuesFn n u hu hd

theorem DU_setActiveCue {cs0 : List Obj} (st : SState) (l n ty : String) (now : ℤ)
    (hd : DU cs0 st.cues) : DU cs0 (setActiveCue st l n ty now).cues := by
  rw [setActiveCue_cues]
  have h1 := DU_clearTypeInList ty l hd
  cases htgt : (clearTypeInList st.cues ty l).find? (isTargetCue l n) with
  | some c => exact DU_setLastSeenFirst _ _ _ h1
  | none =>
      refine DU_updCuesFn _ _ ?_ h1
      intro kv hm
      rcases List.mem_cons.1 hm with rfl | hm2
      · exact noUserKey_pair _ _ (by decide) (by decide)
      · rcases List.mem_singleton.1 hm2 with rfl
        exact noUserKey_pair _ _ (by decide) (by decide)

theorem DU_parseCueText {cs0 : List Obj} (st : SState) (txt ty : String)
    (ctx : Option String) (now : ℤ) (hd : DU cs0 st.cues) :
    DU cs0 (parseCueText st txt ty ctx now).cues := by
  rcases parseCueText_cues_cases st txt ty ctx now with
    ⟨l, h⟩ | h | h | ⟨list, cue, lab, comp, fd, h, _, hfd⟩
  · rw [h]; exact DU_clearTypeInList _ _ hd
  · rw [h]; exact DU_clearTypeAll _ hd
  · rw [h]; exact hd
  · rw [h]
    refine DU_updCuesFn _ _ ?_ (DU_clearTypeInList ty list hd)
    intro kv hm
    rcases List.mem_append.1 hm with hm1 | hm1
    · simp only [List.mem_cons, List.mem_singleton] at hm1
      rcases hm1 with rfl | rfl | rfl | h1
      · exact noUserKey_pair _ _ (by decide) (by decide)
      · exact noUserKey_pair _ _ (by decide) (by decide)
      · exact noUserKey_pair _ _ (by decide) (by decide)
      · rcases h1 with rfl | h2
        · exact noUserKey_pair _ _ (by decide) (by decide)
        · cases h2
    · rcases hfd with rfl | ⟨f, rfl⟩
      · cases hm1
      · rcases List.mem_singleton.1 hm1 with rfl
        exact noUserKey_pair _ _ (by decide) (by decide)

theorem checkBulk_cues_subset (st : SState) :
    ∀ c ∈ (checkBulkRefreshCompleteS st).cues, c ∈ st.cues := by
  intro c hc
  unfold checkBulkRefreshCompleteS at hc
  cases hip : st.bulkRefreshInProgress with
  | false => simp only [hip, Bool.not_false, if_true] at hc; exact hc
  | true =>
      simp only [hip, Bool.not_true, Bool.false_eq_true, if_false] at hc
      cases hq : st.bulkRefreshQueue with
      | nil =>
          rw [hq] at hc
          exact List.mem_of_mem_filter hc
      | cons next rest =>
          rw [hq] at hc
          rw [requestAllCuesS_cues] at hc
          exact List.mem_of_mem_filter hc

theorem handleCueCount_cues_subset (st : SState) (cl : Option ℤ) (cnt : ℤ) :
    ∀ c ∈ (handleCueCountResponseS st cl cnt).cues, c ∈ st.cues := by
  intro c hc
  cases cl with
  | none => exact hc
  | some l =>
      unfold handleCueCountResponseS at hc
      dsimp only at hc
      split at hc
      · exact hc
      · split at hc
        · have h2 := checkBulk_cues_subset _ c hc
          exact h2
        · exact hc

theorem handleCueIndex_cues (st : SState) (cl : Option ℤ) (i : ℚ) :
    (handleCueIndexResponseS st cl i).1.cues = st.cues := by
  unfold handleCueIndexResponseS
  cases cl with
  | none => rfl
  | some l =>
      dsimp only
      repeat' split
      all_goals rfl

theorem cueDataWildcard_cues (st : SState) (pc : Option ℤ) :
    (cueDataWildcard st pc).cues = st.cues := by
  unfold cueDataWildcard
  cases pc with
  | none => rfl
  | some v => dsimp only; split <;> rfl

theorem DU_cueDataUpsert {cs0 : List Obj} (st : SState) (ln cn pn : String)
    (args : List JVal) (now : ℤ) (hd : DU cs0 st.cues) :
    DU cs0 (cueDataUpsert st ln cn pn args now).cues := by
  unfold cueDataUpsert
  dsimp only
  split
  · have h1 : DU cs0 (updateOrCreateCue st cn (parseCueArgs ln pn args)).cues :=
      DU_updateOrCreateCue st cn _ (parseCueArgs_noUserKeys ln pn args) hd
    split
    · split
      · exact DU_setActiveCue _ _ _ _ _ h1
      · exact h1
    · exact h1
  · exact hd

theorem DU_cueDataStep {cs0 : List Obj} (st : SState) (ln cn pn : String)
    (pc : Option ℤ) (args : List JVal) (now : ℤ) (hd : DU cs0 st.cues) :
    DU cs0 (cueDataStep st ln cn pn pc args now).cues := by
  unfold cueDataStep
  dsimp only
  have hw : DU cs0 (cueDataWildcard st pc).cues := by
    rw [cueDataWildcard_cues]; exact hd
  cases hv : argN args 0 with
  | vNum i =>
      dsimp only
      have h1 : DU cs0
          (handleCueIndexResponseS (cueDataWildcard st pc) (parseIntJS ln) i).1.cues := by
        rw [handleCueIndex_cues]; exact hw
      have h2 := DU_cueDataUpsert _ ln cn pn args now h1
      split
      · intro x hx; exact h2 x (checkBulk_cues_subset _ x hx)
      · exact h2
  | _ => exact DU_cueDataUpsert _ _ _ _ _ _ hw

theorem DU_step {cs0 : List Obj} (st : SState) (e : Ev) (hd : DU cs0 st.cues) :
    DU cs0 (step st e).cues := by
  cases e with
  | perList l c ty now => exact DU_setActiveCue st l c ty now hd
  | textEv txt ty ctx now => exact DU_parseCueText st txt ty ctx now hd
  | countResp l cnt =>
      intro x hx
      exact hd x (handleCueCount_cues_subset st (some l) cnt x hx)
  | cueData ln cn pn pc args now => exact DU_cueDataStep st ln cn pn pc args now hd
  | countTimeout1 =>
      show DU cs0 (countTimeout1Step st).cues
      rw [(countTimeout1_frame st).2.2.2]; exact hd
  | countTimeout2 =>
      show DU cs0 (countTimeout2Step st).cues
      rw [(countTimeout2_frame st).2.2.2]; exact hd
  | completionTimeout =>
      show DU cs0 (completionTimeoutStep st).cues
      unfold completionTimeoutStep
      split
      · exact hd
      · intro x hx
        have h2 := checkBulk_cues_subset _ x hx
        exact hd x h2
  | startRefresh l =>
      show DU cs0 (requestAllCuesS st l).cues
      rw [requestAllCuesS_cues]; exact hd

theorem DU_run {cs0 : List Obj} (st : SState) (evs : List Ev)
    (hd : DU cs0 st.cues) : DU cs0 (run st evs).cues := by
  induction evs generalizing st with
  | nil => exact hd
  | cons e rest ih => exact ih (step st e) (DU_step st e hd)

/-- A full refresh cycle of list 1: start, count 2, two CueData responses
for cues 5 and 7 (cue 5 reporting an empty notes-free payload), completion
cleanup. -/
def c1Trace : List Ev :=
  [Ev.startRefresh 1,
   Ev.countResp 1 2,
   Ev.cueData "1" "5" "0" none [JVal.vNum 0, JVal.vStr ""] 10,
   Ev.cueData "1" "7" "0" none [JVal.vNum 1, JVal.vStr ""] 20,
   Ev.completionTimeout]

/-! At most one active/pending cue per list (C3). -/

/-- The condition of the per-list clear pass: `last_seen` equals the type
and the effective cue list equals `l`. -/
def markedIn (ty l : String) (c : Obj) : Bool :=
  getF c "last_seen" == JVal.vStr ty && effListStr c == l

/-- Two cues clash when both carry the same string `last_seen` mark in the
same effective list. -/
def clashes (a b : Obj) : Bool :=
  (match getF a "last_seen" with | .vStr _ => true | _ => false) &&
  (getF a "last_seen" == getF b "last_seen") && (effListStr a == effListStr b)

/-- At most one cue per list carries any given string mark. -/
def atMostOne (cs : List Obj) : Prop :=
  ∀ ty l : String, cs.countP (markedIn ty l) ≤ 1

theorem markedIn_both_clashes (ty l : String) (a b : Obj)
    (ha : markedIn ty l a = true) (hb : markedIn ty l b = true) :
    clashes a b = true := by
  unfold markedIn at ha hb
  rw [Bool.and_eq_true] at ha hb
  have ha1 : getF a "last_seen" = JVal.vStr ty := eq_of_beq ha.1
  have hb1 : getF b "last_seen" = JVal.vStr ty := eq_of_beq hb.1
  have ha2 : effListStr a = l := eq_of_beq ha.2
  have hb2 : effListStr b = l := eq_of_beq hb.2
  unfold clashes
  rw [ha1, hb1, ha2, hb2]
  simp

theorem atMostOne_of_pairwise :
    ∀ cs : List Obj, List.Pairwise (fun a b => clashes a b = false) cs →
      atMostOne cs := by
  intro cs h
  induction cs with
  | nil => intro ty l; simp
  | cons a rest ih =>
      rcases List.pairwise_cons.1 h with ⟨ha, hrest⟩
      intro ty l
      rw [List.countP_cons]
      by_cases hpa : markedIn ty l a = true
      · have hz : rest.countP (markedIn ty l) = 0 := by
          rw [List.countP_eq_zero]
          intro b hb hpb
          have hc := markedIn_both_clashes ty l a b hpa hpb
          rw [ha b hb] at hc
          cases hc
        rw [hz, if_pos hpa]
      · have hle := ih hrest ty l
        rw [if_neg hpa]
        omega

theorem effListStr_setF_ne (c : Obj) (k : String) (v : JVal)
    (h : k ≠ "cue_list") : effListStr (setF c k v) = effListStr c := by
  unfold effListStr effListV
  rw [getF_setF_ne c k "cue_list" v (Ne.symm h)]

theorem markedIn_setF_last (ty l : String) (c : Obj) (v : JVal) :
    markedIn ty l (setF c "last_seen" v) =
      ((v == JVal.vStr ty) && (effListStr c == l)) := by
  unfold markedIn
  rw [getF_setF_same, effListStr_setF_ne c "last_seen" v (by decide)]

theorem countP_clearTypeInList_le (cs : List Obj) (ty l ty2 l2 : String) :
    (clearTypeInList cs ty l).countP (markedIn ty2 l2) ≤
      cs.countP (markedIn ty2 l2) := by
  unfold clearTypeInList
  rw [List.countP_map]
  refine List.countP_mono_left (fun c _ => ?_)
  intro hm
  simp only [Function.comp] at hm
  split at hm
  · rw [markedIn_setF_last] at hm
    simp at hm
  · exact hm

theorem countP_clearTypeInList_self (cs : List Obj) (ty l : String) :
    (clearTypeInList cs ty l).countP (markedIn ty l) = 0 := by
  unfold clearTypeInList
  rw [List.countP_map, List.countP_eq_zero]
  intro c _
  simp only [Function.comp]
  intro hm
  split at hm
  · rw [markedIn_setF_last] at hm
    simp at hm
  · rename_i hcond
    exact hcond hm

theorem countP_clearTypeAll_le (cs : List Obj) (ty ty2 l2 : String) :
    (clearTypeAll cs ty).countP (markedIn ty2 l2) ≤
      cs.countP (markedIn ty2 l2) := by
  unfold clearTypeAll
  rw [List.countP_map]
  refine List.countP_mono_left (fun c _ => ?_)
  intro hm
  simp only [Function.comp] at hm
  split at hm
  · rw [markedIn_setF_last] at hm
    simp at hm
  · exact hm

theorem countP_setLastSeenFirst_le (cs : List Obj) (l n : String) (tyV : JVal)
    (p : Obj → Bool)
    (h : ∀ c, isTargetCue l n c = true → p (setF c "last_seen" tyV) = false) :
    (setLastSeenFirst cs l n tyV).countP p ≤ cs.countP p := by
  induction cs with
  | nil => simp [setLastSeenFirst]
  | cons c rest ih =>
      unfold setLastSeenFirst
      cases ht : isTargetCue l n c with
      | true =>
          simp only [ht, if_true, List.countP_cons, h c ht, Bool.false_eq_true,
            if_false]
          split <;> omega
      | false =>
          simp only [ht, Bool.false_eq_true, if_false, List.countP_cons]
          have := ih
          omega

theorem countP_setLastSeenFirst_succ (cs : List Obj) (l n : String) (tyV : JVal)
    (p : Obj → Bool) :
    (setLastSeenFirst cs l n tyV).countP p ≤ cs.countP p + 1 := by
  induction cs with
  | nil => simp [setLastSeenFirst]
  | cons c rest ih =>
      unfold setLastSeenFirst
      cases ht : isTargetCue l n c with
      | true =>
          simp only [ht, if_true, List.countP_cons]
          split <;> split <;> omega
      | false =>
          simp only [ht, Bool.false_eq_true, if_false, List.countP_cons]
          have := ih
          omega

theorem countP_updateFirstMatching_le (cs : List Obj) (k : String) (u : Obj)
    (p : Obj → Bool) (h : ∀ c, p (applyUpdates c u) = false) :
    (updateFirstMatching cs k u).countP p ≤ cs.countP p := by
  induction cs with
  | nil => simp [updateFirstMatching]
  | cons c rest ih =>
      unfold updateFirstMatching
      cases hd : existingKeyOf c == k with
      | true =>
          simp only [hd, if_true, List.countP_cons, h c, Bool.false_eq_true, if_false]
          split <;> omega
      | false =>
          simp only [hd, Bool.false_eq_true, if_false, List.countP_cons]
          have := ih
          omega

theorem countP_updateFirstMatching_succ (cs : List Obj) (k : String) (u : Obj)
    (p : Obj → Bool) :
    (updateFirstMatching cs k u).countP p ≤ cs.countP p + 1 := by
  induction cs with
  | nil => simp [updateFirstMatching]
  | cons c rest ih =>
      unfold updateFirstMatching
      cases hd : existingKeyOf c == k with
      | true =>
          simp only [hd, if_true, List.countP_cons]
          split <;> split <;> omega
      | false =>
          simp only [hd, Bool.false_eq_true, if_false, List.countP_cons]
          have := ih
          omega

theorem hasContent_vStr_ne (s : String) (h : s ≠ "") :
    hasContent (JVal.vStr s) = true := by
  simp [hasContent, h]

theorem effListStr_of_field (c : Obj) (s : String)
    (hc : getF c "cue_list" = JVal.vStr s) (hs : s ≠ "") : effListStr c = s := by
  unfold effListStr effListV jsOr
  rw [hc]
  simp [jsFalsy, jsToStr, hs]

theorem applyUpdates_append (c : Obj) (u1 u2 : Obj) :
    applyUpdates c (u1 ++ u2) = applyUpdates (applyUpdates c u1) u2 := by
  unfold applyUpdates
  rw [List.foldl_append]

theorem applyUpdates_single_write (c : Obj) (f : String) (v : JVal)
    (hw : alwaysUpdateFields.contains f = true ∨ hasContent v = true) :
    applyUpdates c [(f, v)] = setF c f v := by
  unfold applyUpdates
  simp only [List.foldl_cons, List.foldl_nil]
  by_cases ha : alwaysUpdateFields.contains f = true
  · rw [if_pos ha]
  · rcases hw with hw | hw
    · exact absurd hw ha
    · rw [if_neg ha, if_pos hw]

theorem applyUpdates_getF_last (c : Obj) (u1 u2 : Obj) (f : String) (v : JVal)
    (hw : alwaysUpdateFields.contains f = true ∨ hasContent v = true)
    (hafter : ∀ kv ∈ u2, kv.1 ≠ f) :
    getF (applyUpdates c (u1 ++ [(f, v)] ++ u2)) f = v := by
  have hsplit : u1 ++ [(f, v)] ++ u2 = (u1 ++ [(f, v)]) ++ u2 := by
    simp [List.append_assoc]
  rw [hsplit, applyUpdates_append, applyUpdates_getF_not_key u2 _ f hafter,
    applyUpdates_append, applyUpdates_single_write _ f v hw, getF_setF_same]

theorem mkNewCue_getF_last (n : String) (lv : JVal) (u1 u2 : Obj) (f : String)
    (v : JVal) (hafter : ∀ kv ∈ u2, kv.1 ≠ f) :
    getF (mkNewCue n lv (u1 ++ [(f, v)] ++ u2)) f = v := by
  unfold mkNewCue
  have hsplit : u1 ++ [(f, v)] ++ u2 = (u1 ++ [(f, v)]) ++ u2 := by
    simp [List.append_assoc]
  rw [hsplit, List.foldl_append, foldl_setF_getF_not_key u2 _ f hafter,
    List.foldl_append]
  simp only [List.foldl_cons, List.foldl_nil]
  rw [getF_setF_same]

theorem markedIn_of_fields (ty2 l2 ty list : String) (c : Obj)
    (h1 : getF c "cue_list" = JVal.vStr list)
    (h2 : getF c "last_seen" = JVal.vStr ty)
    (hl : list ≠ "") :
    markedIn ty2 l2 c = (decide (ty = ty2) && decide (list = l2)) := by
  unfold markedIn
  rw [h2, effListStr_of_field c list h1 hl]
  by_cases hty : ty = ty2 <;> by_cases hll : list = l2 <;> simp [hty, hll]

theorem forall_mem_nil_ne (f : String) : ∀ kv ∈ ([] : Obj), kv.1 ≠ f := by
  intro kv hm; cases hm

theorem forall_mem_cons_ne (f k : String) (v : JVal) (ps : Obj)
    (h1 : k ≠ f) (h2 : ∀ kv ∈ ps, kv.1 ≠ f) :
    ∀ kv ∈ ((k, v) :: ps), kv.1 ≠ f := by
  intro kv hm
  rcases List.mem_cons.1 hm with rfl | hm2
  · exact h1
  · exact h2 kv hm2

/-- Marked-count change through `updCuesFn` for an update object whose
final `cue_list` and `last_seen` writes are known: at most one new mark can
appear, and only in the pair `(ty, list)`. -/
theorem countP_updCuesFn (cs : List Obj) (n : String) (u : Obj) (list ty : String)
    (hl : list ≠ "")
    (hA : ∀ c, getF (applyUpdates c u) "cue_list" = JVal.vStr list ∧
      getF (applyUpdates c u) "last_seen" = JVal.vStr ty)
    (hN : getF (mkNewCue n (updListV u) u) "cue_list" = JVal.vStr list ∧
      getF (mkNewCue n (updListV u) u) "last_seen" = JVal.vStr ty)
    (ty2 l2 : String) :
    (updCuesFn cs n u).countP (markedIn ty2 l2) ≤
      cs.countP (markedIn ty2 l2) + (if ty = ty2 ∧ list = l2 then 1 else 0) := by
  unfold updCuesFn
  by_cases hpair : ty = ty2 ∧ list = l2
  · rw [if_pos hpair]
    split
    · exact countP_updateFirstMatching_succ cs (updKey n u) u _
    · rw [(sortCues_perm _).countP_eq, List.countP_append]
      have hnew : markedIn ty2 l2 (mkNewCue n (updListV u) u) = true := by
        rw [markedIn_of_fields ty2 l2 ty list _ hN.1 hN.2 hl]
        simp [hpair.1, hpair.2]
      simp only [List.countP_cons, List.countP_nil, hnew, if_true]
      omega
  · rw [if_neg hpair]
    split
    · have hupd : ∀ c, markedIn ty2 l2 (applyUpdates c u) = false := by
        intro c
        rw [markedIn_of_fields ty2 l2 ty list _ (hA c).1 (hA c).2 hl]
        rcases not_and_or.1 hpair with hp | hp <;> simp [hp]
      have := countP_updateFirstMatching_le cs (updKey n u) u _ hupd
      omega
    · rw [(sortCues_perm _).countP_eq, List.countP_append]
      have hnew : markedIn ty2 l2 (mkNewCue n (updListV u) u) = false := by
        rw [markedIn_of_fields ty2 l2 ty list _ hN.1 hN.2 hl]
        rcases not_and_or.1 hpair with hp | hp <;> simp [hp]
      simp only [List.countP_cons, List.countP_nil, hnew, Bool.false_eq_true, if_false]
      omega

/-- AM preservation through `setActiveCueByListAndNumber` for a non-empty
list parameter. -/
theorem AM_setActiveCue (st : SState) (l n ty : String) (now : ℤ) (hl : l ≠ "")
    (h : atMostOne st.cues) : atMostOne (setActiveCue st l n ty now).cues := by
  intro ty2 l2
  rw [setActiveCue_cues]
  have hle := countP_clearTypeInList_le st.cues ty l ty2 l2
  have hself := countP_clearTypeInList_self st.cues ty l
  have h2 := h ty2 l2
  cases htgt : (clearTypeInList st.cues ty l).find? (isTargetCue l n) with
  | some c =>
      dsimp only
      by_cases hpair : ty = ty2 ∧ l = l2
      · rcases hpair with ⟨h3, h4⟩
        subst h3; subst h4
        have := countP_setLastSeenFirst_succ (clearTypeInList st.cues ty l) l n
          (JVal.vStr ty) (markedIn ty l)
        omega
      · have hcond : ∀ c', isTargetCue l n c' = true →
            markedIn ty2 l2 (setF c' "last_seen" (JVal.vStr ty)) = false := by
          intro c' htc
          rw [markedIn_setF_last]
          rcases not_and_or.1 hpair with hp | hp
          · simp [hp]
          · have hel : effListStr c' = l := by
              unfold isTargetCue at htc
              rw [Bool.and_eq_true] at htc
              exact eq_of_beq htc.2
            simp [hel, hp]
        have := countP_setLastSeenFirst_le (clearTypeInList st.cues ty l) l n
          (JVal.vStr ty) (markedIn ty2 l2) hcond
        omega
  | none =>
      dsimp only
      have hA : ∀ c', getF (applyUpdates c'
            [("cue_list", JVal.vStr l), ("last_seen", JVal.vStr ty)]) "cue_list" =
              JVal.vStr l ∧
          getF (applyUpdates c'
            [("cue_list", JVal.vStr l), ("last_seen", JVal.vStr ty)]) "last_seen" =
              JVal.vStr ty := by
        intro c'
        constructor
        · exact applyUpdates_getF_last c' [] [("last_seen", JVal.vStr ty)]
            "cue_list" (JVal.vStr l) (Or.inr (hasContent_vStr_ne l hl))
            (forall_mem_cons_ne _ _ _ _ (by decide) (forall_mem_nil_ne _))
        · exact applyUpdates_getF_last c' [("cue_list", JVal.vStr l)] []
            "last_seen" (JVal.vStr ty) (Or.inl (by decide)) (forall_mem_nil_ne _)
      have hN : getF (mkNewCue n
            (updListV [("cue_list", JVal.vStr l), ("last_seen", JVal.vStr ty)])
            [("cue_list", JVal.vStr l), ("last_seen", JVal.vStr ty)]) "cue_list" =
              JVal.vStr l ∧
          getF (mkNewCue n
            (updListV [("cue_list", JVal.vStr l), ("last_seen", JVal.vStr ty)])
            [("cue_list", JVal.vStr l), ("last_seen", JVal.vStr ty)]) "last_seen" =
              JVal.vStr ty := by
        constructor
        · exact mkNewCue_getF_last n _ [] [("last_seen", JVal.vStr ty)]
            "cue_list" (JVal.vStr l)
            (forall_mem_cons_ne _ _ _ _ (by decide) (forall_mem_nil_ne _))
        · exact mkNewCue_getF_last n _ [("cue_list", JVal.vStr l)] []
            "last_seen" (JVal.vStr ty) (forall_mem_nil_ne _)
      have hcnt := countP_updCuesFn (clearTypeInList st.cues ty l) n
        [("cue_list", JVal.vStr l), ("last_seen", JVal.vStr ty)] l ty hl hA hN ty2 l2
      by_cases hpair : ty = ty2 ∧ l = l2
      · rw [if_pos hpair] at hcnt
        rcases hpair with ⟨h3, h4⟩
        subst h3; subst h4
        omega
      · rw [if_neg hpair] at hcnt
        omega

theorem forall_mem_append_ne (f : String) (ps qs : Obj)
    (h1 : ∀ kv ∈ ps, kv.1 ≠ f) (h2 : ∀ kv ∈ qs, kv.1 ≠ f) :
    ∀ kv ∈ ps ++ qs, kv.1 ≠ f := by
  intro kv hm
  rcases List.mem_append.1 hm with hm | hm
  exacts [h1 kv hm, h2 kv hm]

/-- AM preservation through `parseCueText`. -/
theorem AM_parseCueText (st : SState) (txt ty : String) (ctx : Option String)
    (now : ℤ) (h : atMostOne st.cues) :
    atMostOne (parseCueText st txt ty ctx now).cues := by
  rcases parseCueText_cues_cases st txt ty ctx now with
    ⟨l, hcase⟩ | hcase | hcase | ⟨list, cue, lab, comp, fd, hcase, hlist, hfd⟩
  · intro ty2 l2
    rw [hcase]
    exact (countP_clearTypeInList_le st.cues ty l ty2 l2).trans (h ty2 l2)
  · intro ty2 l2
    rw [hcase]
    exact (countP_clearTypeAll_le st.cues ty ty2 l2).trans (h ty2 l2)
  · intro ty2 l2
    rw [hcase]
    exact h ty2 l2
  · intro ty2 l2
    rw [hcase]
    have hself := countP_clearTypeInList_self st.cues ty list
    have hle := countP_clearTypeInList_le st.cues ty list ty2 l2
    have h2 := h ty2 l2
    have hfd_cl : ∀ kv ∈ fd, kv.1 ≠ "cue_list" := by
      rcases hfd with rfl | ⟨f, rfl⟩
      · exact forall_mem_nil_ne _
      · exact forall_mem_cons_ne _ _ _ _ (by decide) (forall_mem_nil_ne _)
    have hfd_ls : ∀ kv ∈ fd, kv.1 ≠ "last_seen" := by
      rcases hfd with rfl | ⟨f, rfl⟩
      · exact forall_mem_nil_ne _
      · exact forall_mem_cons_ne _ _ _ _ (by decide) (forall_mem_nil_ne _)
    have hA : ∀ c', getF (applyUpdates c'
          ([("cue_list", JVal.vStr list), ("label", JVal.vStr lab),
            ("last_seen", JVal.vStr ty), ("completion", JVal.vStr comp)] ++ fd))
          "cue_list" = JVal.vStr list ∧
        getF (applyUpdates c'
          ([("cue_list", JVal.vStr list), ("label", JVal.vStr lab),
            ("last_seen", JVal.vStr ty), ("completion", JVal.vStr comp)] ++ fd))
          "last_seen" = JVal.vStr ty := by
      intro c'
      constructor
      · exact applyUpdates_getF_last c' []
          ([("label", JVal.vStr lab), ("last_seen", JVal.vStr ty),
            ("completion", JVal.vStr comp)] ++ fd) "cue_list" (JVal.vStr list)
          (Or.inr (hasContent_vStr_ne list hlist))
          (forall_mem_append_ne _ _ _
            (forall_mem_cons_ne _ _ _ _ (by decide)
              (forall_mem_cons_ne _ _ _ _ (by decide)
                (forall_mem_cons_ne _ _ _ _ (by decide) (forall_mem_nil_ne _))))
            hfd_cl)
      · exact applyUpdates_getF_last c'
          [("cue_list", JVal.vStr list), ("label", JVal.vStr lab)]
          ([("completion", JVal.vStr comp)] ++ fd) "last_seen" (JVal.vStr ty)
          (Or.inl (by decide))
          (forall_mem_append_ne _ _ _
            (forall_mem_cons_ne _ _ _ _ (by decide) (forall_mem_nil_ne _)) hfd_ls)
    have hN : getF (mkNewCue cue
          (updListV ([("cue_list", JVal.vStr list), ("label", JVal.vStr lab),
            ("last_seen", JVal.vStr ty), ("completion", JVal.vStr comp)] ++ fd))
          ([("cue_list", JVal.vStr list), ("label", JVal.vStr lab),
            ("last_seen", JVal.vStr ty), ("completion", JVal.vStr comp)] ++ fd))
          "cue_list" = JVal.vStr list ∧
        getF (mkNewCue cue
          (updListV ([("cue_list", JVal.vStr list), ("label", JVal.vStr lab),
            ("last_seen", JVal.vStr ty), ("completion", JVal.vStr comp)] ++ fd))
          ([("cue_list", JVal.vStr list), ("label", JVal.vStr lab),
            ("last_seen", JVal.vStr ty), ("completion", JVal.vStr comp)] ++ fd))
          "last_seen" = JVal.vStr ty := by
      constructor
      · exact mkNewCue_getF_last cue _ []
          ([("label", JVal.vStr lab), ("last_seen", JVal.vStr ty),
            ("completion", JVal.vStr comp)] ++ fd) "cue_list" (JVal.vStr list)
          (forall_mem_append_ne _ _ _
            (forall_mem_cons_ne _ _ _ _ (by decide)
              (forall_mem_cons_ne _ _ _ _ (by decide)
                (forall_mem_cons_ne _ _ _ _ (by decide) (forall_mem_nil_ne _))))
            hfd_cl)
      · exact mkNewCue_getF_last cue _
          [("cue_list", JVal.vStr list), ("label", JVal.vStr lab)]
          ([("completion", JVal.vStr comp)] ++ fd) "last_seen" (JVal.vStr ty)
          (forall_mem_append_ne _ _ _
            (forall_mem_cons_ne _ _ _ _ (by decide) (forall_mem_nil_ne _)) hfd_ls)
    have hcnt := countP_updCuesFn (clearTypeInList st.cues ty list) cue
      ([("cue_list", JVal.vStr list), ("label", JVal.vStr lab),
        ("last_seen", JVal.vStr ty), ("completion", JVal.vStr comp)] ++ fd)
      list ty hlist hA hN ty2 l2
    by_cases hpair : ty = ty2 ∧ list = l2
    · rw [if_pos hpair] at hcnt
      rcases hpair with ⟨h3, h4⟩
      subst h3; subst h4
      omega
    · rw [if_neg hpair] at hcnt
      omega

/-- The events the active/pending tracker consumes: per-list events with a
non-empty list path part, and text parses. -/
def clean : Ev → Bool
  | .perList l _ _ _ => l != ""
  | .textEv _ _ _ _ => true
  | _ => false

theorem AM_run (st : SState) (evs : List Ev) (h0 : atMostOne st.cues)
    (hevs : ∀ e ∈ evs, clean e = true) : atMostOne (run st evs).cues := by
  induction evs generalizing st with
  | nil => exact h0
  | cons e rest ih =>
      have he := hevs e (List.mem_cons_self _ _)
      have h1 : atMostOne (step st e).cues := by
        cases e with
        | perList l c ty now =>
            have hl : l ≠ "" := by simpa [clean] using he
            exact AM_setActiveCue st l c ty now hl h0
        | textEv txt ty ctx now => exact AM_parseCueText st txt ty ctx now h0
        | countResp _ _ => simp [clean] at he
        | cueData _ _ _ _ _ _ => simp [clean] at he
        | countTimeout1 => simp [clean] at he
        | countTimeout2 => simp [clean] at he
        | completionTimeout => simp [clean] at he
        | startRefresh _ => simp [clean] at he
      exact ih (step st e) h1 (fun x hx => hevs x (List.mem_cons_of_mem _ hx))

theorem slash_decomp (D : List Char) (hD : '/' ∉ D) :
    ∀ (C : List Char), '/' ∉ C → ∀ (A B : List Char),
      A ++ '/' :: B = C ++ '/' :: D → A = C ∧ B = D := by
  intro C
  induction C with
  | nil =>
      intro _ A B h
      cases A with
      | nil =>
          rw [List.nil_append, List.nil_append] at h
          injection h with _ h2
          exact ⟨rfl, h2⟩
      | cons a A2 =>
          rw [List.cons_append, List.nil_append] at h
          injection h with _ h2
          exfalso
          apply hD
          rw [← h2]
          exact List.mem_append_right _ (List.mem_cons_self _ _)
  | cons c C2 ih =>
      intro hC A B h
      cases A with
      | nil =>
          rw [List.nil_append, List.cons_append] at h
          injection h with h1 _
          exfalso
          apply hC
          rw [h1]
          exact List.mem_cons_self _ _
      | cons a A2 =>
          rw [List.cons_append, List.cons_append] at h
          injection h with h1 h2
          have hC2 : '/' ∉ C2 := fun hm => hC (List.mem_cons_of_mem _ hm)
          obtain ⟨hA, hB⟩ := ih hC2 A2 B h2
          exact ⟨by rw [h1, hA], hB⟩

theorem string_of_data_eq (a b : String) (h : a.data = b.data) : a = b := by
  cases a; cases b
  simp only at h
  rw [h]

theorem key_eq_decomp (a b c d : String) (hc : '/' ∉ c.data) (hd : '/' ∉ d.data)
    (h : a ++ "/" ++ b = c ++ "/" ++ d) : a = c ∧ b = d := by
  have hdata : a.data ++ '/' :: b.data = c.data ++ '/' :: d.data := by
    have h2 := congrArg String.data h
    simpa [String.data_append] using h2
  obtain ⟨h1, h2⟩ := slash_decomp d.data hd c.data hc a.data b.data hdata
  exact ⟨string_of_data_eq a c h1, string_of_data_eq b d h2⟩

theorem key3_ne (L num P l n : String) (hl : '/' ∉ l.data) (hn : '/' ∉ n.data) :
    L ++ "/" ++ num ++ "/" ++ P ≠ l ++ "/" ++ n := by
  intro h
  have hcnt := congrArg (fun s : String => s.data.count '/') h
  simp only [String.data_append, List.count_append, List.count_cons] at hcnt
  have hl0 : l.data.count '/' = 0 := List.count_eq_zero.2 hl
  have hn0 : n.data.count '/' = 0 := List.count_eq_zero.2 hn
  simp at hcnt
  omega

/-- A matching stored-cue key with slash-free `l` and `n` pins the cue to
list `l`. -/
theorem existingKeyOf_match (c : Obj) (l n : String)
    (hls : '/' ∉ l.data) (hns : '/' ∉ n.data)
    (h : existingKeyOf c = l ++ "/" ++ n) : effListStr c = l := by
  unfold existingKeyOf at h
  dsimp only at h
  split at h
  · exact absurd h (key3_ne _ _ _ l n hls hns)
  · exact (key_eq_decomp (effListStr c) _ l n hls hns h).1

theorem updKey_pair (n l ty : String) (hl : l ≠ "") :
    updKey n [("cue_list", JVal.vStr l), ("last_seen", JVal.vStr ty)] =
      l ++ "/" ++ n := by
  unfold updKey
  dsimp only
  have h1 : updListV [("cue_list", JVal.vStr l), ("last_seen", JVal.vStr ty)]
      = JVal.vStr l := by
    unfold updListV jsOr
    have h2 : getF [("cue_list", JVal.vStr l), ("last_seen", JVal.vStr ty)]
        "cue_list" = JVal.vStr l := rfl
    rw [h2]
    simp [jsFalsy, hl]
  rw [h1]
  rfl

/-- The two console writes of the per-list active/pending update object. -/
theorem pairUpd_fields (l ty : String) (hl : l ≠ "") (c : Obj) :
    getF (applyUpdates c [("cue_list", JVal.vStr l), ("last_seen", JVal.vStr ty)])
        "cue_list" = JVal.vStr l ∧
    getF (applyUpdates c [("cue_list", JVal.vStr l), ("last_seen", JVal.vStr ty)])
        "last_seen" = JVal.vStr ty := by
  constructor
  · exact applyUpdates_getF_last c [] [("last_seen", JVal.vStr ty)]
      "cue_list" (JVal.vStr l) (Or.inr (hasContent_vStr_ne l hl))
      (forall_mem_cons_ne _ _ _ _ (by decide) (forall_mem_nil_ne _))
  · exact applyUpdates_getF_last c [("cue_list", JVal.vStr l)] []
      "last_seen" (JVal.vStr ty) (Or.inl (by decide)) (forall_mem_nil_ne _)

theorem pairNew_fields (n l ty : String) :
    getF (mkNewCue n (updListV [("cue_list", JVal.vStr l), ("last_seen", JVal.vStr ty)])
        [("cue_list", JVal.vStr l), ("last_seen", JVal.vStr ty)]) "cue_list" =
      JVal.vStr l ∧
    getF (mkNewCue n (updListV [("cue_list", JVal.vStr l), ("last_seen", JVal.vStr ty)])
        [("cue_list", JVal.vStr l), ("last_seen", JVal.vStr ty)]) "last_seen" =
      JVal.vStr ty := by
  constructor
  · exact mkNewCue_getF_last n _ [] [("last_seen", JVal.vStr ty)]
      "cue_list" (JVal.vStr l)
      (forall_mem_cons_ne _ _ _ _ (by decide) (forall_mem_nil_ne _))
  · exact mkNewCue_getF_last n _ [("cue_list", JVal.vStr l)] []
      "last_seen" (JVal.vStr ty) (forall_mem_nil_ne _)

theorem filter_map_invariant {α : Type} (cs : List α) (f : α → α) (p : α → Bool)
    (h1 : ∀ c, p c = true → f c = c) (h2 : ∀ c, p (f c) = p c) :
    (cs.map f).filter p = cs.filter p := by
  induction cs with
  | nil => rfl
  | cons c rest ih =>
      rw [List.map_cons, List.filter_cons, List.filter_cons, h2 c]
      by_cases hpc : p c = true
      · rw [if_pos hpc, if_pos hpc, h1 c hpc, ih]
      · rw [if_neg hpc, if_neg hpc, ih]

theorem filter_setLastSeenFirst (cs : List Obj) (l n : String) (tyV : JVal)
    (p : Obj → Bool)
    (h : ∀ c, isTargetCue l n c = true → p c = false ∧ p (setF c "last_seen" tyV) = false) :
    (setLastSeenFirst cs l n tyV).filter p = cs.filter p := by
  induction cs with
  | nil => rfl
  | cons c rest ih =>
      unfold setLastSeenFirst
      cases ht : isTargetCue l n c with
      | true =>
          simp only [ht, if_true]
          rw [List.filter_cons, List.filter_cons, (h c ht).1, (h c ht).2]
          simp
      | false =>
          simp only [ht, Bool.false_eq_true, if_false]
          rw [List.filter_cons, List.filter_cons, ih]

theorem filter_updateFirstMatching (cs : List Obj) (k : String) (u : Obj)
    (p : Obj → Bool)
    (h : ∀ c, (existingKeyOf c == k) = true → p c = false ∧ p (applyUpdates c u) = false) :
    (updateFirstMatching cs k u).filter p = cs.filter p := by
  induction cs with
  | nil => rfl
  | cons c rest ih =>
      unfold updateFirstMatching
      cases hd : existingKeyOf c == k with
      | true =>
          simp only [hd, if_true]
          rw [List.filter_cons, List.filter_cons, (h c hd).1, (h c hd).2]
          simp
      | false =>
          simp only [hd, Bool.false_eq_true, if_false]
          rw [List.filter_cons, List.filter_cons, ih]

/-- Setting one list's active or pending cue leaves the cues of every other
list unchanged (as a multiset of whole records, so in particular their
`last_seen`), for slash-free path parameters. -/
theorem setActiveCue_other_lists (st : SState) (l n ty : String) (now : ℤ)
    (hl : l ≠ "") (hls : '/' ∉ l.data) (hns : '/' ∉ n.data)
    (l2 : String) (h2 : l2 ≠ l) :
    List.Perm
      ((setActiveCue st l n ty now).cues.filter (fun c => effListStr c == l2))
      (st.cues.filter (fun c => effListStr c == l2)) := by
  rw [setActiveCue_cues]
  have hclear : (clearTypeInList st.cues ty l).filter (fun c => effListStr c == l2) =
      st.cues.filter (fun c => effListStr c == l2) := by
    unfold clearTypeInList
    refine filter_map_invariant st.cues _ _ ?_ ?_
    · intro c hpc
      have h4 := eq_of_beq hpc
      have hcond : (getF c "last_seen" == JVal.vStr ty && effListStr c == l) = false := by
        have h5 : (effListStr c == l) = false := by
          rw [h4]
          exact beq_false_of_ne h2
        rw [h5, Bool.and_false]
      simp only [hcond, Bool.false_eq_true, if_false]
    · intro c
      split
      · rw [effListStr_setF_ne c "last_seen" _ (by decide)]
      · rfl
  cases htgt : (clearTypeInList st.cues ty l).find? (isTargetCue l n) with
  | some c =>
      dsimp only
      have hh : ∀ c', isTargetCue l n c' = true →
          (fun c => effListStr c == l2) c' = false ∧
          (fun c => effListStr c == l2) (setF c' "last_seen" (JVal.vStr ty)) = false := by
        intro c' htc
        have hel : effListStr c' = l := by
          unfold isTargetCue at htc
          rw [Bool.and_eq_true] at htc
          exact eq_of_beq htc.2
        constructor
        · simp only
          rw [hel]
          exact beq_false_of_ne (Ne.symm h2)
        · simp only
          rw [effListStr_setF_ne c' "last_seen" _ (by decide), hel]
          exact beq_false_of_ne (Ne.symm h2)
      rw [filter_setLastSeenFirst _ _ _ _ _ hh, hclear]
  | none =>
      dsimp only
      unfold updCuesFn
      split
      · have hh : ∀ c', (existingKeyOf c' ==
            updKey n [("cue_list", JVal.vStr l), ("last_seen", JVal.vStr ty)]) = true →
            (fun c => effListStr c == l2) c' = false ∧
            (fun c => effListStr c == l2)
              (applyUpdates c' [("cue_list", JVal.vStr l), ("last_seen", JVal.vStr ty)]) =
              false := by
          intro c' hk
          have hk2 : existingKeyOf c' = l ++ "/" ++ n := by
            have h5 := eq_of_beq hk
            rw [updKey_pair n l ty hl] at h5
            exact h5
          constructor
          · simp only
            rw [existingKeyOf_match c' l n hls hns hk2]
            exact beq_false_of_ne (Ne.symm h2)
          · simp only
            rw [effListStr_of_field _ l (pairUpd_fields l ty hl c').1 hl]
            exact beq_false_of_ne (Ne.symm h2)
        rw [filter_updateFirstMatching _ _ _ _ hh, hclear]
      · refine ((sortCues_perm _).filter _).trans ?_
        rw [List.filter_append]
        have hnew : (effListStr (mkNewCue n
            (updListV [("cue_list", JVal.vStr l), ("last_seen", JVal.vStr ty)])
            [("cue_list", JVal.vStr l), ("last_seen", JVal.vStr ty)]) == l2) = false := by
          rw [effListStr_of_field _ l (pairNew_fields n l ty).1 hl]
          exact beq_false_of_ne (Ne.symm h2)
        simp only [List.filter_cons, List.filter_nil, hnew, Bool.false_eq_true,
          if_false, List.append_nil]
        rw [hclear]

/-- C3: after any sequence of ActiveCuePerList / PendingCuePerList events
(with non-empty list path parts) and active/pending text parses, each cue
list holds at most one cue with any given string `last_seen` mark -- in
particular at most one "active" and at most one "pending" per list; and
setting one list's active or pending cue (slash-free path parameters)
leaves the cues of every other list unchanged as a multiset of whole
records, so their `last_seen` values are untouched. -/
theorem C3_at_most_one_marked (st : SState) (evs : List Ev)
    (h0 : List.Pairwise (fun a b => clashes a b = false) st.cues)
    (hevs : ∀ e ∈ evs, clean e = true)
    (l n ty l2 : String) (now : ℤ)
    (hl : l ≠ "") (hls : '/' ∉ l.data) (hns : '/' ∉ n.data) (hl2 : l2 ≠ l) :
    (∀ ty2 lst : String, (run st evs).cues.countP (markedIn ty2 lst) ≤ 1) ∧
    List.Perm
      ((setActiveCue st l n ty now).cues.filter (fun c => effListStr c == l2))
      (st.cues.filter (fun c => effListStr c == l2)) :=
  ⟨AM_run st evs (atMostOne_of_pairwise st.cues h0) hevs,
   setActiveCue_other_lists st l n ty now hl hls hns l2 hl2⟩

/-- An active event on list 1 followed by a pending text parse for cue 1/6. -/
def c3Trace : List Ev :=
  [Ev.perList "1" "5" "active" 0, Ev.textEv "1/6 lbl" "pending" none 0]

/-- Witness for C3 on the concrete store and trace. -/
theorem C3_at_most_one_marked_witness :
    (∀ ty2 lst : String, (run exState c3Trace).cues.countP (markedIn ty2 lst) ≤ 1) ∧
    List.Perm
      ((setActiveCue exState "2" "10" "active" 0).cues.filter
        (fun c => effListStr c == "1"))
      (exState.cues.filter (fun c => effListStr c == "1")) :=
  C3_at_most_one_marked exState c3Trace (by decide) (by decide)
    "2" "10" "active" "1" 0 (by decide) (by decide) (by decide) (by decide)

/-! Keyed survivor tracking (C1): the cue identified by a stored key keeps
its own user-owned values across refresh traffic with well-formed
(slash-free) path parameters. -/

/-- `existingKeyOf` spelt out. -/
theorem existingKeyOf_eq (c : Obj) : existingKeyOf c =
    if jsGtZero (jsOr (getF c "part_number") (JVal.vNum 0)) then
      effListStr c ++ "/" ++ jsToStr (getF c "cue_number") ++ "/" ++
        jsToStr (jsOr (getF c "part_number") (JVal.vNum 0))
    else effListStr c ++ "/" ++ jsToStr (getF c "cue_number") := rfl

/-- `updKey` spelt out. -/
theorem updKey_eq (n : String) (u : Obj) : updKey n u =
    if jsGtZero (jsOr (getF u "part_number") (JVal.vNum 0)) then
      jsToStr (updListV u) ++ "/" ++ n ++ "/" ++
        jsToStr (jsOr (getF u "part_number") (JVal.vNum 0))
    else jsToStr (updListV u) ++ "/" ++ n := rfl

theorem effListStr_getF (c : Obj) :
    effListStr c = jsToStr (jsOr (getF c "cue_list") (JVal.vStr "1")) := rfl

/-- First-slash decomposition: the segment before the first slash is
determined when both sides' first segments are slash-free. -/
theorem slash_decomp_first :
    ∀ (C : List Char), '/' ∉ C → ∀ (A : List Char), '/' ∉ A →
      ∀ (B D : List Char), A ++ '/' :: B = C ++ '/' :: D → A = C ∧ B = D := by
  intro C
  induction C with
  | nil =>
      intro _ A hA B D h
      cases A with
      | nil =>
          rw [List.nil_append, List.nil_append] at h
          injection h with _ h2
          exact ⟨rfl, h2⟩
      | cons a A2 =>
          rw [List.cons_append, List.nil_append] at h
          injection h with h1 _
          exfalso
          apply hA
          rw [h1]
          exact List.mem_cons_self _ _
  | cons c C2 ih =>
      intro hC A hA B D h
      cases A with
      | nil =>
          rw [List.nil_append, List.cons_append] at h
          injection h with h1 _
          exfalso
          apply hC
          rw [h1]
          exact List.mem_cons_self _ _
      | cons a A2 =>
          rw [List.cons_append, List.cons_append] at h
          injection h with h1 h2
          have hC2 : '/' ∉ C2 := fun hm => hC (List.mem_cons_of_mem _ hm)
          have hA2 : '/' ∉ A2 := fun hm => hA (List.mem_cons_of_mem _ hm)
          obtain ⟨hAC, hBD⟩ := ih hC2 A2 hA2 B D h2
          exact ⟨by rw [h1, hAC], hBD⟩

theorem key_first_decomp (a b c d : String) (ha : '/' ∉ a.data) (hc : '/' ∉ c.data)
    (h : a ++ "/" ++ b = c ++ "/" ++ d) : a = c ∧ b = d := by
  have hdata : a.data ++ '/' :: b.data = c.data ++ '/' :: d.data := by
    have h2 := congrArg String.data h
    simpa [String.data_append] using h2
  obtain ⟨h1, h2⟩ := slash_decomp_first c.data hc a.data ha b.data d.data hdata
  exact ⟨string_of_data_eq a c h1, string_of_data_eq b d h2⟩

theorem key3_decomp (a b p c d q : String)
    (ha : '/' ∉ a.data) (hb : '/' ∉ b.data) (hc : '/' ∉ c.data) (hd : '/' ∉ d.data)
    (h : a ++ "/" ++ b ++ "/" ++ p = c ++ "/" ++ d ++ "/" ++ q) :
    a = c ∧ b = d ∧ p = q := by
  have hdata : a.data ++ '/' :: (b.data ++ '/' :: p.data) =
      c.data ++ '/' :: (d.data ++ '/' :: q.data) := by
    have h2 := congrArg String.data h
    simpa [String.data_append] using h2
  obtain ⟨h1, h2⟩ := slash_decomp_first c.data hc a.data ha _ _ hdata
  obtain ⟨h3, h4⟩ := slash_decomp_first d.data hd b.data hb _ _ h2
  exact ⟨string_of_data_eq a c h1, string_of_data_eq b d h3, string_of_data_eq p q h4⟩

/-- Slash-free renderings of a stored cue's key components. -/
def WSc (c : Obj) : Prop :=
  '/' ∉ (effListStr c).data ∧ '/' ∉ (jsToStr (getF c "cue_number")).data ∧
  '/' ∉ (jsToStr (jsOr (getF c "part_number") (JVal.vNum 0))).data

/-- Slash-free renderings of an update object's key components. -/
def WfU (n : String) (u : Obj) : Prop :=
  '/' ∉ (jsToStr (updListV u)).data ∧ '/' ∉ n.data ∧
  '/' ∉ (jsToStr (jsOr (getF u "part_number") (JVal.vNum 0))).data

theorem existingKeyOf_setF_last (c : Obj) (v : JVal) :
    existingKeyOf (setF c "last_seen" v) = existingKeyOf c := by
  rw [existingKeyOf_eq, existingKeyOf_eq,
    effListStr_setF_ne c "last_seen" v (by decide),
    getF_setF_ne c "last_seen" "cue_number" v (by decide),
    getF_setF_ne c "last_seen" "part_number" v (by decide)]

theorem WSc_setF_last (c : Obj) (v : JVal) (h : WSc c) :
    WSc (setF c "last_seen" v) := by
  obtain ⟨h1, h2, h3⟩ := h
  refine ⟨?_, ?_, ?_⟩
  · rw [effListStr_setF_ne c "last_seen" v (by decide)]; exact h1
  · rw [getF_setF_ne c "last_seen" "cue_number" v (by decide)]; exact h2
  · rw [getF_setF_ne c "last_seen" "part_number" v (by decide)]; exact h3

/-- A store cue either descends -- key, cue number and user fields intact --
from a cue of the initial store, or is a freshly created default record
whose key was absent initially unless an eviction pass already ran. -/
def keyDesc (cs0 : List Obj) (flag : Bool) (c' : Obj) : Prop :=
  (∃ c ∈ cs0, existingKeyOf c' = existingKeyOf c ∧
    getF c' "cue_number" = getF c "cue_number" ∧
    ∀ f ∈ userFields, getF c' f = getF c f) ∨
  (freshUser c' ∧ (flag = true ∨ existingKeyOf c' ∉ cs0.map existingKeyOf))

theorem keyDesc_transport {cs0 : List Obj} {flag : Bool} {c' c'' : Obj}
    (hkey : existingKeyOf c'' = existingKeyOf c')
    (hnum : getF c'' "cue_number" = getF c' "cue_number")
    (huser : ∀ f ∈ userFields, getF c'' f = getF c' f)
    (h : keyDesc cs0 flag c') : keyDesc cs0 flag c'' := by
  rcases h with ⟨c, hc, h1, h2, h3⟩ | ⟨hf, hflag⟩
  · exact Or.inl ⟨c, hc, hkey.trans h1, hnum.trans h2,
      fun f hf2 => (huser f hf2).trans (h3 f hf2)⟩
  · refine Or.inr ⟨?_, by rw [hkey]; exact hflag⟩
    obtain ⟨g1, g2, g3, g4, g5⟩ := hf
    exact ⟨(huser "notes" (by decide)).trans g1, (huser "color" (by decide)).trans g2,
      (huser "tags" (by decide)).trans g3, (huser "page" (by decide)).trans g4,
      (huser "image_path" (by decide)).trans g5⟩

theorem keyDesc_to_true {cs0 : List Obj} {flag : Bool} {c' : Obj}
    (h : keyDesc cs0 flag c') : keyDesc cs0 true c' := by
  rcases h with h | ⟨hf, _⟩
  · exact Or.inl h
  · exact Or.inr ⟨hf, Or.inl rfl⟩

/-- A key match between a well-formed stored cue and a well-formed update
object pins the cue's effective list, number rendering and part flag. -/
theorem match_components (c : Obj) (n : String) (u : Obj)
    (hws : WSc c) (hwf : WfU n u)
    (hmatch : existingKeyOf c = updKey n u) :
    effListStr c = jsToStr (updListV u) ∧
    jsToStr (getF c "cue_number") = n ∧
    jsGtZero (jsOr (getF c "part_number") (JVal.vNum 0)) =
      jsGtZero (jsOr (getF u "part_number") (JVal.vNum 0)) ∧
    (jsGtZero (jsOr (getF u "part_number") (JVal.vNum 0)) = true →
      jsToStr (jsOr (getF c "part_number") (JVal.vNum 0)) =
        jsToStr (jsOr (getF u "part_number") (JVal.vNum 0))) := by
  obtain ⟨hcL, hcN, hcP⟩ := hws
  obtain ⟨hCL, hn, hP⟩ := hwf
  rw [existingKeyOf_eq, updKey_eq] at hmatch
  cases hcg : jsGtZero (jsOr (getF c "part_number") (JVal.vNum 0)) <;>
    cases hug : jsGtZero (jsOr (getF u "part_number") (JVal.vNum 0)) <;>
      simp only [hcg, hug, if_true, Bool.false_eq_true, if_false] at hmatch
  · obtain ⟨h1, h2⟩ := key_first_decomp _ _ _ _ hcL hCL hmatch
    exact ⟨h1, h2, rfl, fun h => by simp at h⟩
  · exact absurd hmatch.symm (key3_ne _ _ _ _ _ hcL hcN)
  · exact absurd hmatch (key3_ne _ _ _ _ _ hCL hn)
  · obtain ⟨h1, h2, h3⟩ := key3_decomp _ _ _ _ _ _ hcL hcN hCL hn hmatch
    exact ⟨h1, h2, rfl, fun _ => h3⟩

/-- What the keyed tracking needs from an update object: no user-field or
cue-number keys, and the `cue_list` / `part_number` outcome of a merge is
either the update's own value or the stored cue's old one. -/
def GoodU (n : String) (u : Obj) : Prop :=
  noUserKeys u ∧
  (∀ c, effListStr (applyUpdates c u) = jsToStr (updListV u) ∨
        effListStr (applyUpdates c u) = effListStr c) ∧
  (∀ c, jsOr (getF (applyUpdates c u) "part_number") (JVal.vNum 0) =
          jsOr (getF u "part_number") (JVal.vNum 0) ∨
        getF (applyUpdates c u) "part_number" = getF c "part_number") ∧
  effListStr (mkNewCue n (updListV u) u) = jsToStr (updListV u) ∧
  jsOr (getF (mkNewCue n (updListV u) u) "part_number") (JVal.vNum 0) =
    jsOr (getF u "part_number") (JVal.vNum 0)

/-- The getF outcome of a merge at a key bound exactly once in the update
object: the update's value when it is written, the old value otherwise. -/
theorem applyUpdates_getF_unique (c : Obj) (u1 u2 : Obj) (f : String) (v : JVal)
    (h1 : ∀ kv ∈ u1, kv.1 ≠ f) (h2 : ∀ kv ∈ u2, kv.1 ≠ f) :
    getF (applyUpdates c (u1 ++ [(f, v)] ++ u2)) f =
      if (alwaysUpdateFields.contains f || hasContent v) = true then v
      else getF c f := by
  have hsplit : u1 ++ [(f, v)] ++ u2 = (u1 ++ [(f, v)]) ++ u2 := by
    simp [List.append_assoc]
  rw [hsplit, applyUpdates_append, applyUpdates_getF_not_key u2 _ f h2,
    applyUpdates_append]
  by_cases ha : alwaysUpdateFields.contains f = true
  · rw [applyUpdates_single_write _ f v (Or.inl ha), getF_setF_same]
    have hcond : (alwaysUpdateFields.contains f || hasContent v) = true := by
      rw [ha]; rfl
    rw [hcond]
    rfl
  · by_cases hv : hasContent v = true
    · rw [applyUpdates_single_write _ f v (Or.inr hv), getF_setF_same]
      have hcond : (alwaysUpdateFields.contains f || hasContent v) = true := by
        rw [hv]; exact Bool.or_true _
      rw [hcond]
      rfl
    · have hnw : applyUpdates (applyUpdates c u1) [(f, v)] = applyUpdates c u1 := by
        unfold applyUpdates
        simp only [List.foldl_cons, List.foldl_nil]
        rw [if_neg ha, if_neg hv]
      rw [hnw, applyUpdates_getF_not_key u1 c f h1]
      have hcond : (alwaysUpdateFields.contains f || hasContent v) = false := by
        rw [eq_false_of_ne_true ha, eq_false_of_ne_true hv]; rfl
      rw [hcond]
      rfl

theorem mkNewCue_num (n : String) (lv : JVal) (u : Obj)
    (h : ∀ kv ∈ u, kv.1 ≠ "cue_number") :
    getF (mkNewCue n lv u) "cue_number" = JVal.vStr n :=
  (mkNewCue_getF_not_key u n lv "cue_number" h).trans rfl

/-- A key-matched merge with a well-formed update object preserves the
stored cue's key (and its well-formedness). -/
theorem key_preserved (c : Obj) (n : String) (u : Obj)
    (hws : WSc c) (hwf : WfU n u) (hgood : GoodU n u)
    (hmatch : existingKeyOf c = updKey n u) :
    existingKeyOf (applyUpdates c u) = updKey n u ∧ WSc (applyUpdates c u) := by
  obtain ⟨hnk, hcl, hpt, _, _⟩ := hgood
  obtain ⟨hmc1, hmc2, hmc3, hmc4⟩ := match_components c n u hws hwf hmatch
  have hxnum : getF (applyUpdates c u) "cue_number" = getF c "cue_number" :=
    applyUpdates_getF_not_key u c _ (fun kv hm => (hnk kv hm).1)
  have hxL : effListStr (applyUpdates c u) = jsToStr (updListV u) := by
    rcases hcl c with h | h
    · exact h
    · rw [h]; exact hmc1
  have hxP : jsOr (getF (applyUpdates c u) "part_number") (JVal.vNum 0) =
      jsOr (getF u "part_number") (JVal.vNum 0) ∨
      jsOr (getF (applyUpdates c u) "part_number") (JVal.vNum 0) =
      jsOr (getF c "part_number") (JVal.vNum 0) := by
    rcases hpt c with h | h
    · exact Or.inl h
    · exact Or.inr (by rw [h])
  constructor
  · rw [existingKeyOf_eq, updKey_eq, hxL, hxnum, hmc2]
    rcases hxP with h | h
    · rw [h]
    · rw [h, hmc3]
      cases hug : jsGtZero (jsOr (getF u "part_number") (JVal.vNum 0)) with
      | true => rw [if_pos rfl, if_pos rfl, hmc4 hug]
      | false => rw [if_neg (by simp), if_neg (by simp)]
  · refine ⟨?_, ?_, ?_⟩
    · rw [hxL]; exact hwf.1
    · rw [hxnum]; exact hws.2.1
    · rcases hxP with h | h
      · rw [h]; exact hwf.2.2
      · rw [h]; exact hws.2.2

/-- The freshly created record's key is the computed update key, and it is
well-formed. -/
theorem key_new (n : String) (u : Obj) (hwf : WfU n u) (hgood : GoodU n u) :
    existingKeyOf (mkNewCue n (updListV u) u) = updKey n u ∧
    WSc (mkNewCue n (updListV u) u) := by
  obtain ⟨hnk, _, _, hnL, hnP⟩ := hgood
  have hnum : getF (mkNewCue n (updListV u) u) "cue_number" = JVal.vStr n :=
    mkNewCue_num n (updListV u) u (fun kv hm => (hnk kv hm).1)
  constructor
  · rw [existingKeyOf_eq, updKey_eq, hnL, hnum, hnP]
    rfl
  · refine ⟨?_, ?_, ?_⟩
    · rw [hnL]; exact hwf.1
    · rw [hnum]; exact hwf.2.1
    · rw [hnP]; exact hwf.2.2

theorem getF_not_key_undef (u : Obj) (f : String) (h : ∀ kv ∈ u, kv.1 ≠ f) :
    getF u f = JVal.vUndef := by
  unfold getF
  rw [List.find?_eq_none.2 (fun kv hm => by simpa using h kv hm)]

theorem updListV_of_getF (u : Obj) (vcl : JVal) (h : getF u "cue_list" = vcl) :
    updListV u = jsOr vcl (JVal.vStr "1") := by
  unfold updListV
  rw [h]

theorem slashFree_jsOr_vStr (l : String) (hl : '/' ∉ l.data) :
    '/' ∉ (jsToStr (jsOr (JVal.vStr l) (JVal.vStr "1"))).data := by
  unfold jsOr
  split
  · decide
  · exact hl

theorem keys_ne_of_map (u : Obj) (f : String) (ks : List String)
    (hmap : u.map (fun kv => kv.1) = ks) (h : f ∉ ks) : ∀ kv ∈ u, kv.1 ≠ f := by
  intro kv hm he
  apply h
  rw [← hmap]
  exact he ▸ List.mem_map_of_mem _ hm

/-- The per-list active/pending update object is good for the keyed
tracking. -/
theorem GoodU_pair (n l ty : String) :
    GoodU n [("cue_list", JVal.vStr l), ("last_seen", JVal.vStr ty)] := by
  refine ⟨?_, ?_, ?_, ?_, ?_⟩
  · intro kv hm
    rcases List.mem_cons.1 hm with rfl | hm2
    · exact noUserKey_pair _ _ (by decide) (by decide)
    · rcases List.mem_singleton.1 hm2 with rfl
      exact noUserKey_pair _ _ (by decide) (by decide)
  · intro c
    have hg := applyUpdates_getF_unique c [] [("last_seen", JVal.vStr ty)]
      "cue_list" (JVal.vStr l) (forall_mem_nil_ne _)
      (forall_mem_cons_ne _ _ _ _ (by decide) (forall_mem_nil_ne _))
    simp only [List.nil_append, List.singleton_append] at hg
    have hcond : (alwaysUpdateFields.contains "cue_list" ||
        hasContent (JVal.vStr l)) = hasContent (JVal.vStr l) := rfl
    rw [hcond] at hg
    by_cases hc : hasContent (JVal.vStr l) = true
    · rw [if_pos hc] at hg
      left
      rw [effListStr_getF, hg,
        updListV_of_getF [("cue_list", JVal.vStr l), ("last_seen", JVal.vStr ty)]
          (JVal.vStr l) rfl]
    · rw [if_neg hc] at hg
      right
      rw [effListStr_getF, hg, effListStr_getF]
  · intro c
    right
    exact applyUpdates_getF_not_key _ c _
      (forall_mem_cons_ne _ _ _ _ (by decide)
        (forall_mem_cons_ne _ _ _ _ (by decide) (forall_mem_nil_ne _)))
  · have hg := mkNewCue_getF_last n
      (updListV [("cue_list", JVal.vStr l), ("last_seen", JVal.vStr ty)])
      [] [("last_seen", JVal.vStr ty)] "cue_list" (JVal.vStr l)
      (forall_mem_cons_ne _ _ _ _ (by decide) (forall_mem_nil_ne _))
    simp only [List.nil_append, List.singleton_append] at hg
    rw [effListStr_getF, hg,
      updListV_of_getF [("cue_list", JVal.vStr l), ("last_seen", JVal.vStr ty)]
        (JVal.vStr l) rfl]
  · have hg := mkNewCue_getF_not_key
      [("cue_list", JVal.vStr l), ("last_seen", JVal.vStr ty)] n
      (updListV [("cue_list", JVal.vStr l), ("last_seen", JVal.vStr ty)])
      "part_number"
      (forall_mem_cons_ne _ _ _ _ (by decide)
        (forall_mem_cons_ne _ _ _ _ (by decide) (forall_mem_nil_ne _)))
    rw [hg]
    rfl

theorem WfU_pair (n l ty : String) (hl : '/' ∉ l.data) (hn : '/' ∉ n.data) :
    WfU n [("cue_list", JVal.vStr l), ("last_seen", JVal.vStr ty)] := by
  refine ⟨?_, hn, ?_⟩
  · rw [updListV_of_getF [("cue_list", JVal.vStr l), ("last_seen", JVal.vStr ty)]
      (JVal.vStr l) rfl]
    exact slashFree_jsOr_vStr l hl
  · have hp : jsOr (getF [("cue_list", JVal.vStr l), ("last_seen", JVal.vStr ty)]
        "part_number") (JVal.vNum 0) = JVal.vNum 0 := rfl
    rw [hp]
    decide

/-- The text-parse update object is good for the keyed tracking. -/
theorem GoodU_text (cue list lab ty comp : String) (fd : Obj)
    (hfd : fd = ([] : Obj) ∨ ∃ f, fd = [("fade_time", JVal.vStr f)]) :
    GoodU cue ([("cue_list", JVal.vStr list), ("label", JVal.vStr lab),
      ("last_seen", JVal.vStr ty), ("completion", JVal.vStr comp)] ++ fd) := by
  have hfd_cl : ∀ kv ∈ fd, kv.1 ≠ "cue_list" := by
    rcases hfd with rfl | ⟨f, rfl⟩
    · exact forall_mem_nil_ne _
    · exact forall_mem_cons_ne _ _ _ _ (by decide) (forall_mem_nil_ne _)
  have hfd_pn : ∀ kv ∈ fd, kv.1 ≠ "part_number" := by
    rcases hfd with rfl | ⟨f, rfl⟩
    · exact forall_mem_nil_ne _
    · exact forall_mem_cons_ne _ _ _ _ (by decide) (forall_mem_nil_ne _)
  have hpn : ∀ kv ∈ ([("cue_list", JVal.vStr list), ("label", JVal.vStr lab),
      ("last_seen", JVal.vStr ty), ("completion", JVal.vStr comp)] ++ fd : Obj),
      kv.1 ≠ "part_number" :=
    forall_mem_append_ne _ _ _
      (forall_mem_cons_ne _ _ _ _ (by decide)
        (forall_mem_cons_ne _ _ _ _ (by decide)
          (forall_mem_cons_ne _ _ _ _ (by decide)
            (forall_mem_cons_ne _ _ _ _ (by decide) (forall_mem_nil_ne _)))))
      hfd_pn
  have hucl : getF ([("cue_list", JVal.vStr list), ("label", JVal.vStr lab),
      ("last_seen", JVal.vStr ty), ("completion", JVal.vStr comp)] ++ fd)
      "cue_list" = JVal.vStr list := by
    rcases hfd with rfl | ⟨f, rfl⟩ <;> rfl
  have hucl2 : getF (("cue_list", JVal.vStr list) :: ("label", JVal.vStr lab) ::
      ("last_seen", JVal.vStr ty) :: ("completion", JVal.vStr comp) :: fd)
      "cue_list" = JVal.vStr list := by
    rcases hfd with rfl | ⟨f, rfl⟩ <;> rfl
  refine ⟨?_, ?_, ?_, ?_, ?_⟩
  · intro kv hm
    rcases List.mem_append.1 hm with hm1 | hm1
    · simp only [List.mem_cons, List.mem_singleton] at hm1
      rcases hm1 with rfl | rfl | rfl | h1
      · exact noUserKey_pair _ _ (by decide) (by decide)
      · exact noUserKey_pair _ _ (by decide) (by decide)
      · exact noUserKey_pair _ _ (by decide) (by decide)
      · rcases h1 with rfl | h2
        · exact noUserKey_pair _ _ (by decide) (by decide)
        · cases h2
    · rcases hfd with rfl | ⟨f, rfl⟩
      · cases hm1
      · rcases List.mem_singleton.1 hm1 with rfl
        exact noUserKey_pair _ _ (by decide) (by decide)
  · intro c
    have hg := applyUpdates_getF_unique c []
      ([("label", JVal.vStr lab), ("last_seen", JVal.vStr ty),
        ("completion", JVal.vStr comp)] ++ fd) "cue_list" (JVal.vStr list)
      (forall_mem_nil_ne _)
      (forall_mem_append_ne _ _ _
        (forall_mem_cons_ne _ _ _ _ (by decide)
          (forall_mem_cons_ne _ _ _ _ (by decide)
            (forall_mem_cons_ne _ _ _ _ (by decide) (forall_mem_nil_ne _))))
        hfd_cl)
    simp only [List.cons_append, List.nil_append] at hg ⊢
    have hcond : (alwaysUpdateFields.contains "cue_list" ||
        hasContent (JVal.vStr list)) = hasContent (JVal.vStr list) := rfl
    rw [hcond] at hg
    by_cases hc : hasContent (JVal.vStr list) = true
    · rw [if_pos hc] at hg
      left
      rw [effListStr_getF, hg, updListV_of_getF _ (JVal.vStr list) hucl2]
    · rw [if_neg hc] at hg
      right
      rw [effListStr_getF, hg, effListStr_getF]
  · intro c
    right
    exact applyUpdates_getF_not_key _ c _ hpn
  · have hg := mkNewCue_getF_last cue
      (updListV ([("cue_list", JVal.vStr list), ("label", JVal.vStr lab),
        ("last_seen", JVal.vStr ty), ("completion", JVal.vStr comp)] ++ fd))
      [] ([("label", JVal.vStr lab), ("last_seen", JVal.vStr ty),
        ("completion", JVal.vStr comp)] ++ fd) "cue_list" (JVal.vStr list)
      (forall_mem_append_ne _ _ _
        (forall_mem_cons_ne _ _ _ _ (by decide)
          (forall_mem_cons_ne _ _ _ _ (by decide)
            (forall_mem_cons_ne _ _ _ _ (by decide) (forall_mem_nil_ne _))))
        hfd_cl)
    simp only [List.cons_append, List.nil_append] at hg ⊢
    rw [effListStr_getF, hg, updListV_of_getF _ (JVal.vStr list) hucl2]
  · have hg := mkNewCue_getF_not_key
      ([("cue_list", JVal.vStr list), ("label", JVal.vStr lab),
        ("last_seen", JVal.vStr ty), ("completion", JVal.vStr comp)] ++ fd) cue
      (updListV ([("cue_list", JVal.vStr list), ("label", JVal.vStr lab),
        ("last_seen", JVal.vStr ty), ("completion", JVal.vStr comp)] ++ fd))
      "part_number" hpn
    rw [hg, getF_not_key_undef _ "part_number" hpn]
    rfl

theorem WfU_text (cue list lab ty comp : String) (fd : Obj)
    (hfd : fd = ([] : Obj) ∨ ∃ f, fd = [("fade_time", JVal.vStr f)])
    (hlist : '/' ∉ list.data) (hcue : '/' ∉ cue.data) :
    WfU cue ([("cue_list", JVal.vStr list), ("label", JVal.vStr lab),
      ("last_seen", JVal.vStr ty), ("completion", JVal.vStr comp)] ++ fd) := by
  have hucl : getF ([("cue_list", JVal.vStr list), ("label", JVal.vStr lab),
      ("last_seen", JVal.vStr ty), ("completion", JVal.vStr comp)] ++ fd)
      "cue_list" = JVal.vStr list := by
    rcases hfd with rfl | ⟨f, rfl⟩ <;> rfl
  refine ⟨?_, hcue, ?_⟩
  · rw [updListV_of_getF _ (JVal.vStr list) hucl]
    exact slashFree_jsOr_vStr list hlist
  · have hp : jsOr (getF ([("cue_list", JVal.vStr list), ("label", JVal.vStr lab),
        ("last_seen", JVal.vStr ty), ("completion", JVal.vStr comp)] ++ fd)
        "part_number") (JVal.vNum 0) = JVal.vNum 0 := by
      rcases hfd with rfl | ⟨f, rfl⟩ <;> rfl
    rw [hp]
    decide

theorem parseCueArgs_getF_cue_list (l p : String) (a : List JVal) :
    getF (parseCueArgs l p a) "cue_list" = JVal.vStr l := rfl

theorem parseCueArgs_getF_part (l p : String) (a : List JVal) :
    getF (parseCueArgs l p a) "part_number" = JVal.vNum (parseIntOr0 p) := rfl

theorem parseCueArgs_split_cl (l p : String) (a : List JVal) :
    parseCueArgs l p a =
      (parseCueArgs l p a).take 2 ++ [("cue_list", JVal.vStr l)] ++
        (parseCueArgs l p a).drop 3 := rfl

theorem parseCueArgs_split_part (l p : String) (a : List JVal) :
    parseCueArgs l p a =
      (parseCueArgs l p a).take 24 ++
        [("part_number", JVal.vNum (parseIntOr0 p))] ++ ([] : Obj) := rfl

theorem parseCueArgs_take2_keys (l p : String) (a : List JVal) :
    ((parseCueArgs l p a).take 2).map (fun kv => kv.1) = ["label", "uid"] := rfl

theorem parseCueArgs_drop3_keys (l p : String) (a : List JVal) :
    ((parseCueArgs l p a).drop 3).map (fun kv => kv.1) =
      ["fade_time", "up_time", "down_time", "focus_time", "color_time",
       "beam_time", "up_delay", "down_delay", "focus_delay", "color_delay",
       "beam_delay", "mark", "block", "assert", "follow_time", "hang_time",
       "follow_hang", "part_count", "scene", "scene_end", "duration",
       "part_number"] := rfl

theorem parseCueArgs_take24_keys (l p : String) (a : List JVal) :
    ((parseCueArgs l p a).take 24).map (fun kv => kv.1) =
      ["label", "uid", "cue_list", "fade_time", "up_time", "down_time",
       "focus_time", "color_time", "beam_time", "up_delay", "down_delay",
       "focus_delay", "color_delay", "beam_delay", "mark", "block", "assert",
       "follow_time", "hang_time", "follow_hang", "part_count", "scene",
       "scene_end", "duration"] := rfl

/-- The CueData update object is good for the keyed tracking. -/
theorem GoodU_pca (n ln pn : String) (args : List JVal) :
    GoodU n (parseCueArgs ln pn args) := by
  have hne_cl2 : ∀ kv ∈ (parseCueArgs ln pn args).take 2, kv.1 ≠ "cue_list" :=
    keys_ne_of_map _ _ _ (parseCueArgs_take2_keys ln pn args) (by decide)
  have hne_cl3 : ∀ kv ∈ (parseCueArgs ln pn args).drop 3, kv.1 ≠ "cue_list" :=
    keys_ne_of_map _ _ _ (parseCueArgs_drop3_keys ln pn args) (by decide)
  have hne_pt24 : ∀ kv ∈ (parseCueArgs ln pn args).take 24, kv.1 ≠ "part_number" :=
    keys_ne_of_map _ _ _ (parseCueArgs_take24_keys ln pn args) (by decide)
  refine ⟨parseCueArgs_noUserKeys ln pn args, ?_, ?_, ?_, ?_⟩
  · intro c
    have hg := applyUpdates_getF_unique c ((parseCueArgs ln pn args).take 2)
      ((parseCueArgs ln pn args).drop 3) "cue_list" (JVal.vStr ln) hne_cl2 hne_cl3
    rw [← parseCueArgs_split_cl ln pn args] at hg
    have hcond : (alwaysUpdateFields.contains "cue_list" ||
        hasContent (JVal.vStr ln)) = hasContent (JVal.vStr ln) := rfl
    rw [hcond] at hg
    by_cases hc : hasContent (JVal.vStr ln) = true
    · rw [if_pos hc] at hg
      left
      rw [effListStr_getF, hg,
        updListV_of_getF _ (JVal.vStr ln) (parseCueArgs_getF_cue_list ln pn args)]
    · rw [if_neg hc] at hg
      right
      rw [effListStr_getF, hg, effListStr_getF]
  · intro c
    left
    have hg := applyUpdates_getF_unique c ((parseCueArgs ln pn args).take 24)
      ([] : Obj) "part_number" (JVal.vNum (parseIntOr0 pn)) hne_pt24
      (forall_mem_nil_ne _)
    rw [← parseCueArgs_split_part ln pn args] at hg
    have hcond : (alwaysUpdateFields.contains "part_number" ||
        hasContent (JVal.vNum (parseIntOr0 pn))) = true := rfl
    rw [hcond, if_pos rfl] at hg
    rw [hg, parseCueArgs_getF_part ln pn args]
  · have hg := mkNewCue_getF_last n (updListV (parseCueArgs ln pn args))
      ((parseCueArgs ln pn args).take 2) ((parseCueArgs ln pn args).drop 3)
      "cue_list" (JVal.vStr ln) hne_cl3
    rw [← parseCueArgs_split_cl ln pn args] at hg
    rw [effListStr_getF, hg,
      updListV_of_getF _ (JVal.vStr ln) (parseCueArgs_getF_cue_list ln pn args)]
  · have hg := mkNewCue_getF_last n (updListV (parseCueArgs ln pn args))
      ((parseCueArgs ln pn args).take 24) ([] : Obj) "part_number"
      (JVal.vNum (parseIntOr0 pn)) (forall_mem_nil_ne _)
    rw [← parseCueArgs_split_part ln pn args] at hg
    rw [hg, parseCueArgs_getF_part ln pn args]

theorem WfU_pca (n ln pn : String) (args : List JVal)
    (hln : '/' ∉ ln.data) (hn : '/' ∉ n.data)
    (hpart : '/' ∉ (jsToStr (jsOr (getF (parseCueArgs ln pn args) "part_number")
      (JVal.vNum 0))).data) :
    WfU n (parseCueArgs ln pn args) := by
  refine ⟨?_, hn, hpart⟩
  rw [updListV_of_getF _ (JVal.vStr ln) (parseCueArgs_getF_cue_list ln pn args)]
  exact slashFree_jsOr_vStr ln hln

/-! Keyed survivor tracking: the evolving store's cues keep their key and
user fields tied to the initial cue of the same key, unless an eviction
pass removed and re-created the key. -/

/-- All cues of a store render slash-free key components. -/
def WSall (cs : List Obj) : Prop := ∀ c ∈ cs, WSc c

/-- All cues of a store descend by key from the initial store. -/
def KDall (cs0 : List Obj) (flag : Bool) (cs : List Obj) : Prop :=
  ∀ c ∈ cs, keyDesc cs0 flag c

/-- Every initial key still occurs in the store. -/
def SUPk (cs0 cs : List Obj) : Prop :=
  ∀ k ∈ cs0.map existingKeyOf, k ∈ cs.map existingKeyOf

/-- The keyed-survivor invariant over the engine state: slash-free key
components, key descent with the eviction ghost flag, and -- as long as no
eviction pass ran -- no initial key has disappeared. -/
def C1Inv (cs0 : List Obj) (st : SState) : Prop :=
  WSall st.cues ∧ KDall cs0 st.evictionRan st.cues ∧
  (st.evictionRan = false → SUPk cs0 st.cues)

theorem keyDesc_setF_last {cs0 : List Obj} {flag : Bool} (c : Obj) (v : JVal)
    (h : keyDesc cs0 flag c) : keyDesc cs0 flag (setF c "last_seen" v) :=
  keyDesc_transport (existingKeyOf_setF_last c v)
    (cuePreserved_setF_last c v).1 (cuePreserved_setF_last c v).2 h

theorem WSall_clearTypeInList {cs : List Obj} (ty l : String) (h : WSall cs) :
    WSall (clearTypeInList cs ty l) := by
  intro x hx
  rcases List.mem_map.1 hx with ⟨c, hc, he⟩
  rw [← he]
  split
  · exact WSc_setF_last c _ (h c hc)
  · exact h c hc

theorem KDall_clearTypeInList {cs0 : List Obj} {flag : Bool} {cs : List Obj}
    (ty l : String) (h : KDall cs0 flag cs) :
    KDall cs0 flag (clearTypeInList cs ty l) := by
  intro x hx
  rcases List.mem_map.1 hx with ⟨c, hc, he⟩
  rw [← he]
  split
  · exact keyDesc_setF_last c _ (h c hc)
  · exact h c hc

theorem keys_clearTypeInList (cs : List Obj) (ty l : String) :
    (clearTypeInList cs ty l).map existingKeyOf = cs.map existingKeyOf := by
  unfold clearTypeInList
  rw [List.map_map]
  apply List.map_congr_left
  intro c hc
  simp only [Function.comp_apply]
  split
  · exact existingKeyOf_setF_last c _
  · rfl

theorem WSall_clearTypeAll {cs : List Obj} (ty : String) (h : WSall cs) :
    WSall (clearTypeAll cs ty) := by
  intro x hx
  rcases List.mem_map.1 hx with ⟨c, hc, he⟩
  rw [← he]
  split
  · exact WSc_setF_last c _ (h c hc)
  · exact h c hc

theorem KDall_clearTypeAll {cs0 : List Obj} {flag : Bool} {cs : List Obj}
    (ty : String) (h : KDall cs0 flag cs) : KDall cs0 flag (clearTypeAll cs ty) := by
  intro x hx
  rcases List.mem_map.1 hx with ⟨c, hc, he⟩
  rw [← he]
  split
  · exact keyDesc_setF_last c _ (h c hc)
  · exact h c hc

theorem keys_clearTypeAll (cs : List Obj) (ty : String) :
    (clearTypeAll cs ty).map existingKeyOf = cs.map existingKeyOf := by
  unfold clearTypeAll
  rw [List.map_map]
  apply List.map_congr_left
  intro c hc
  simp only [Function.comp_apply]
  split
  · exact existingKeyOf_setF_last c _
  · rfl

theorem WSall_setLastSeenFirst {cs : List Obj} (l n : String) (tyV : JVal)
    (h : WSall cs) : WSall (setLastSeenFirst cs l n tyV) := by
  intro x hx
  rcases setLastSeenFirst_mem cs l n tyV x hx with hm | ⟨c, hc, he⟩
  · exact h x hm
  · rw [he]
    exact WSc_setF_last c _ (h c hc)

theorem KDall_setLastSeenFirst {cs0 : List Obj} {flag : Bool} {cs : List Obj}
    (l n : String) (tyV : JVal) (h : KDall cs0 flag cs) :
    KDall cs0 flag (setLastSeenFirst cs l n tyV) := by
  intro x hx
  rcases setLastSeenFirst_mem cs l n tyV x hx with hm | ⟨c, hc, he⟩
  · exact h x hm
  · rw [he]
    exact keyDesc_setF_last c _ (h c hc)

theorem keys_setLastSeenFirst (cs : List Obj) (l n : String) (tyV : JVal) :
    (setLastSeenFirst cs l n tyV).map existingKeyOf = cs.map existingKeyOf := by
  induction cs with
  | nil => rfl
  | cons d rest ih =>
      unfold setLastSeenFirst
      split
      · simp only [List.map_cons, existingKeyOf_setF_last]
      · simp only [List.map_cons, ih]

/-- Membership in `updateFirstMatching` with the key information of the
matched branch. -/
theorem updateFirstMatching_mem_key (cs : List Obj) (k : String) (u : Obj) :
    ∀ x ∈ updateFirstMatching cs k u,
      x ∈ cs ∨ ∃ c ∈ cs, existingKeyOf c = k ∧ x = applyUpdates c u := by
  induction cs with
  | nil => intro x hx; cases hx
  | cons d rest ih =>
      intro x hx
      unfold updateFirstMatching at hx
      cases hd : existingKeyOf d == k with
      | true =>
          simp only [hd, if_true] at hx
          rcases List.mem_cons.1 hx with rfl | hmem
          · exact Or.inr ⟨d, List.mem_cons_self _ _, eq_of_beq hd, rfl⟩
          · exact Or.inl (List.mem_cons_of_mem _ hmem)
      | false =>
          simp only [hd, Bool.false_eq_true, if_false] at hx
          rcases List.mem_cons.1 hx with rfl | hmem
          · exact Or.inl (List.mem_cons_self _ _)
          · rcases ih x hmem with h | ⟨c, hc, hk, he⟩
            · exact Or.inl (List.mem_cons_of_mem _ h)
            · exact Or.inr ⟨c, List.mem_cons_of_mem _ hc, hk, he⟩

theorem keys_updateFirstMatching (cs : List Obj) (n : String) (u : Obj)
    (hwf : WfU n u) (hgood : GoodU n u) (hws : WSall cs) :
    (updateFirstMatching cs (updKey n u) u).map existingKeyOf =
      cs.map existingKeyOf := by
  induction cs with
  | nil => rfl
  | cons d rest ih =>
      unfold updateFirstMatching
      cases hd : existingKeyOf d == updKey n u with
      | true =>
          simp only [hd, if_true, List.map_cons]
          have hkp := key_preserved d n u (hws d (List.mem_cons_self _ _)) hwf hgood
            (eq_of_beq hd)
          rw [hkp.1, eq_of_beq hd]
      | false =>
          simp only [hd, Bool.false_eq_true, if_false, List.map_cons]
          rw [ih (fun c hc => hws c (List.mem_cons_of_mem _ hc))]

/-- The keyed-survivor components through the `updateOrCreateCue` store
transformation, for a good, well-formed update object. -/
theorem updCuesFn_inv (cs0 : List Obj) (flag : Bool) (cs : List Obj)
    (n : String) (u : Obj) (hwf : WfU n u) (hgood : GoodU n u)
    (hws : WSall cs) (hkd : KDall cs0 flag cs)
    (hsup : flag = false → SUPk cs0 cs) :
    WSall (updCuesFn cs n u) ∧ KDall cs0 flag (updCuesFn cs n u) ∧
      (flag = false → SUPk cs0 (updCuesFn cs n u)) := by
  unfold updCuesFn
  cases hany : cs.any (fun c => existingKeyOf c == updKey n u) with
  | true =>
      simp only [hany, if_true]
      refine ⟨?_, ?_, ?_⟩
      · intro x hx
        rcases updateFirstMatching_mem_key cs (updKey n u) u x hx with
          hm | ⟨c, hc, hk, he⟩
        · exact hws x hm
        · rw [he]
          exact (key_preserved c n u (hws c hc) hwf hgood hk).2
      · intro x hx
        rcases updateFirstMatching_mem_key cs (updKey n u) u x hx with
          hm | ⟨c, hc, hk, he⟩
        · exact hkd x hm
        · rw [he]
          have hkey : existingKeyOf (applyUpdates c u) = existingKeyOf c :=
            (key_preserved c n u (hws c hc) hwf hgood hk).1.trans hk.symm
          exact keyDesc_transport hkey (cuePreserved_applyUpdates c u hgood.1).1
            (cuePreserved_applyUpdates c u hgood.1).2 (hkd c hc)
      · intro hfl k hk
        rw [keys_updateFirstMatching cs n u hwf hgood hws]
        exact hsup hfl k hk
  | false =>
      simp only [hany, Bool.false_eq_true, if_false]
      have hperm : List.Perm
          ((sortCues (cs ++ [mkNewCue n (updListV u) u])).map existingKeyOf)
          ((cs ++ [mkNewCue n (updListV u) u]).map existingKeyOf) :=
        (sortCues_perm _).map existingKeyOf
      refine ⟨?_, ?_, ?_⟩
      · intro x hx
        rcases List.mem_append.1 (((sortCues_perm _).mem_iff).1 hx) with hm | hm
        · exact hws x hm
        · rw [List.mem_singleton.1 hm]
          exact (key_new n u hwf hgood).2
      · intro x hx
        rcases List.mem_append.1 (((sortCues_perm _).mem_iff).1 hx) with hm | hm
        · exact hkd x hm
        · rw [List.mem_singleton.1 hm]
          refine Or.inr ⟨freshUser_mkNewCue n (updListV u) u hgood.1, ?_⟩
          cases hfl : flag with
          | true => exact Or.inl rfl
          | false =>
              refine Or.inr ?_
              rw [(key_new n u hwf hgood).1]
              intro hmem
              have hmem2 := hsup hfl _ hmem
              rcases List.mem_map.1 hmem2 with ⟨c, hc, hkc⟩
              have := List.any_eq_false.1 hany c hc
              exact this (beq_iff_eq.2 hkc)
      · intro hfl k hk
        rw [hperm.mem_iff, List.map_append]
        exact List.mem_append_left _ (hsup hfl k hk)

/-- A leading digit run never contains a slash. -/
theorem leadingDigits_no_slash (cs : List Char) : '/' ∉ (leadingDigits cs).1 := by
  unfold leadingDigits
  rw [List.span_eq_take_drop]
  intro h
  have h2 := List.mem_takeWhile_imp h
  exact absurd h2 (by decide)

/-- A matched cue-number token never contains a slash. -/
theorem parseCueNumToken_no_slash (cs : List Char) (num : String) (r : List Char)
    (h : parseCueNumToken cs = some (num, r)) : '/' ∉ num.data := by
  have hd1 := leadingDigits_no_slash cs
  unfold parseCueNumToken at h
  dsimp only at h
  rcases hld : leadingDigits cs with ⟨d, r0⟩
  rw [hld] at h hd1
  dsimp only at h hd1
  by_cases hde : d.isEmpty = true
  · rw [if_pos hde] at h; cases h
  · rw [if_neg hde] at h
    split at h
    · rename_i r2
      have hf1 := leadingDigits_no_slash r2
      rcases hld2 : leadingDigits r2 with ⟨f, r3⟩
      rw [hld2] at h hf1
      dsimp only at h hf1
      by_cases hfe : f.isEmpty = true
      · rw [if_pos hfe] at h
        have h2 : d.asString = num := (Prod.ext_iff.1 (Option.some.inj h)).1
        rw [← h2]
        exact hd1
      · rw [if_neg hfe] at h
        have h2 : (d ++ '.' :: f).asString = num :=
          (Prod.ext_iff.1 (Option.some.inj h)).1
        rw [← h2]
        intro hmem
        rcases List.mem_append.1 hmem with hm | hm
        · exact hd1 hm
        · rcases List.mem_cons.1 hm with he | hm2
          · exact absurd he (by decide)
          · exact hf1 hm2
    · have h2 : d.asString = num := (Prod.ext_iff.1 (Option.some.inj h)).1
      rw [← h2]
      exact hd1

/-- The captured list and cue of the `list/cue` format are slash-free. -/
theorem matchListCue_no_slash (text list cue rem : String)
    (h : matchListCue text = some (list, cue, rem)) :
    '/' ∉ list.data ∧ '/' ∉ cue.data := by
  have hd1 := leadingDigits_no_slash text.toList
  unfold matchListCue at h
  dsimp only at h
  rcases hld : leadingDigits text.toList with ⟨d1, r1⟩
  rw [hld] at h hd1
  dsimp only at h hd1
  by_cases hde : d1.isEmpty = true
  · rw [if_pos hde] at h; cases h
  · rw [if_neg hde] at h
    split at h
    · rename_i r2
      cases hpt : parseCueNumToken r2 with
      | none => rw [hpt] at h; cases h
      | some p =>
          rcases p with ⟨num, r3⟩
          rw [hpt] at h
          dsimp only at h
          rcases Option.map_eq_some'.1 h with ⟨a, _, hfa⟩
          have h1 : d1.asString = list := (Prod.ext_iff.1 hfa).1
          have h2 : num = cue := (Prod.ext_iff.1 (Prod.ext_iff.1 hfa).2).1
          constructor
          · rw [← h1]; exact hd1
          · rw [← h2]; exact parseCueNumToken_no_slash r2 num r3 hpt
    · cases h

/-- The captured cue of the fallback cue-only format is slash-free. -/
theorem matchCueOnly_no_slash (text cue rem : String)
    (h : matchCueOnly text = some (cue, rem)) : '/' ∉ cue.data := by
  unfold matchCueOnly at h
  cases hpt : parseCueNumToken text.toList with
  | none => rw [hpt] at h; cases h
  | some p =>
      rcases p with ⟨num, rest⟩
      rw [hpt] at h
      dsimp only at h
      rcases Option.map_eq_some'.1 h with ⟨a, _, hfa⟩
      have h1 : num = cue := (Prod.ext_iff.1 hfa).1
      rw [← h1]
      exact parseCueNumToken_no_slash text.toList num rest hpt

theorem ctxTruthy_some (o : Option String) (s : String) (h : ctxTruthy o = some s) :
    o = some s := by
  unfold ctxTruthy at h
  cases o with
  | none => cases h
  | some t =>
      dsimp only at h
      by_cases ht : t = ""
      · rw [if_pos ht] at h; cases h
      · rw [if_neg ht] at h
        rw [Option.some.inj h]

/-- The cues cases of `parseCueText`, with slash-freeness of the target
list and cue number in the update case. -/
theorem parseCueText_cues_cases_wf (st : SState) (txt ty : String)
    (ctx : Option String) (now : ℤ)
    (hctx : ∀ s, ctx = some s → '/' ∉ s.data) :
    (∃ l, (parseCueText st txt ty ctx now).cues = clearTypeInList st.cues ty l) ∨
    ((parseCueText st txt ty ctx now).cues = clearTypeAll st.cues ty) ∨
    ((parseCueText st txt ty ctx now).cues = st.cues) ∨
    (∃ list cue lab comp fd, ((parseCueText st txt ty ctx now).cues =
        updCuesFn (clearTypeInList st.cues ty list) cue
          ([("cue_list", JVal.vStr list), ("label", JVal.vStr lab),
            ("last_seen", JVal.vStr ty), ("completion", JVal.vStr comp)] ++ fd)) ∧
      '/' ∉ list.data ∧ '/' ∉ cue.data ∧
      (fd = ([] : Obj) ∨ ∃ f, fd = [("fade_time", JVal.vStr f)])) := by
  unfold parseCueText
  dsimp only
  split
  · cases hc : ctxTruthy ctx with
    | some l =>
        left
        exact ⟨l, by simp only [hc]⟩
    | none =>
        right; left
        simp only [hc]
  · split
    · rename_i list cue remainder heq
      right; right; right
      obtain ⟨lab, comp, fd, hcue, hfd⟩ :=
        parseCueTextCore_cues st ty list cue remainder now
      obtain ⟨hs1, hs2⟩ := matchListCue_no_slash _ list cue remainder heq
      exact ⟨list, cue, lab, comp, fd, hcue, hs1, hs2, hfd⟩
    · split
      · rename_i ctx2 hctx2
        split
        · rename_i cue remainder heq
          right; right; right
          obtain ⟨lab, comp, fd, hcue, hfd⟩ :=
            parseCueTextCore_cues st ty ctx2 cue remainder now
          exact ⟨ctx2, cue, lab, comp, fd, hcue,
            hctx ctx2 (ctxTruthy_some ctx ctx2 hctx2),
            matchCueOnly_no_slash _ cue remainder heq, hfd⟩
        · right; right; left; rfl
      · right; right; left; rfl

theorem C1Inv_congr {cs0 : List Obj} {st st' : SState}
    (hc : st'.cues = st.cues) (he : st'.evictionRan = st.evictionRan)
    (h : C1Inv cs0 st) : C1Inv cs0 st' := by
  obtain ⟨h1, h2, h3⟩ := h
  refine ⟨?_, ?_, ?_⟩
  · rw [hc]; exact h1
  · rw [hc, he]; exact h2
  · rw [he, hc]; exact h3

theorem checkBulk_evict_true (st : SState) (hip : st.bulkRefreshInProgress = true) :
    (checkBulkRefreshCompleteS st).evictionRan = true := by
  unfold checkBulkRefreshCompleteS
  rw [hip]
  simp only [Bool.not_true, Bool.false_eq_true, if_false]
  split
  · rfl
  · rw [(requestAllCuesS_frame _ _).2.2.1]

/-- The eviction pass survives the keyed invariant: survivors keep their
descent, and the ghost flag records that the pass ran. -/
theorem C1Inv_checkBulk (cs0 : List Obj) (st : SState) (h : C1Inv cs0 st) :
    C1Inv cs0 (checkBulkRefreshCompleteS st) := by
  obtain ⟨h1, h2, h3⟩ := h
  cases hip : st.bulkRefreshInProgress with
  | false =>
      have he : checkBulkRefreshCompleteS st = st := by
        unfold checkBulkRefreshCompleteS
        rw [hip]
        rfl
      rw [he]
      exact ⟨h1, h2, h3⟩
  | true =>
      refine ⟨?_, ?_, ?_⟩
      · rw [checkBulk_cues st hip]
        intro c hc
        exact h1 c (List.mem_of_mem_filter hc)
      · rw [checkBulk_cues st hip, checkBulk_evict_true st hip]
        intro c hc
        exact keyDesc_to_true (h2 c (List.mem_of_mem_filter hc))
      · intro hfalse
        rw [checkBulk_evict_true st hip] at hfalse
        exact Bool.noConfusion hfalse

theorem C1Inv_updateOrCreateCue (cs0 : List Obj) (st : SState) (n : String)
    (u : Obj) (hwf : WfU n u) (hgood : GoodU n u) (h : C1Inv cs0 st) :
    C1Inv cs0 (updateOrCreateCue st n u) := by
  obtain ⟨h1, h2, h3⟩ := h
  obtain ⟨g1, g2, g3⟩ := updCuesFn_inv cs0 st.evictionRan st.cues n u hwf hgood h1 h2 h3
  refine ⟨?_, ?_, ?_⟩
  · rw [updateOrCreateCue_cues]; exact g1
  · rw [updateOrCreateCue_cues, updateOrCreateCue_evict]; exact g2
  · intro hfl
    rw [updateOrCreateCue_evict] at hfl
    rw [updateOrCreateCue_cues]
    exact g3 hfl

theorem C1Inv_setActiveCue (cs0 : List Obj) (st : SState) (l n ty : String)
    (now : ℤ) (hl : '/' ∉ l.data) (hn : '/' ∉ n.data) (h : C1Inv cs0 st) :
    C1Inv cs0 (setActiveCue st l n ty now) := by
  obtain ⟨h1, h2, h3⟩ := h
  have hcl1 := WSall_clearTypeInList ty l h1
  have hcl2 := KDall_clearTypeInList ty l h2
  have hsup : st.evictionRan = false → SUPk cs0 (clearTypeInList st.cues ty l) := by
    intro hfl k hk
    rw [keys_clearTypeInList]
    exact h3 hfl k hk
  have hupd := updCuesFn_inv cs0 st.evictionRan (clearTypeInList st.cues ty l) n
    [("cue_list", JVal.vStr l), ("last_seen", JVal.vStr ty)]
    (WfU_pair n l ty hl hn) (GoodU_pair n l ty) hcl1 hcl2 hsup
  refine ⟨?_, ?_, ?_⟩
  · rw [setActiveCue_cues]
    split
    · exact WSall_setLastSeenFirst l n _ hcl1
    · exact hupd.1
  · rw [setActiveCue_cues, setActiveCue_evict]
    split
    · exact KDall_setLastSeenFirst l n _ hcl2
    · exact hupd.2.1
  · intro hfl
    rw [setActiveCue_evict] at hfl
    rw [setActiveCue_cues]
    split
    · intro k hk
      rw [keys_setLastSeenFirst, keys_clearTypeInList]
      exact h3 hfl k hk
    · exact hupd.2.2 hfl

theorem C1Inv_parseCueText (cs0 : List Obj) (st : SState) (txt ty : String)
    (ctx : Option String) (now : ℤ)
    (hctx : ∀ s, ctx = some s → '/' ∉ s.data) (h : C1Inv cs0 st) :
    C1Inv cs0 (parseCueText st txt ty ctx now) := by
  obtain ⟨h1, h2, h3⟩ := h
  have hev := parseCueText_evict st txt ty ctx now
  rcases parseCueText_cues_cases_wf st txt ty ctx now hctx with
    ⟨l, hcues⟩ | hcues | hcues | ⟨list, cue, lab, comp, fd, hcues, hs1, hs2, hfd⟩
  · refine ⟨?_, ?_, ?_⟩
    · rw [hcues]; exact WSall_clearTypeInList ty l h1
    · rw [hcues, hev]; exact KDall_clearTypeInList ty l h2
    · intro hfl
      rw [hev] at hfl
      rw [hcues]
      intro k hk
      rw [keys_clearTypeInList]
      exact h3 hfl k hk
  · refine ⟨?_, ?_, ?_⟩
    · rw [hcues]; exact WSall_clearTypeAll ty h1
    · rw [hcues, hev]; exact KDall_clearTypeAll ty h2
    · intro hfl
      rw [hev] at hfl
      rw [hcues]
      intro k hk
      rw [keys_clearTypeAll]
      exact h3 hfl k hk
  · refine ⟨?_, ?_, ?_⟩
    · rw [hcues]; exact h1
    · rw [hcues, hev]; exact h2
    · intro hfl
      rw [hev] at hfl
      rw [hcues]
      exact h3 hfl
  · have hcl1 := WSall_clearTypeInList ty list h1
    have hcl2 := KDall_clearTypeInList ty list h2
    have hsup : st.evictionRan = false →
        SUPk cs0 (clearTypeInList st.cues ty list) := by
      intro hfl k hk
      rw [keys_clearTypeInList]
      exact h3 hfl k hk
    have hupd := updCuesFn_inv cs0 st.evictionRan (clearTypeInList st.cues ty list)
      cue ([("cue_list", JVal.vStr list), ("label", JVal.vStr lab),
        ("last_seen", JVal.vStr ty), ("completion", JVal.vStr comp)] ++ fd)
      (WfU_text cue list lab ty comp fd hfd hs1 hs2)
      (GoodU_text cue list lab ty comp fd hfd) hcl1 hcl2 hsup
    refine ⟨?_, ?_, ?_⟩
    · rw [hcues]; exact hupd.1
    · rw [hcues, hev]; exact hupd.2.1
    · intro hfl
      rw [hev] at hfl
      rw [hcues]
      exact hupd.2.2 hfl

theorem C1Inv_handleCueCount (cs0 : List Obj) (st : SState) (cl : Option ℤ)
    (cnt : ℤ) (h : C1Inv cs0 st) : C1Inv cs0 (handleCueCountResponseS st cl cnt) := by
  unfold handleCueCountResponseS
  cases cl with
  | none => exact h
  | some l =>
      dsimp only
      split
      · exact h
      · split
        · exact C1Inv_checkBulk cs0 _ (C1Inv_congr rfl rfl h)
        · exact C1Inv_congr rfl rfl h

theorem cueDataWildcard_evict (st : SState) (pc : Option ℤ) :
    (cueDataWildcard st pc).evictionRan = st.evictionRan := by
  unfold cueDataWildcard
  cases pc with
  | none => rfl
  | some v => dsimp only; split <;> rfl

theorem handleCueIndex_evict (st : SState) (cl : Option ℤ) (i : ℚ) :
    (handleCueIndexResponseS st cl i).1.evictionRan = st.evictionRan := by
  unfold handleCueIndexResponseS
  cases cl with
  | none => rfl
  | some l =>
      dsimp only
      repeat' split
      all_goals rfl

theorem C1Inv_cueDataUpsert (cs0 : List Obj) (st : SState) (ln cn pn : String)
    (args : List JVal) (now : ℤ)
    (hln : '/' ∉ ln.data) (hcn : '/' ∉ cn.data)
    (hpart : '/' ∉ (jsToStr (jsOr (getF (parseCueArgs ln pn args) "part_number")
      (JVal.vNum 0))).data)
    (h : C1Inv cs0 st) : C1Inv cs0 (cueDataUpsert st ln cn pn args now) := by
  unfold cueDataUpsert
  dsimp only
  split
  · have h1 : C1Inv cs0 (updateOrCreateCue st cn (parseCueArgs ln pn args)) :=
      C1Inv_updateOrCreateCue cs0 st cn _ (WfU_pca cn ln pn args hln hcn hpart)
        (GoodU_pca cn ln pn args) h
    split
    · split
      · exact C1Inv_congr rfl rfl (C1Inv_setActiveCue cs0 _ ln cn _ now hln hcn h1)
      · exact h1
    · exact h1
  · exact h

theorem C1Inv_cueDataStep (cs0 : List Obj) (st : SState) (ln cn pn : String)
    (pc : Option ℤ) (args : List JVal) (now : ℤ)
    (hln : '/' ∉ ln.data) (hcn : '/' ∉ cn.data)
    (hpart : '/' ∉ (jsToStr (jsOr (getF (parseCueArgs ln pn args) "part_number")
      (JVal.vNum 0))).data)
    (h : C1Inv cs0 st) : C1Inv cs0 (cueDataStep st ln cn pn pc args now) := by
  unfold cueDataStep
  dsimp only
  have hw : C1Inv cs0 (cueDataWildcard st pc) :=
    C1Inv_congr (cueDataWildcard_cues st pc) (cueDataWildcard_evict st pc) h
  cases hv : argN args 0 with
  | vNum i =>
      dsimp only
      have h1 : C1Inv cs0
          (handleCueIndexResponseS (cueDataWildcard st pc) (parseIntJS ln) i).1 :=
        C1Inv_congr (handleCueIndex_cues _ _ _) (handleCueIndex_evict _ _ _) hw
      have h2 := C1Inv_cueDataUpsert cs0 _ ln cn pn args now hln hcn hpart h1
      split
      · exact C1Inv_checkBulk cs0 _ h2
      · exact h2
  | _ => exact C1Inv_cueDataUpsert cs0 _ ln cn pn args now hln hcn hpart hw

/-- Well-formed engine events: the path parameters that feed key
components are slash-free (EOS list and cue numbers are numeric path
parts; a slash inside one would be a different OSC path). -/
def wfEvB : Ev → Bool
  | .perList l n _ _ => !(l.data.contains '/') && !(n.data.contains '/')
  | .textEv _ _ ctx _ =>
      match ctx with
      | some s => !(s.data.contains '/')
      | none => true
  | .cueData ln cn pn _ args _ =>
      (!(ln.data.contains '/') && !(cn.data.contains '/')) &&
        !((jsToStr (jsOr (getF (parseCueArgs ln pn args) "part_number")
            (JVal.vNum 0))).data.contains '/')
  | _ => true

theorem slash_of_bnot {l : List Char} (h : (!(l.contains '/')) = true) :
    '/' ∉ l := by
  simpa using h

theorem C1Inv_step (cs0 : List Obj) (st : SState) (e : Ev)
    (he : wfEvB e = true) (h : C1Inv cs0 st) : C1Inv cs0 (step st e) := by
  cases e with
  | perList l n ty now =>
      simp only [wfEvB] at he
      rw [Bool.and_eq_true] at he
      obtain ⟨he1, he2⟩ := he
      exact C1Inv_setActiveCue cs0 st l n ty now (slash_of_bnot he1)
        (slash_of_bnot he2) h
  | textEv txt ty ctx now =>
      refine C1Inv_parseCueText cs0 st txt ty ctx now ?_ h
      intro s hs
      rw [hs] at he
      simp only [wfEvB] at he
      exact slash_of_bnot he
  | countResp l cnt => exact C1Inv_handleCueCount cs0 st (some l) cnt h
  | cueData ln cn pn pc args now =>
      simp only [wfEvB] at he
      rw [Bool.and_eq_true, Bool.and_eq_true] at he
      obtain ⟨⟨he1, he2⟩, he3⟩ := he
      exact C1Inv_cueDataStep cs0 st ln cn pn pc args now (slash_of_bnot he1)
        (slash_of_bnot he2) (slash_of_bnot he3) h
  | countTimeout1 =>
      show C1Inv cs0 (countTimeout1Step st)
      exact C1Inv_congr (countTimeout1_frame st).2.2.2 (countTimeout1_frame st).2.2.1 h
  | countTimeout2 =>
      show C1Inv cs0 (countTimeout2Step st)
      exact C1Inv_congr (countTimeout2_frame st).2.2.2 (countTimeout2_frame st).2.2.1 h
  | completionTimeout =>
      show C1Inv cs0 (completionTimeoutStep st)
      unfold completionTimeoutStep
      split
      · exact h
      · exact C1Inv_checkBulk cs0 _ (C1Inv_congr rfl rfl h)
  | startRefresh l =>
      show C1Inv cs0 (requestAllCuesS st l)
      exact C1Inv_congr (requestAllCuesS_cues st l) (requestAllCuesS_frame st l).2.2.1 h

theorem C1Inv_run (cs0 : List Obj) (st : SState) (evs : List Ev)
    (hevs : ∀ e ∈ evs, wfEvB e = true) (h : C1Inv cs0 st) :
    C1Inv cs0 (run st evs) := by
  induction evs generalizing st with
  | nil => exact h
  | cons e rest ih =>
      exact ih (step st e) (fun x hx => hevs x (List.mem_cons_of_mem _ hx))
        (C1Inv_step cs0 st e (hevs e (List.mem_cons_self _ _)) h)

/-- C1: a field outside the always-overwrite set is written only when the
incoming value is non-empty, non-null and defined; consequently, across any
sequence of well-formed engine events (full refresh cycles with eviction
included), starting from a store with pairwise distinct keys, every cue of
the resulting store descends from the initial store or is fresh, and --
keyed survival -- every post-run cue whose `list/number[/part]` key equals
the key of an initial cue keeps that very cue's cue number and user-owned
fields (notes, color, tags, page, image_path) byte-identical, unless it is
a freshly created default record and an eviction pass ran in between (the
key was evicted and re-created); empty console values never clear user
data, and neither a wipe to defaults nor a cross-list swap can happen on a
cue whose key survives. -/
theorem C1_user_fields_preserved (st : SState) (evs : List Ev)
    (c updates : Obj) (f : String)
    (hA : alwaysUpdateFields.contains f = false)
    (hEmpty : ∀ kv ∈ updates, kv.1 = f → hasContent kv.2 = false)
    (hwfe : ∀ e ∈ evs, wfEvB e = true)
    (hws : ∀ c0 ∈ st.cues, WSc c0)
    (hnd : (st.cues.map existingKeyOf).Nodup) :
    getF (applyUpdates c updates) f = getF c f ∧
    (∀ c' ∈ (run st evs).cues, descUser st.cues c') ∧
    ∀ c0 ∈ st.cues, ∀ c' ∈ (run st evs).cues,
      existingKeyOf c' = existingKeyOf c0 →
      (getF c' "cue_number" = getF c0 "cue_number" ∧
        ∀ g ∈ userFields, getF c' g = getF c0 g) ∨
      (freshUser c' ∧ (run st evs).evictionRan = true) := by
  refine ⟨applyUpdates_getF_empty updates c f hA hEmpty,
    DU_run st evs (DU_refl st.cues), ?_⟩
  intro c0 hc0 c' hc' hkey
  have hinv0 : C1Inv st.cues st :=
    ⟨hws, fun c1 hc1 => Or.inl ⟨c1, hc1, rfl, rfl, fun _ _ => rfl⟩,
     fun _ k hk => hk⟩
  have hinv := C1Inv_run st.cues st evs hwfe hinv0
  rcases hinv.2.1 c' hc' with ⟨cm, hcm, h1, h2, h3⟩ | ⟨hf, hflag⟩
  · left
    have hkeq : existingKeyOf cm = existingKeyOf c0 := h1.symm.trans hkey
    have hceq : cm = c0 := List.inj_on_of_nodup_map hnd hcm hc0 hkeq
    rw [← hceq]
    exact ⟨h2, h3⟩
  · refine Or.inr ⟨hf, ?_⟩
    rcases hflag with hfl | hnotin
    · exact hfl
    · exfalso
      apply hnotin
      rw [hkey]
      exact List.mem_map_of_mem existingKeyOf hc0

/-- Witness for C1: a ''-valued notes update leaves notes intact; after the
concrete refresh cycle every cue descends from the initial store or is
fresh, and every same-key survivor keeps its own cue number and user
fields. -/
theorem C1_user_fields_preserved_witness :
    getF (applyUpdates exCueA [("notes", JVal.vStr "")]) "notes" =
      getF exCueA "notes" ∧
    (∀ c' ∈ (run exState c1Trace).cues, descUser exState.cues c') ∧
    ∀ c0 ∈ exState.cues, ∀ c' ∈ (run exState c1Trace).cues,
      existingKeyOf c' = existingKeyOf c0 →
      (getF c' "cue_number" = getF c0 "cue_number" ∧
        ∀ g ∈ userFields, getF c' g = getF c0 g) ∨
      (freshUser c' ∧ (run exState c1Trace).evictionRan = true) :=
  C1_user_fields_preserved exState c1Trace exCueA [("notes", JVal.vStr "")] "notes"
    (by decide) (by decide) (by decide)
    (by
      intro c0 hc0
      have h : c0 = exCueA ∨ c0 = exCueB ∨ c0 = exCueC := by
        simpa [exState] using hc0
      rcases h with rfl | rfl | rfl <;> exact ⟨by decide, by decide, by decide⟩)
    (by decide)

end AboutCue
